import Mathlib

/-!
# CIR frame decoder (`cir.c`): shallow embedding and verified properties

The embedding follows `src/cir.c` function by function.  Machine integers are
natural numbers with an explicit reduction modulo `2 ^ w` wherever the C type
truncates.  The struct fields of `s->l2.cirfsk` keep their source names.  The
byte arrays `rxbuf` and `rx_err` are maps from index to byte.  The host is
taken to be little-endian, as the `__bswap_16` before the 16-bit store implies.
-/

namespace CIR

/-! ## BCH(26,16) decoder -/

/-- The table `check_matrix` of `cir.c`, lines 30-37. -/
def check_matrix : List Nat :=
  [119, 743, 943, 779, 857,
   880, 440, 220, 110,  55,
   711, 959, 771, 861,
   882, 441,
   512, 256, 128,  64,  32,
    16,   8,   4,   2,   1]

/-- The constant `gx = 0x05B9 << (26 - 11)` of `decode_BCH_26_16`. -/
def gx : Nat := 0x05B9 <<< (26 - 11)

/-- One pass through the body of the remainder loop (lines 45-48):
`if (code & 0x2000000) code ^= gx; code = code << 1;` on a `uint32_t`. -/
def bch_step (code : Nat) : Nat :=
  let code := if code &&& 0x2000000 ≠ 0 then code ^^^ gx else code
  (code <<< 1) % 2 ^ 32

/-- The loop `for (i = 0; i < 16; i++)` run for `n` more iterations. -/
def bch_loop : Nat → Nat → Nat
  | 0, code => code
  | n + 1, code => bch_loop n (bch_step code)

/-- The value `res = code >> (26 - 10)` after the 16 iterations (line 50). -/
def bch_syndrome (code : Nat) : Nat := bch_loop 16 code >>> (26 - 10)

/-- The loop of lines 56-62 from index `i` on, with `n` iterations left: the
first index whose table entry equals `res`. -/
def search_one (res : Nat) : Nat → Nat → Option Nat
  | 0, _ => none
  | n + 1, i => if res = check_matrix.getD i 0 then some i else search_one res n (i + 1)

/-- The inner loop of lines 65-72 for a fixed `i`, from index `j` on, with `n`
iterations left. -/
def search_two_inner (res i : Nat) : Nat → Nat → Option Nat
  | 0, _ => none
  | n + 1, j =>
    if res = check_matrix.getD i 0 ^^^ check_matrix.getD j 0 then some j
    else search_two_inner res i n (j + 1)

/-- The outer loop of lines 64-73 from index `i` on, with `n` iterations left:
the first pair `(i, j)`, `i < j < 26`, in loop order whose table entries XOR
to `res`. -/
def search_two (res : Nat) : Nat → Nat → Option (Nat × Nat)
  | 0, _ => none
  | n + 1, i =>
    match search_two_inner res i (26 - (i + 1)) (i + 1) with
    | some j => some (i, j)
    | none => search_two res n (i + 1)

/-- The function `decode_BCH_26_16(code, value)`.  The out-parameter `*value`
is passed in and returned: the result is `(return value, *value afterwards)`.
On the path `return 3` the source leaves `*value` untouched. -/
def decode_BCH_26_16 (code : Nat) (value : Nat) : Nat × Nat :=
  let decode := code
  let res := bch_syndrome code
  if res = 0 then
    (0, (decode >>> 10) % 2 ^ 16)
  else
    match search_one res 26 0 with
    | some i =>
      let decode := decode ^^^ (1 <<< 25 >>> i)
      (1, (decode >>> 10) % 2 ^ 16)
    | none =>
      match search_two res 26 0 with
      | some (i, j) =>
        let decode := decode ^^^ (1 <<< 25 >>> i)
        let decode := decode ^^^ (1 <<< 25 >>> j)
        (2, (decode >>> 10) % 2 ^ 16)
      | none => (3, value)

/-! ## CRC16 -/

/-- One pass through the `do ... while (--i)` body of `crc16` (lines 93-96) on
the 32-bit `int crc`, kept as its bit pattern. -/
def crc16_bit (crc : Nat) : Nat :=
  if crc &&& 0x8000 ≠ 0 then ((crc <<< 1) ^^^ 0x1021) % 2 ^ 32
  else (crc <<< 1) % 2 ^ 32

/-- The inner loop run for `n` more iterations. -/
def crc16_bits : Nat → Nat → Nat
  | 0, crc => crc
  | n + 1, crc => crc16_bits n (crc16_bit crc)

/-- One pass through the `while (--count >= 0)` body (lines 90-97):
`crc = crc ^ (int) *ptr++ << 8;` then eight bit steps. -/
def crc16_byte (crc : Nat) (b : Nat) : Nat :=
  crc16_bits 8 (crc ^^^ (b <<< 8))

/-- The running register of `crc16` after the bytes of `bytes`, from `crc = 0`. -/
def crc16_reg (bytes : List Nat) : Nat := bytes.foldl crc16_byte 0

/-- The function `crc16(ptr, count)` on the bytes `ptr[0 .. count)`: the
`int` register returned as `unsigned short`. -/
def crc16 (bytes : List Nat) : Nat := crc16_reg bytes % 2 ^ 16

/-- The function `actual_rx_length` on `uint16_t`. -/
def actual_rx_length (rx_length : Nat) : Nat :=
  let rx_length := if rx_length % 2 ≠ 0 then (rx_length + 1) % 2 ^ 16 else rx_length
  (rx_length + 2) % 2 ^ 16

/-! ## Bit synchroniser and frame assembler -/

/-- The number of set bits among the low `n` bits of `x`. -/
def popcount_bits : Nat → Nat → Nat
  | 0, _ => 0
  | n + 1, x => x % 2 + popcount_bits n (x / 2)

/-- The compiler builtin `__builtin_popcountll` on its 64-bit argument. -/
def popcountll (x : Nat) : Nat := popcount_bits 64 x

/-- Modelled from the spec: the declaration of `s->l2.cirfsk` is in
`multimon.h`, which is not among the sources.  The fields are the ones `cir.c`
reads and writes, under their source names.  The array `sync_buffer[2]` (two
unsigned 32-bit halves) is the pair `sync_buffer0`, `sync_buffer1`; the
codeword accumulator `rxbitstream` is held in 32 bits; `rxbuf` and `rx_err` map
an index to the byte stored there; the counters `rxbitcount`, `rx_buf_pos`,
`fec_errors` and `rxlength` are not truncated. -/
structure cirfsk where
  sync_buffer0 : Nat
  sync_buffer1 : Nat
  rxbitstream : Nat
  rxbitcount : Nat
  rx_buf_pos : Nat
  fec_errors : Nat
  rxlength : Nat
  rxbuf : Nat → Nat
  rx_err : Nat → Nat

/-- What `cir_rxbit` lets the outside see: one constructor per `verbprintf`
call site of `cir_rxbit`, whatever its verbosity level (the macro itself is in
`multimon.h`), and one per frame report (`cir_display_package`,
`cir_display_package_bad_crc`, each of which prints the frame and hands it to
`json_builder`). -/
inductive Event where
  /-- Line 179, `"CIR> SYNC OK error:%d %d"`. -/
  | sync_ok (preamble_errors frame_sync_errors : Nat)
  /-- Line 187, `"CIR> SYNC error:%d %d %x %x"`. -/
  | sync_error (preamble_errors frame_sync_errors sync1 sync0 : Nat)
  /-- Line 197, `"CIR> %02d 0x%04x -> 0x%04x error:%d"`; `decoded` is `none`
  when `decode_BCH_26_16` returned 3 and left the local uninitialised. -/
  | word (rx_buf_pos raw : Nat) (decoded : Option Nat) (errors : Nat)
  /-- Line 215, `"CIR> zero length"`. -/
  | zero_length
  /-- Line 218, `"CIR> Length:%d"`. -/
  | length (length : Nat)
  /-- Line 225, `"crc ok"`. -/
  | crc_ok
  /-- Line 228, `"CIR> bad crc"`. -/
  | bad_crc
  /-- The call `cir_display_package(buffer, length)`: the bytes
  `buffer[0 .. length)`. -/
  | package (bytes : List Nat)
  /-- The call `cir_display_package_bad_crc(buffer, err, length)`: the bytes
  `buffer[0 .. length)` and the severities `err[0 .. length / 2)`. -/
  | package_bad_crc (bytes : List Nat) (err : List Nat)
  deriving DecidableEq, Repr

/-- The bytes `buffer[0 .. length)`. -/
def buffer_bytes (buffer : Nat → Nat) (length : Nat) : List Nat :=
  (List.range length).map buffer

/-- The function `cir_display_package(buffer, length)`, `length` a `uint16_t`. -/
def cir_display_package (buffer : Nat → Nat) (length : Nat) : List Event :=
  [Event.package (buffer_bytes buffer (length % 2 ^ 16))]

/-- The function `cir_display_package_bad_crc(buffer, err, length)`, `length` a
`uint16_t`. -/
def cir_display_package_bad_crc (buffer err : Nat → Nat) (length : Nat) : List Event :=
  [Event.package_bad_crc (buffer_bytes buffer (length % 2 ^ 16))
    (buffer_bytes err (length % 2 ^ 16 / 2))]

/-- The macro `__bswap_16` of `<byteswap.h>` on a `uint16_t`. -/
def bswap_16 (x : Nat) : Nat := ((x % 2 ^ 8) <<< 8) ||| ((x >>> 8) % 2 ^ 8)

/-- The store `*(uint16_t *) (&rxbuf[pos]) = v` on a little-endian host: the
low byte of `v` goes to `rxbuf[pos]`, the high byte to `rxbuf[pos + 1]`. -/
def store_u16 (rxbuf : Nat → Nat) (pos v : Nat) : Nat → Nat :=
  fun k => if k = pos then v % 2 ^ 8 else if k = pos + 1 then (v >>> 8) % 2 ^ 8 else rxbuf k

/-- The store `rx_err[idx] = errors` of a `uint8_t`. -/
def store_u8 (rx_err : Nat → Nat) (idx v : Nat) : Nat → Nat :=
  fun k => if k = idx then v % 2 ^ 8 else rx_err k

/-- The function `cir_rxbit(s, bit)` on the `cirfsk` part of the state: the
state afterwards and what the call printed and reported, in order. -/
def cir_rxbit (s : cirfsk) (bit : Nat) : cirfsk × List Event :=
  if s.rxbitcount = 0 then
    let sync1 := ((s.sync_buffer1 <<< 1) ||| (s.sync_buffer0 >>> 31)) % 2 ^ 32
    let sync0 := ((s.sync_buffer0 <<< 1) ||| bit) % 2 ^ 32
    let preamble_errors := popcountll (sync1 ^^^ 0x55555555) % 2 ^ 8
    let frame_sync_errors := popcountll (sync0 ^^^ 0x0DD4259F) % 2 ^ 8
    if preamble_errors + frame_sync_errors ≤ 4
        ∨ (preamble_errors ≤ 6 ∧ frame_sync_errors ≤ 2) then
      ({ s with
          sync_buffer0 := 0, sync_buffer1 := 0, rxbitstream := 0,
          rxbitcount := 1, rx_buf_pos := 0, fec_errors := 0 },
        [Event.sync_ok preamble_errors frame_sync_errors])
    else if preamble_errors + frame_sync_errors ≤ 10 then
      ({ s with sync_buffer0 := sync0, sync_buffer1 := sync1 },
        [Event.sync_error preamble_errors frame_sync_errors sync1 sync0])
    else
      ({ s with sync_buffer0 := sync0, sync_buffer1 := sync1 }, [])
  else
    let rxbitstream := ((s.rxbitstream <<< 1) ||| bit) % 2 ^ 32
    if s.rxbitcount % 26 = 0 then
      let r := decode_BCH_26_16 rxbitstream 0
      let errors := r.1
      let ev_word := Event.word s.rx_buf_pos (rxbitstream >>> 10)
        (if errors ≥ 3 then none else some r.2) errors
      let fec_errors := if errors ≥ 3 then s.fec_errors + 1 else s.fec_errors
      let decoded := if errors ≥ 3 then (rxbitstream >>> 10) % 2 ^ 16 else r.2
      let rxbuf := store_u16 s.rxbuf s.rx_buf_pos (bswap_16 decoded)
      let rx_err := store_u8 s.rx_err (s.rx_buf_pos / 2) errors
      let rx_buf_pos := s.rx_buf_pos + 2
      let s1 : cirfsk :=
        { s with
          rxbitstream := 0, fec_errors := fec_errors, rxbuf := rxbuf,
          rx_err := rx_err, rx_buf_pos := rx_buf_pos }
      if s.rxbitcount = 26 then
        let length := decoded % 2 ^ 8
        if length = 0 then
          ({ s1 with rxlength := length, rxbitcount := 0 }, [ev_word, Event.zero_length])
        else
          ({ s1 with rxlength := length, rxbitcount := s.rxbitcount + 1 },
            [ev_word, Event.length length])
      else if rx_buf_pos = actual_rx_length s.rxlength then
        let crc := crc16 (buffer_bytes rxbuf s.rxlength)
        if (crc >>> 8) &&& 0x00ff = rxbuf s.rxlength
            ∧ crc &&& 0x00ff = rxbuf (s.rxlength + 1) then
          ({ s1 with rxbitcount := 0 },
            [ev_word, Event.crc_ok] ++ cir_display_package rxbuf (s.rxlength + 2))
        else
          ({ s1 with rxbitcount := 0 },
            [ev_word, Event.bad_crc]
              ++ cir_display_package_bad_crc rxbuf rx_err (actual_rx_length s.rxlength))
      else
        ({ s1 with rxbitcount := s.rxbitcount + 1 }, [ev_word])
    else
      ({ s with rxbitstream := rxbitstream, rxbitcount := s.rxbitcount + 1 }, [])

/-- The function `cir_init` on the `cirfsk` part of the state (its `memset`
clears `s->l2.uart`, which `cir_rxbit` does not use). -/
def cir_init (s : cirfsk) : cirfsk :=
  { s with rx_buf_pos := 0, rxbitstream := 0, rxbitcount := 0 }

/-- The calls `cir_rxbit(s, b)` for the bits `b` of a list, in order. -/
def cir_rxbits (s : cirfsk) : List Nat → cirfsk × List Event
  | [] => (s, [])
  | b :: bs =>
    let r := cir_rxbit s b
    let r2 := cir_rxbits r.1 bs
    (r2.1, r.2 ++ r2.2)

/-- The decoder state with every field zero. -/
def zero_state : cirfsk :=
  { sync_buffer0 := 0, sync_buffer1 := 0, rxbitstream := 0, rxbitcount := 0,
    rx_buf_pos := 0, fec_errors := 0, rxlength := 0,
    rxbuf := fun _ => 0, rx_err := fun _ => 0 }

/-- The good-frame reports among a list of events, in order. -/
def good_frames : List Event → List (List Nat)
  | [] => []
  | Event.package bytes :: es => bytes :: good_frames es
  | _ :: es => good_frames es

/-- The bad-frame reports among a list of events, in order. -/
def bad_frames : List Event → List (List Nat × List Nat)
  | [] => []
  | Event.package_bad_crc bytes err :: es => (bytes, err) :: bad_frames es
  | _ :: es => bad_frames es

/-! ## Specification-side and auxiliary definitions -/

/-- The correction that `decode_BCH_26_16` applies for the syndrome `res`, read
off its three search stages: the return value and the XOR of the masks
`1 << 25 >> i` it flips in `decode` (0 when it flips nothing). -/
def bch_correction (res : Nat) : Nat × Nat :=
  if res = 0 then (0, 0)
  else
    match search_one res 26 0 with
    | some i => (1, 1 <<< 25 >>> i)
    | none =>
      match search_two res 26 0 with
      | some (i, j) => (2, (1 <<< 25 >>> i) ^^^ (1 <<< 25 >>> j))
      | none => (3, 0)

/-- Schoolbook long division over GF(2), polynomials as bit strings: the
remainder of `a`, of degree below `dg + k`, on division by `g` of degree `dg`.
The coefficient of `x ^ (dg + k - 1)` is cancelled first, by adding
`g * x ^ (k - 1)`, and so on down to the coefficient of `x ^ dg`. -/
def gf2_rem (g dg : Nat) : Nat → Nat → Nat
  | 0, a => a
  | k + 1, a => gf2_rem g dg k (if a.testBit (dg + k) then a ^^^ (g <<< k) else a)

/-- Systematic encoding of the 16-bit value `v` with the generator `0x5B9`:
`v * x ^ 10` plus the remainder of `v * x ^ 10` on division by the generator. -/
def bch_encode (v : Nat) : Nat := (v <<< 10) ||| gf2_rem 0x5B9 10 16 (v <<< 10)

/-- The pairs of bit positions `p < q` whose double error `decode_BCH_26_16`
does not undo: the pair syndrome is a table entry, or an earlier pair in
search order has the same syndrome. -/
def miscorrected_pairs : List (Nat × Nat) :=
  [(0, 10), (0, 11), (0, 18), (0, 19), (1, 11), (1, 12), (1, 19), (1, 20),
   (2, 12), (2, 13), (2, 20), (2, 21), (3, 13), (3, 22), (4, 14), (4, 23),
   (5, 15), (5, 24), (6, 16), (6, 25), (10, 19), (11, 18), (11, 20), (12, 19),
   (12, 21), (13, 20), (13, 22), (14, 23), (15, 24), (16, 25)]

/-- Reference CRC16 step on a 16-bit register: polynomial `0x1021`, most
significant bit first. -/
def crc16_ref_bit (r : Nat) : Nat :=
  if 0x8000 ≤ r then ((r <<< 1) % 2 ^ 16) ^^^ 0x1021 else (r <<< 1) % 2 ^ 16

/-- Reference CRC16 of one byte into the 16-bit register `r`. -/
def crc16_ref_byte (r b : Nat) : Nat :=
  crc16_ref_bit (crc16_ref_bit (crc16_ref_bit (crc16_ref_bit
    (crc16_ref_bit (crc16_ref_bit (crc16_ref_bit (crc16_ref_bit (r ^^^ (b <<< 8)))))))))

/-- Reference CRC16: polynomial `0x1021`, initial value 0, most significant
bit first, no final XOR, over a 16-bit register. -/
def crc16_ref (bytes : List Nat) : Nat := bytes.foldl crc16_ref_byte 0

/-- The `n` low bits of `w`, most significant first. -/
def bits_msb : Nat → Nat → List Nat
  | 0, _ => []
  | n + 1, w => (w >>> n) % 2 :: bits_msb n w

/-- The 51-bit alternating preamble `1010...101`. -/
def preamble : List Nat := (List.range 51).map (fun i => (i + 1) % 2)

/-- The 32 bits of the frame-sync word `0x0DD4259F`, most significant first. -/
def frame_sync : List Nat := bits_msb 32 0x0DD4259F

/-- The high half `sync_buffer[1]` of the window after line 172 has shifted. -/
def shifted_sync1 (s : cirfsk) : Nat :=
  ((s.sync_buffer1 <<< 1) ||| (s.sync_buffer0 >>> 31)) % 2 ^ 32

/-- The low half `sync_buffer[0]` of the window after line 173 has shifted
`bit` in. -/
def shifted_sync0 (s : cirfsk) (bit : Nat) : Nat :=
  ((s.sync_buffer0 <<< 1) ||| bit) % 2 ^ 32

/-- Hamming distance of the shifted high half from the preamble pattern. -/
def preamble_err (s : cirfsk) : Nat := popcountll (shifted_sync1 s ^^^ 0x55555555)

/-- Hamming distance of the shifted low half from the frame-sync pattern. -/
def frame_err (s : cirfsk) (bit : Nat) : Nat :=
  popcountll (shifted_sync0 s bit ^^^ 0x0DD4259F)

/-- A searching state with the given window halves, everything else zero. -/
def sync_state (sync0 sync1 : Nat) : cirfsk :=
  { zero_state with sync_buffer0 := sync0, sync_buffer1 := sync1 }

/-- The accumulator `rxbitstream` after line 193 has shifted `bit` in. -/
def rx_word (s : cirfsk) (bit : Nat) : Nat := ((s.rxbitstream <<< 1) ||| bit) % 2 ^ 32

/-- The local `errors` of line 196. -/
def rx_errors (s : cirfsk) (bit : Nat) : Nat := (decode_BCH_26_16 (rx_word s bit) 0).1

/-- The local `decoded` after lines 196-203. -/
def rx_decoded (s : cirfsk) (bit : Nat) : Nat :=
  if rx_errors s bit ≥ 3 then (rx_word s bit >>> 10) % 2 ^ 16
  else (decode_BCH_26_16 (rx_word s bit) 0).2

/-- The state after lines 193-208: the word stored, `rxbitcount` not yet
touched. -/
def rx_stored (s : cirfsk) (bit : Nat) : cirfsk :=
  { s with
    rxbitstream := 0
    fec_errors := if rx_errors s bit ≥ 3 then s.fec_errors + 1 else s.fec_errors
    rxbuf := store_u16 s.rxbuf s.rx_buf_pos (bswap_16 (rx_decoded s bit))
    rx_err := store_u8 s.rx_err (s.rx_buf_pos / 2) (rx_errors s bit)
    rx_buf_pos := s.rx_buf_pos + 2 }

/-- The trace line of line 197. -/
def rx_trace (s : cirfsk) (bit : Nat) : Event :=
  Event.word s.rx_buf_pos (rx_word s bit >>> 10)
    (if rx_errors s bit ≥ 3 then none else some (decode_BCH_26_16 (rx_word s bit) 0).2)
    (rx_errors s bit)

/-- A collecting state one bit short of completing a frame of expected length
4: the header `01 04` and the word `12 34` are stored, and 25 bits of the
codeword of `0xb9b2` have arrived. -/
def completing_state : cirfsk :=
  { zero_state with
    rxbitcount := 78, rxlength := 4, rx_buf_pos := 4,
    rxbitstream := bch_encode 0xb9b2 >>> 1,
    rxbuf := fun k => if k = 0 then 0x01 else if k = 1 then 0x04
      else if k = 2 then 0x12 else if k = 3 then 0x34 else 0 }

/-- The state `s` with the accumulator and the bit counter replaced. -/
def with_accumulator (s : cirfsk) (rxbitstream rxbitcount : Nat) : cirfsk :=
  { s with rxbitstream := rxbitstream, rxbitcount := rxbitcount }

/-- The state `s` after lines 193-208 have stored the word `v` with a severity
`e` below 3, with the bit counter set to `rxbitcount`. -/
def after_word (s : cirfsk) (v e rxbitcount : Nat) : cirfsk :=
  { s with
    rxbitstream := 0
    rxbuf := store_u16 s.rxbuf s.rx_buf_pos (bswap_16 v)
    rx_err := store_u8 s.rx_err (s.rx_buf_pos / 2) e
    rx_buf_pos := s.rx_buf_pos + 2
    rxbitcount := rxbitcount }

/-- The state `s` with the expected length replaced. -/
def with_rxlength (s : cirfsk) (rxlength : Nat) : cirfsk :=
  { s with rxlength := rxlength }

/-- The return value of `decode_BCH_26_16` on the received word `w`. -/
def word_errors (w : Nat) : Nat := (decode_BCH_26_16 w 0).1

/-- The 16-bit value that lines 196-203 keep for the received word `w`: the
decoder's value, or the raw top bits when the decoder gave up. -/
def word_decoded (w : Nat) : Nat :=
  if word_errors w ≥ 3 then (w >>> 10) % 2 ^ 16 else (decode_BCH_26_16 w 0).2

/-- The state `s` with the two halves of the sync window replaced. -/
def with_window (s : cirfsk) (sync0 sync1 : Nat) : cirfsk :=
  { s with sync_buffer0 := sync0, sync_buffer1 := sync1 }

/-- The number of words stored since the last lock, read off the trace: every
stored word prints one line (line 197) and a lock prints `SYNC OK`; `c` is the
count before the first event. -/
def words_since_lock : List Event → Nat → Nat
  | [], c => c
  | Event.sync_ok _ _ :: es, _ => words_since_lock es 0
  | Event.word _ _ _ _ :: es, c => words_since_lock es (c + 1)
  | _ :: es, c => words_since_lock es c

/-- A collecting state on the last bit of the first codeword after a lock, the
codeword being that of the header `01 00` with length byte 0. -/
def zero_length_state : cirfsk :=
  with_accumulator zero_state (bch_encode 0x0100 / 2) 26

/-- A collecting state on the last bit of the second word of a frame of
expected length 6, the received word being the codeword of `0x1234` with its
three low bits flipped, which the decoder cannot correct. -/
def uncorrectable_state : cirfsk :=
  { zero_state with
    rxbitcount := 52, rxlength := 6, rx_buf_pos := 2,
    rxbitstream := (bch_encode 0x1234 ^^^ 7) / 2 }

/-- The 64-bit sync window as one number: `sync_buffer[1]` is the high half,
`sync_buffer[0]` the low half. -/
def window (s : cirfsk) : Nat := s.sync_buffer1 * 2 ^ 32 + s.sync_buffer0

/-- The bits of a list shifted one by one into the low end of the number `a`,
the first bit of the list first. -/
def shift_in (a : Nat) (bits : List Nat) : Nat := bits.foldl (fun a b => 2 * a + b) a

/-- Two decoder states that agree on everything a later call can read: the
bit counter and the sync window and, while collecting, the accumulator, the
buffer position, the bytes and severities stored so far, and, once the header
word is in, the expected length. -/
def same_from_lock (s t : cirfsk) : Prop :=
  s.rxbitcount = t.rxbitcount ∧ s.sync_buffer0 = t.sync_buffer0 ∧
  s.sync_buffer1 = t.sync_buffer1 ∧
  (s.rxbitcount ≠ 0 →
    s.rxbitstream = t.rxbitstream ∧ s.rx_buf_pos = t.rx_buf_pos ∧
    (∀ k, k < s.rx_buf_pos → s.rxbuf k = t.rxbuf k) ∧
    (∀ k, k < s.rx_buf_pos / 2 → s.rx_err k = t.rx_err k) ∧
    (26 < s.rxbitcount → s.rxlength = t.rxlength ∧ s.rxlength < 256))

/-- A searching state with a zero window and arbitrary leftovers of an earlier
frame. -/
def leftover_state : cirfsk :=
  { zero_state with
    rxbitstream := 5, rx_buf_pos := 6, fec_errors := 3, rxlength := 9,
    rxbuf := fun k => k + 1, rx_err := fun _ => 2 }

/-- The bits of a list of 26-bit words, each word most significant bit first. -/
def word_bits : List Nat → List Nat
  | [] => []
  | w :: ws => bits_msb 26 w ++ word_bits ws

/-- The bytes that a list of received words puts into the frame buffer: each
word's kept value, high byte first. -/
def frame_bytes : List Nat → List Nat
  | [] => []
  | w :: ws => word_decoded w / 256 :: word_decoded w % 256 :: frame_bytes ws

/-- The decoder is collecting on a codeword boundary and `ws`, header word
first, are the received words it has stored since the lock. -/
def collected (s : cirfsk) (ws : List Nat) : Prop :=
  s.rxbitcount = 26 * ws.length + 1 ∧ s.rxbitstream = 0 ∧ s.rx_buf_pos = 2 * ws.length ∧
  buffer_bytes s.rxbuf (2 * ws.length) = frame_bytes ws ∧
  buffer_bytes s.rx_err ws.length = ws.map word_errors ∧
  (∀ w rest, ws = w :: rest → s.rxlength = word_decoded w % 256)

/-- The state right after a lock on a zeroed decoder. -/
def locked_state : cirfsk := { zero_state with rxbitcount := 1 }

/-- A collecting state one bit short of completing a frame of expected length
4 whose trailer does not match: the header `01 04` and the word `12 34` are
stored, the second with one corrected bit error on record, and 25 bits of the
codeword of `0x0000` with bit 12 flipped have arrived. -/
def bad_crc_state : cirfsk :=
  { zero_state with
    rxbitcount := 78, rxlength := 4, rx_buf_pos := 4,
    rxbitstream := 0x1000 >>> 1,
    rxbuf := fun k => if k = 0 then 0x01 else if k = 1 then 0x04
      else if k = 2 then 0x12 else if k = 3 then 0x34 else 0,
    rx_err := fun k => if k = 1 then 1 else 0 }

/-- The three received words of a frame of expected length 4 whose trailer
does not match: the codewords of `0x0104` and `0x1234`, the second with bit 3
flipped, and the codeword of `0x0000` with bit 12 flipped. -/
def bad_crc_words : List Nat := [bch_encode 0x0104, bch_encode 0x1234 ^^^ 8, 0x1000]

/-- Product over GF(2) of the polynomial `g` and the polynomial of the `k` low
bits of `q`, polynomials as bit strings: the XOR of `g * x ^ i` over the
set bits `i < k` of `q` (carry-less multiplication). -/
def gf2_mul (g : Nat) : Nat → Nat → Nat
  | 0, _ => 0
  | k + 1, q => (if q.testBit k then g <<< k else 0) ^^^ gf2_mul g k q

/-- The quotient that goes with `gf2_rem`: bit `i` is set when long division
cancels the coefficient of `x ^ (dg + i)`. -/
def gf2_quot (g dg : Nat) : Nat → Nat → Nat
  | 0, _ => 0
  | k + 1, a =>
    (if a.testBit (dg + k) then 2 ^ k else 0)
      + gf2_quot g dg k (if a.testBit (dg + k) then a ^^^ (g <<< k) else a)

/-! ## JSON response builder -/

/-- Modelled from the spec: `cs_to_hex` belongs to the mongoose library
(`mongoose.h`), which is not among the sources.  The spec says that a byte is
encoded as two lowercase hex digits; this is the ASCII code of the lowercase
hex digit of value `d`. -/
def hex_digit (d : Nat) : Nat := if d % 16 < 10 then 0x30 + d % 16 else 0x61 + (d % 16 - 10)

/-- Modelled from the spec: the call `cs_to_hex(to, p, len)` of the mongoose
library, which is not among the sources: the bytes `p[0 .. len)` written as two
lowercase hex digits each, high digit first. -/
def cs_to_hex : List Nat → List Nat
  | [] => []
  | b :: rest => hex_digit (b / 16) :: hex_digit b :: cs_to_hex rest

/-- The function `json_builder(raw)` on the global `resp`, lines 111-131.  The
response is the list of the bytes `resp.p[0 .. resp.len)` (the terminating
`'\0'` written at `new[resp.len]` is not part of it); `raw` is the list of the
bytes `raw.p[0 .. raw.len)`.  Whether `malloc` or `realloc` returns a block is
not decided by the program: `alloc_ok` says whether the call of this
invocation succeeds.  Sizes of type `size_t` are not truncated. -/
def json_builder (alloc_ok : Bool) (resp : List Nat) (raw : List Nat) : List Nat :=
  if resp.length = 0 then
    if !alloc_ok then resp
    else
      let new : List Nat := []
      let new := new ++ [0x22]
      let new := new ++ cs_to_hex raw
      new ++ [0x22]
  else
    if !alloc_ok then resp
    else
      let new := resp
      let new := new ++ [0x2c]
      let new := new ++ [0x0d]
      let new := new ++ [0x0a]
      let new := new ++ [0x22]
      let new := new ++ cs_to_hex raw
      new ++ [0x22]

/-- The calls `json_builder(raw)` for a list of frames in order, each with the
outcome of its allocation, from the response `resp`. -/
def json_builder_run (resp : List Nat) (calls : List (Bool × List Nat)) : List Nat :=
  calls.foldl (fun resp c => json_builder c.1 resp c.2) resp

/-- A frame rendered as a double-quoted string of two lowercase hex digits per
byte. -/
def quoted_hex (raw : List Nat) : List Nat := [0x22] ++ cs_to_hex raw ++ [0x22]

/-- The response text for a list of frames: the quoted frames in order, joined
by a comma followed by CR LF, nothing before the first or after the last. -/
def frames_text : List (List Nat) → List Nat
  | [] => []
  | [f] => quoted_hex f
  | f :: g :: rest => quoted_hex f ++ [0x2c, 0x0d, 0x0a] ++ frames_text (g :: rest)

/-- Invariant of the frame assembler: searching with at most 258 bytes left in
the buffer; or inside the header word with an empty buffer; or past the header
with a one-byte expected length, two bytes stored per completed word and the
buffer not yet full. -/
def frame_bounded (s : cirfsk) : Prop :=
  (s.rxbitcount = 0 ∧ s.rx_buf_pos ≤ 258) ∨
  (1 ≤ s.rxbitcount ∧ s.rxbitcount ≤ 26 ∧ s.rx_buf_pos = 0) ∨
  (27 ≤ s.rxbitcount ∧ s.rxlength < 256 ∧ s.rx_buf_pos = 2 * ((s.rxbitcount - 1) / 26) ∧
    s.rx_buf_pos < actual_rx_length s.rxlength)

/-- The three codewords of a good frame of expected length 4: header `01 04`,
the word `12 34` and the CRC trailer `b9 b2`. -/
def good_words : List Nat := [bch_encode 0x0104, bch_encode 0x1234, bch_encode 0xb9b2]

/-- The bits of two transmissions in a row: preamble, frame sync and the
codewords of `good_words`, then preamble and frame sync again. -/
def relock_bits : List Nat :=
  preamble ++ frame_sync ++ word_bits good_words ++ preamble ++ frame_sync
/-- A collecting state whose window holds preamble and frame sync but for the
last bit: in the searching state the bit 1 would declare lock here. -/
def collecting_sync_state : cirfsk :=
  { sync_state 0x6ea12cf 0x2aaaaaad with rxbitcount := 5 }

/-- The 234 bits of a frame of expected length 16 that carries a complete
preamble and frame sync inside its codeword stream: the header codeword
`01 10`, the 51 preamble bits, the 32 frame-sync bits, and 125 zero bits. -/
def embedded_sync_bits : List Nat :=
  bits_msb 26 (bch_encode 0x0110) ++ preamble ++ frame_sync ++ List.replicate 125 0

/-! ## Theorems -/

/-! ### Bitwise arithmetic -/

theorem xor_shiftLeft (a b n : Nat) : (a ^^^ b) <<< n = a <<< n ^^^ b <<< n := by
  apply Nat.eq_of_testBit_eq
  intro i
  simp only [Nat.testBit_xor, Nat.testBit_shiftLeft]
  cases decide (i ≥ n) <;> simp

theorem xor_shiftRight (a b n : Nat) : (a ^^^ b) >>> n = a >>> n ^^^ b >>> n := by
  apply Nat.eq_of_testBit_eq
  intro i
  simp only [Nat.testBit_xor, Nat.testBit_shiftRight]

theorem xor_mod_two_pow (a b n : Nat) : (a ^^^ b) % 2 ^ n = a % 2 ^ n ^^^ b % 2 ^ n := by
  apply Nat.eq_of_testBit_eq
  intro i
  simp only [Nat.testBit_xor, Nat.testBit_mod_two_pow]
  cases decide (i < n) <;> simp

theorem and_two_pow_ne_zero (a k : Nat) : a &&& 2 ^ k ≠ 0 ↔ a.testBit k = true := by
  rw [Nat.and_two_pow]
  cases a.testBit k <;> simp

theorem xor_xor_xor_cancel (a b g : Nat) : (a ^^^ g) ^^^ (b ^^^ g) = a ^^^ b := by
  apply Nat.eq_of_testBit_eq
  intro i
  simp only [Nat.testBit_xor]
  cases a.testBit i <;> cases b.testBit i <;> cases g.testBit i <;> rfl

theorem xor_right_comm (a b g : Nat) : (a ^^^ b) ^^^ g = (a ^^^ g) ^^^ b := by
  rw [Nat.xor_assoc, Nat.xor_comm b g, Nat.xor_assoc]

/-! ### The syndrome is linear -/

theorem bch_step_eq (a : Nat) :
    bch_step a = ((if a.testBit 25 then a ^^^ gx else a) <<< 1) % 2 ^ 32 := by
  have h : a &&& 0x2000000 ≠ 0 ↔ a.testBit 25 = true := and_two_pow_ne_zero a 25
  simp only [bch_step]
  by_cases hb : a.testBit 25 = true
  · rw [if_pos (h.mpr hb), if_pos hb]
  · rw [if_neg (fun hc => hb (h.mp hc)), if_neg hb]

theorem bch_step_xor (a b : Nat) : bch_step (a ^^^ b) = bch_step a ^^^ bch_step b := by
  simp only [bch_step_eq, Nat.testBit_xor, ← xor_mod_two_pow, ← xor_shiftLeft]
  cases ha : a.testBit 25 <;> cases hb : b.testBit 25
  · rfl
  · simp only [Bool.false_xor, if_true, Bool.false_eq_true, if_false, Nat.xor_assoc]
  · simp only [Bool.xor_false, if_true, Bool.false_eq_true, if_false, xor_right_comm]
  · simp only [Bool.xor_self, if_true, Bool.false_eq_true, if_false, xor_xor_xor_cancel]

theorem bch_loop_xor (n a b : Nat) : bch_loop n (a ^^^ b) = bch_loop n a ^^^ bch_loop n b := by
  induction n generalizing a b with
  | zero => rfl
  | succ n ih => simp only [bch_loop, bch_step_xor, ih]

theorem bch_syndrome_xor (a b : Nat) :
    bch_syndrome (a ^^^ b) = bch_syndrome a ^^^ bch_syndrome b := by
  simp only [bch_syndrome, bch_loop_xor, xor_shiftRight]

/-! ### The decoder in terms of its correction -/

theorem bch_correction_fst_le (res : Nat) : (bch_correction res).1 ≤ 3 := by
  unfold bch_correction
  split
  · simp
  · split
    · simp
    · split <;> simp

theorem decode_eq_correction (code value : Nat) :
    decode_BCH_26_16 code value =
      ((bch_correction (bch_syndrome code)).1,
        if (bch_correction (bch_syndrome code)).1 = 3 then value
        else ((code ^^^ (bch_correction (bch_syndrome code)).2) >>> 10) % 2 ^ 16) := by
  unfold decode_BCH_26_16 bch_correction
  by_cases h0 : bch_syndrome code = 0
  · simp [h0]
  · simp only [h0, if_false]
    cases h1 : search_one (bch_syndrome code) 26 0 with
    | some i => simp
    | none =>
      cases h2 : search_two (bch_syndrome code) 26 0 with
      | some ij => simp [Nat.xor_assoc]
      | none => simp

theorem decode_fst_eq_zero_iff (code value : Nat) :
    (decode_BCH_26_16 code value).1 = 0 ↔ bch_syndrome code = 0 := by
  rw [decode_eq_correction]
  unfold bch_correction
  by_cases h0 : bch_syndrome code = 0
  · simp [h0]
  · simp only [h0, if_false, iff_false]
    cases search_one (bch_syndrome code) 26 0 with
    | some i => simp
    | none =>
      cases search_two (bch_syndrome code) 26 0 with
      | some ij => simp
      | none => simp

/-- Decoding a valid codeword hit by the error pattern `e`: the severity and
the flipped bits depend on `e` alone. -/
theorem decode_valid_xor (c e value : Nat) (hc : bch_syndrome c = 0) :
    decode_BCH_26_16 (c ^^^ e) value =
      ((bch_correction (bch_syndrome e)).1,
        if (bch_correction (bch_syndrome e)).1 = 3 then value
        else ((c >>> 10) ^^^ ((e ^^^ (bch_correction (bch_syndrome e)).2) >>> 10)) % 2 ^ 16) := by
  rw [decode_eq_correction, bch_syndrome_xor, hc, Nat.zero_xor, Nat.xor_assoc, xor_shiftRight]

theorem shiftRight_ten_lt (c : Nat) (hc : c < 2 ^ 26) : c >>> 10 < 2 ^ 16 := by
  rw [Nat.shiftRight_eq_div_pow]
  omega

theorem single_error_facts : ∀ p, p < 26 →
    bch_correction (bch_syndrome (2 ^ p)) = (1, 2 ^ p) := by
  decide!

/-- C1: for every valid 26-bit codeword `c` (one on which `decode_BCH_26_16`
returns severity 0) and every bit position `p` in 0..25, `decode_BCH_26_16`
applied to `c xor 2^p` returns severity 1 and yields the value `c >> 10`. -/
theorem C1_single_bit_error_corrected (c p v w : Nat) (hc : c < 2 ^ 26)
    (hvalid : (decode_BCH_26_16 c v).1 = 0) (hp : p < 26) :
    decode_BCH_26_16 (c ^^^ 2 ^ p) w = (1, c >>> 10) := by
  rw [decode_fst_eq_zero_iff] at hvalid
  rw [decode_valid_xor c (2 ^ p) w hvalid, single_error_facts p hp]
  simp only [Nat.xor_self, Nat.zero_shiftRight, Nat.xor_zero]
  rw [Nat.mod_eq_of_lt (shiftRight_ten_lt c hc)]
  simp

/-- C1 at the codeword of `0x1234` with bit 3 flipped. -/
theorem C1_single_bit_error_corrected_witness :
    4771990 < 2 ^ 26 ∧ (decode_BCH_26_16 4771990 0).1 = 0 ∧ 3 < 26 ∧
      decode_BCH_26_16 (4771990 ^^^ 2 ^ 3) 0 = (1, 4771990 >>> 10) :=
  ⟨by decide, by decide, by decide,
    C1_single_bit_error_corrected 4771990 3 0 0 (by decide) (by decide) (by decide)⟩

/-! ### Double errors -/

theorem double_error_facts : ∀ p, p < 26 → ∀ q, q < 26 → p < q →
    (bch_correction (bch_syndrome (2 ^ p ^^^ 2 ^ q))).1 ≠ 3 ∧
    if (p, q) ∈ miscorrected_pairs then
      (bch_correction (bch_syndrome (2 ^ p ^^^ 2 ^ q))).1 ≠ 2 ∨
        (((2 ^ p ^^^ 2 ^ q) ^^^ (bch_correction (bch_syndrome (2 ^ p ^^^ 2 ^ q))).2) >>> 10)
          % 2 ^ 16 ≠ 0
    else bch_correction (bch_syndrome (2 ^ p ^^^ 2 ^ q)) = (2, 2 ^ p ^^^ 2 ^ q) := by
  decide!

theorem xor_eq_self_iff (a z : Nat) : a ^^^ z = a ↔ z = 0 := by
  constructor
  · intro h
    have h2 : a ^^^ z = a ^^^ 0 := by rw [h, Nat.xor_zero]
    exact Nat.xor_right_inj.mp h2
  · intro h
    rw [h, Nat.xor_zero]

/-- C2 fails at the valid codeword 4771990 (the encoding of `0x1234`) with bits
0 and 10 flipped: the syndrome of that pair is the table entry of bit 19, so the
single-error stage answers with severity 1 and the value `0x1035`. -/
theorem C2_double_bit_error_counterexample :
    4771990 < 2 ^ 26 ∧ (decode_BCH_26_16 4771990 0).1 = 0 ∧
      decode_BCH_26_16 (4771990 ^^^ 2 ^ 0 ^^^ 2 ^ 10) 0 = (1, 4149) ∧
      ((1, 4149) : Nat × Nat) ≠ (2, 4771990 >>> 10) := by
  decide

/-- C2, amended: for every valid 26-bit codeword `c` and every pair of bit
positions `p < q` in 0..25, `decode_BCH_26_16` applied to
`c xor 2^p xor 2^q` returns severity 2 and yields `c >> 10` exactly when
`(p, q)` is not one of the 30 pairs of `miscorrected_pairs`. -/
theorem C2_double_bit_error_corrected_iff (c p q v w : Nat) (hc : c < 2 ^ 26)
    (hvalid : (decode_BCH_26_16 c v).1 = 0) (hpq : p < q) (hq : q < 26) :
    decode_BCH_26_16 (c ^^^ 2 ^ p ^^^ 2 ^ q) w = (2, c >>> 10) ↔
      (p, q) ∉ miscorrected_pairs := by
  rw [decode_fst_eq_zero_iff] at hvalid
  have hfact := (double_error_facts p (by omega) q hq hpq).2
  have hlt := shiftRight_ten_lt c hc
  rw [Nat.xor_assoc, decode_valid_xor c (2 ^ p ^^^ 2 ^ q) w hvalid]
  by_cases hmem : (p, q) ∈ miscorrected_pairs
  · rw [if_pos hmem] at hfact
    simp only [hmem, not_true_eq_false, iff_false]
    intro heq
    have h1 := congrArg Prod.fst heq
    have h2 := congrArg Prod.snd heq
    simp only at h1 h2
    rcases hfact with hf | hf
    · exact hf h1
    · rw [if_neg (by omega), xor_mod_two_pow, Nat.mod_eq_of_lt hlt, xor_eq_self_iff] at h2
      exact hf h2
  · rw [if_neg hmem] at hfact
    simp only [hmem, not_false_eq_true, iff_true]
    rw [hfact]
    simp only [Nat.xor_self, Nat.zero_shiftRight, Nat.xor_zero]
    rw [Nat.mod_eq_of_lt hlt]
    simp

/-- C2, amended, at the codeword of `0x1234` with bits 3 and 7 flipped. -/
theorem C2_double_bit_error_corrected_iff_witness :
    4771990 < 2 ^ 26 ∧ (decode_BCH_26_16 4771990 0).1 = 0 ∧ 3 < 7 ∧ 7 < 26 ∧
      (decode_BCH_26_16 (4771990 ^^^ 2 ^ 3 ^^^ 2 ^ 7) 0 = (2, 4771990 >>> 10) ↔
        (3, 7) ∉ miscorrected_pairs) :=
  ⟨by decide, by decide, by decide, by decide,
    C2_double_bit_error_corrected_iff 4771990 3 7 0 0 (by decide) (by decide) (by decide)
      (by decide)⟩

/-! ### The remainder loop is long division by the generator -/

theorem gf2_rem_of_lt (g dg k a : Nat) (ha : a < 2 ^ dg) : gf2_rem g dg k a = a := by
  induction k with
  | zero => rfl
  | succ k ih =>
    have hlt : a < 2 ^ (dg + k) :=
      Nat.lt_of_lt_of_le ha (Nat.pow_le_pow_right (by decide) (by omega))
    simp only [gf2_rem, Nat.testBit_lt_two_pow hlt, Bool.false_eq_true, if_false, ih]

theorem gen_shift_testBit_of_gt (k i : Nat) (hi : 10 + k < i) :
    (0x5B9 <<< k).testBit i = false := by
  rw [Nat.testBit_shiftLeft]
  have h : (0x5B9 : Nat) < 2 ^ (i - k) :=
    Nat.lt_of_lt_of_le (by decide : (0x5B9 : Nat) < 2 ^ 11)
      (Nat.pow_le_pow_right (by decide) (by omega))
  rw [Nat.testBit_lt_two_pow h]
  simp

theorem gen_shift_testBit_top (k : Nat) : (0x5B9 <<< k).testBit (10 + k) = true := by
  rw [Nat.testBit_shiftLeft]
  have h : 10 + k - k = 10 := by omega
  rw [h]
  simp
  decide

/-- One division step lowers the degree bound by one. -/
theorem gf2_step_lt (k a : Nat) (ha : a < 2 ^ (10 + k + 1)) :
    (if a.testBit (10 + k) then a ^^^ (0x5B9 <<< k) else a) < 2 ^ (10 + k) := by
  apply Nat.lt_pow_two_of_testBit
  intro i hi
  have hbig : ∀ j, 10 + k < j → a.testBit j = false := fun j hj =>
    Nat.testBit_lt_two_pow (Nat.lt_of_lt_of_le ha (Nat.pow_le_pow_right (by decide) (by omega)))
  by_cases hb : a.testBit (10 + k) = true
  · rw [if_pos hb, Nat.testBit_xor]
    by_cases hik : i = 10 + k
    · rw [hik, hb, gen_shift_testBit_top]
      rfl
    · rw [hbig i (by omega), gen_shift_testBit_of_gt k i (by omega)]
      rfl
  · rw [if_neg hb]
    by_cases hik : i = 10 + k
    · rw [hik]
      simpa using hb
    · exact hbig i (by omega)

theorem bch_step_shift (k a : Nat) (hk : k < 16) (ha : a < 2 ^ (10 + k + 1)) :
    bch_step (a <<< (15 - k)) =
      (if a.testBit (10 + k) then a ^^^ (0x5B9 <<< k) else a) <<< (16 - k) := by
  have hlt := gf2_step_lt k a ha
  have hgx : gx = (0x5B9 <<< k) <<< (15 - k) := by
    rw [← Nat.shiftLeft_add]
    have h : k + (15 - k) = 15 := by omega
    rw [h]
    rfl
  have hbit : (a <<< (15 - k)).testBit 25 = a.testBit (10 + k) := by
    rw [Nat.testBit_shiftLeft]
    have h1 : 25 - (15 - k) = 10 + k := by omega
    have h2 : 25 ≥ 15 - k := by omega
    rw [h1]
    simp [h2]
  have hmod : ∀ x, x < 2 ^ (10 + k) → (x <<< (15 - k)) <<< 1 % 2 ^ 32 = x <<< (16 - k) := by
    intro x hx
    rw [← Nat.shiftLeft_add]
    have h1 : 15 - k + 1 = 16 - k := by omega
    rw [h1]
    apply Nat.mod_eq_of_lt
    rw [Nat.shiftLeft_eq]
    have h2 : x * 2 ^ (16 - k) < 2 ^ (10 + k) * 2 ^ (16 - k) :=
      Nat.mul_lt_mul_of_pos_right hx (Nat.two_pow_pos _)
    rw [← Nat.pow_add] at h2
    have h3 : 10 + k + (16 - k) = 26 := by omega
    rw [h3] at h2
    exact Nat.lt_trans h2 (by decide)
  rw [bch_step_eq, hbit]
  by_cases hb : a.testBit (10 + k) = true
  · rw [if_pos hb, if_pos hb] at *
    rw [hgx, ← xor_shiftLeft]
    exact hmod _ hlt
  · rw [if_neg hb, if_neg hb] at *
    exact hmod _ hlt

theorem bch_loop_eq_gf2_rem (k : Nat) : ∀ a, k ≤ 16 → a < 2 ^ (10 + k) →
    bch_loop k (a <<< (16 - k)) = gf2_rem 0x5B9 10 k a <<< 16 ∧
      gf2_rem 0x5B9 10 k a < 2 ^ 10 := by
  induction k with
  | zero =>
    intro a _ ha
    exact ⟨rfl, ha⟩
  | succ k ih =>
    intro a hk ha
    have hstep := bch_step_shift k a (by omega) ha
    have hlt := gf2_step_lt k a ha
    have h1 : 16 - (k + 1) = 15 - k := by omega
    simp only [bch_loop, gf2_rem, h1, hstep]
    exact ih _ (by omega) hlt

/-- The value `res` of `decode_BCH_26_16` is the long-division remainder. -/
theorem bch_syndrome_eq_gf2_rem (a : Nat) (ha : a < 2 ^ 26) :
    bch_syndrome a = gf2_rem 0x5B9 10 16 a ∧ gf2_rem 0x5B9 10 16 a < 2 ^ 10 := by
  have h := bch_loop_eq_gf2_rem 16 a (Nat.le_refl _) ha
  refine ⟨?_, h.2⟩
  have h1 : bch_loop 16 a = gf2_rem 0x5B9 10 16 a <<< 16 := h.1
  unfold bch_syndrome
  rw [h1, Nat.shiftLeft_eq, Nat.shiftRight_eq_div_pow]
  exact Nat.mul_div_cancel _ (Nat.two_pow_pos _)

theorem shiftLeft_or_eq_xor (a r n : Nat) (hr : r < 2 ^ n) : a <<< n ||| r = a <<< n ^^^ r := by
  apply Nat.eq_of_testBit_eq
  intro i
  rw [Nat.testBit_or, Nat.testBit_xor, Nat.testBit_shiftLeft]
  by_cases hi : i < n
  · have h : ¬ (i ≥ n) := by omega
    simp [h]
  · have h : r.testBit i = false :=
      Nat.testBit_lt_two_pow (Nat.lt_of_lt_of_le hr (Nat.pow_le_pow_right (by decide) (by omega)))
    simp [h]

theorem shiftLeft_or_shiftRight (a r n : Nat) (hr : r < 2 ^ n) : (a <<< n ||| r) >>> n = a := by
  apply Nat.eq_of_testBit_eq
  intro i
  rw [Nat.testBit_shiftRight, Nat.testBit_or, Nat.testBit_shiftLeft]
  have h : r.testBit (n + i) = false :=
    Nat.testBit_lt_two_pow (Nat.lt_of_lt_of_le hr (Nat.pow_le_pow_right (by decide) (by omega)))
  simp [h]

theorem bch_encode_syndrome (v : Nat) (hv : v < 2 ^ 16) :
    bch_syndrome (bch_encode v) = 0 ∧ bch_encode v >>> 10 = v ∧ bch_encode v < 2 ^ 26 := by
  have ha : v <<< 10 < 2 ^ 26 := by
    rw [Nat.shiftLeft_eq]
    omega
  obtain ⟨h1, h2⟩ := bch_syndrome_eq_gf2_rem (v <<< 10) ha
  have h3 := (bch_syndrome_eq_gf2_rem (gf2_rem 0x5B9 10 16 (v <<< 10))
    (Nat.lt_trans h2 (by decide))).1
  rw [gf2_rem_of_lt _ _ _ _ h2] at h3
  refine ⟨?_, shiftLeft_or_shiftRight _ _ _ h2, ?_⟩
  · unfold bch_encode
    rw [shiftLeft_or_eq_xor _ _ _ h2, bch_syndrome_xor, h3, h1, Nat.xor_self]
  · unfold bch_encode
    exact Nat.or_lt_two_pow ha (Nat.lt_trans h2 (by decide))

/-- C3: for every 16-bit value `v`, the systematic codeword
`(v << 10) | r`, with `r` the remainder of `v * x^10` on division by the
generator `0x5B9` over GF(2), decodes with severity 0 to the value `v`. -/
theorem C3_encode_decode_round_trip (v w : Nat) (hv : v < 2 ^ 16) :
    decode_BCH_26_16 (bch_encode v) w = (0, v) := by
  obtain ⟨h1, h2, _⟩ := bch_encode_syndrome v hv
  rw [decode_eq_correction, h1]
  have h0 : bch_correction 0 = (0, 0) := rfl
  rw [h0]
  simp only [Nat.xor_zero, h2]
  rw [Nat.mod_eq_of_lt hv]
  simp

/-- C3 at the value `0x1234`, whose codeword is 4771990. -/
theorem C3_encode_decode_round_trip_witness :
    0x1234 < 2 ^ 16 ∧ bch_encode 0x1234 = 4771990 ∧
      decode_BCH_26_16 (bch_encode 0x1234) 0 = (0, 0x1234) :=
  ⟨by decide, by decide, C3_encode_decode_round_trip 0x1234 0 (by decide)⟩

/-! ### Words of Hamming weight at most two -/

theorem popcount_bits_le (n x : Nat) : popcount_bits n x ≤ n := by
  induction n generalizing x with
  | zero => simp [popcount_bits]
  | succ n ih =>
    have h := ih (x / 2)
    simp only [popcount_bits]
    omega

theorem popcount_bits_eq_zero (n x : Nat) (hx : x < 2 ^ n) (h : popcount_bits n x = 0) :
    x = 0 := by
  induction n generalizing x with
  | zero => simpa using hx
  | succ n ih =>
    simp only [popcount_bits] at h
    have h1 := ih (x / 2) (by rw [Nat.pow_succ] at hx; omega) (by omega)
    omega

theorem popcount_bits_eq_one (n x : Nat) (hx : x < 2 ^ n) (h : popcount_bits n x = 1) :
    ∃ a, a < n ∧ x = 2 ^ a := by
  induction n generalizing x with
  | zero => simp [popcount_bits] at h
  | succ n ih =>
    simp only [popcount_bits] at h
    have hx2 : x / 2 < 2 ^ n := by rw [Nat.pow_succ] at hx; omega
    by_cases hodd : x % 2 = 1
    · have h1 := popcount_bits_eq_zero n (x / 2) hx2 (by omega)
      exact ⟨0, by omega, by simp; omega⟩
    · obtain ⟨a, ha, hxa⟩ := ih (x / 2) hx2 (by omega)
      refine ⟨a + 1, by omega, ?_⟩
      rw [Nat.pow_succ]
      omega

theorem popcount_bits_eq_two (n x : Nat) (hx : x < 2 ^ n) (h : popcount_bits n x = 2) :
    ∃ a b, a < b ∧ b < n ∧ x = 2 ^ a + 2 ^ b := by
  induction n generalizing x with
  | zero => simp [popcount_bits] at h
  | succ n ih =>
    simp only [popcount_bits] at h
    have hx2 : x / 2 < 2 ^ n := by rw [Nat.pow_succ] at hx; omega
    by_cases hodd : x % 2 = 1
    · obtain ⟨a, ha, hxa⟩ := popcount_bits_eq_one n (x / 2) hx2 (by omega)
      refine ⟨0, a + 1, by omega, by omega, ?_⟩
      rw [Nat.pow_succ]
      simp
      omega
    · obtain ⟨a, b, hab, hb, hxa⟩ := ih (x / 2) hx2 (by omega)
      refine ⟨a + 1, b + 1, by omega, by omega, ?_⟩
      rw [Nat.pow_succ, Nat.pow_succ]
      omega

theorem two_pow_add_two_pow (a b : Nat) (hab : a < b) : 2 ^ a + 2 ^ b = 2 ^ a ^^^ 2 ^ b := by
  have hlt : 2 ^ a < 2 ^ b := Nat.pow_lt_pow_right (by decide) hab
  have h := Nat.mul_add_lt_is_or hlt 1
  rw [Nat.mul_one] at h
  rw [Nat.add_comm, h]
  apply Nat.eq_of_testBit_eq
  intro i
  rw [Nat.testBit_or, Nat.testBit_xor, Nat.testBit_two_pow, Nat.testBit_two_pow]
  by_cases h1 : b = i <;> by_cases h2 : a = i <;> simp [h1, h2]
  omega

/-- A 26-bit word of weight at most two is zero, one bit, or two bits. -/
theorem weight_le_two_cases (x : Nat) (hx : x < 2 ^ 26) (h : popcountll x ≤ 2) :
    x = 0 ∨ (∃ a, a < 26 ∧ x = 2 ^ a) ∨ (∃ a b, a < b ∧ b < 26 ∧ x = 2 ^ a ^^^ 2 ^ b) := by
  have hx64 : x < 2 ^ 64 := Nat.lt_trans hx (by decide)
  have hbound : ∀ b, 2 ^ b ≤ x → b < 26 := by
    intro b hb
    by_contra hcon
    have h1 : 2 ^ 26 ≤ 2 ^ b := Nat.pow_le_pow_right (by decide) (by omega)
    omega
  unfold popcountll at h
  have hcases : popcount_bits 64 x = 0 ∨ popcount_bits 64 x = 1 ∨ popcount_bits 64 x = 2 := by
    omega
  rcases hcases with h0 | h1 | h2
  · exact Or.inl (popcount_bits_eq_zero 64 x hx64 h0)
  · obtain ⟨a, _, hxa⟩ := popcount_bits_eq_one 64 x hx64 h1
    exact Or.inr (Or.inl ⟨a, hbound a (by omega), hxa⟩)
  · obtain ⟨a, b, hab, _, hxa⟩ := popcount_bits_eq_two 64 x hx64 h2
    have hpos : 0 < 2 ^ a := Nat.two_pow_pos a
    refine Or.inr (Or.inr ⟨a, b, hab, hbound b (by omega), ?_⟩)
    rw [hxa, two_pow_add_two_pow a b hab]

/-! ### Soundness and completeness of the correction -/

theorem search_one_some (res : Nat) : ∀ n i k, search_one res n i = some k →
    i ≤ k ∧ k < i + n ∧ res = check_matrix.getD k 0 := by
  intro n
  induction n with
  | zero => intro i k h; simp [search_one] at h
  | succ n ih =>
    intro i k h
    simp only [search_one] at h
    by_cases hres : res = check_matrix.getD i 0
    · rw [if_pos hres] at h
      have hk : i = k := Option.some.inj h
      subst hk
      exact ⟨Nat.le_refl _, by omega, hres⟩
    · rw [if_neg hres] at h
      have := ih (i + 1) k h
      omega

theorem search_two_inner_some (res i : Nat) : ∀ n j k, search_two_inner res i n j = some k →
    j ≤ k ∧ k < j + n ∧ res = check_matrix.getD i 0 ^^^ check_matrix.getD k 0 := by
  intro n
  induction n with
  | zero => intro j k h; simp [search_two_inner] at h
  | succ n ih =>
    intro j k h
    simp only [search_two_inner] at h
    by_cases hres : res = check_matrix.getD i 0 ^^^ check_matrix.getD j 0
    · rw [if_pos hres] at h
      have hk : j = k := Option.some.inj h
      subst hk
      exact ⟨Nat.le_refl _, by omega, hres⟩
    · rw [if_neg hres] at h
      have := ih (j + 1) k h
      omega

theorem search_two_some (res : Nat) : ∀ n i0 i j, search_two res n i0 = some (i, j) →
    i < j ∧ j < 26 ∧ res = check_matrix.getD i 0 ^^^ check_matrix.getD j 0 := by
  intro n
  induction n with
  | zero => intro i0 i j h; simp [search_two] at h
  | succ n ih =>
    intro i0 i j h
    simp only [search_two] at h
    cases hin : search_two_inner res i0 (26 - (i0 + 1)) (i0 + 1) with
    | some k =>
      rw [hin] at h
      have hk : (i0, k) = (i, j) := Option.some.inj h
      have h1 : i0 = i := congrArg Prod.fst hk
      have h2 : k = j := congrArg Prod.snd hk
      subst h1 h2
      have := search_two_inner_some res i0 _ _ _ hin
      omega
    | none =>
      rw [hin] at h
      exact ih (i0 + 1) i j h

theorem mask_facts : ∀ i, i < 26 →
    bch_syndrome (1 <<< 25 >>> i) = check_matrix.getD i 0 ∧ 1 <<< 25 >>> i < 2 ^ 26 ∧
      popcountll (1 <<< 25 >>> i) = 1 := by
  decide!

theorem mask_pair_weight : ∀ i, i < 26 → ∀ j, j < 26 → i < j →
    popcountll ((1 <<< 25 >>> i) ^^^ (1 <<< 25 >>> j)) = 2 := by
  decide!

/-- Whenever the decoder corrects, the flipped pattern has the syndrome it was
chosen for, lies within the 26 bits, and has as many bits as the severity. -/
theorem bch_correction_sound (res : Nat) (h : (bch_correction res).1 ≠ 3) :
    bch_syndrome (bch_correction res).2 = res ∧ (bch_correction res).2 < 2 ^ 26 ∧
      popcountll (bch_correction res).2 = (bch_correction res).1 := by
  unfold bch_correction at h ⊢
  by_cases h0 : res = 0
  · subst h0
    decide
  · simp only [h0, if_false] at h ⊢
    cases h1 : search_one res 26 0 with
    | some i =>
      obtain ⟨_, hi, hres⟩ := search_one_some res 26 0 i h1
      obtain ⟨f1, f2, f3⟩ := mask_facts i (by omega)
      exact ⟨by rw [f1, hres], f2, f3⟩
    | none =>
      rw [h1] at h
      cases h2 : search_two res 26 0 with
      | some ij =>
        obtain ⟨i, j⟩ := ij
        obtain ⟨hij, hj, hres⟩ := search_two_some res 26 0 i j h2
        obtain ⟨f1, f2, _⟩ := mask_facts i (by omega)
        obtain ⟨g1, g2, _⟩ := mask_facts j hj
        refine ⟨?_, Nat.xor_lt_two_pow f2 g2, mask_pair_weight i (by omega) j hj hij⟩
        show bch_syndrome ((1 <<< 25 >>> i) ^^^ (1 <<< 25 >>> j)) = res
        rw [bch_syndrome_xor, f1, g1, hres]
      | none =>
        rw [h2] at h
        exact absurd rfl h

/-- Every 26-bit word of weight at most two has a correctable syndrome. -/
theorem bch_correction_complete (x : Nat) (hx : x < 2 ^ 26) (h : popcountll x ≤ 2) :
    (bch_correction (bch_syndrome x)).1 ≠ 3 := by
  rcases weight_le_two_cases x hx h with h0 | ⟨a, ha, hxa⟩ | ⟨a, b, hab, hb, hxa⟩
  · subst h0
    decide
  · rw [hxa, single_error_facts a ha]
    show (1 : Nat) ≠ 3
    decide
  · rw [hxa]
    exact (double_error_facts a (by omega) b hb hab).1

/-! ### Uncorrectable words -/

/-- C4: for every valid codeword `c` and every 26-bit error pattern `e` of
Hamming weight at least 3 such that `c xor e` is at Hamming distance more than
2 from every valid codeword, `decode_BCH_26_16` applied to `c xor e` returns
severity 3. -/
theorem C4_far_from_codewords_uncorrectable (c e v w : Nat) (hc : c < 2 ^ 26) (he : e < 2 ^ 26)
    (hvalid : (decode_BCH_26_16 c v).1 = 0) (hweight : 3 ≤ popcountll e)
    (hfar : ∀ c2 v2, c2 < 2 ^ 26 → (decode_BCH_26_16 c2 v2).1 = 0 →
      2 < popcountll ((c ^^^ e) ^^^ c2)) :
    (decode_BCH_26_16 (c ^^^ e) w).1 = 3 := by
  by_contra hne
  rw [decode_eq_correction] at hne
  have hne3 : (bch_correction (bch_syndrome (c ^^^ e))).1 ≠ 3 := hne
  obtain ⟨h1, h2, h3⟩ := bch_correction_sound _ hne3
  have hle := bch_correction_fst_le (bch_syndrome (c ^^^ e))
  have hr : c ^^^ e < 2 ^ 26 := Nat.xor_lt_two_pow hc he
  have hfar2 := hfar ((c ^^^ e) ^^^ (bch_correction (bch_syndrome (c ^^^ e))).2) 0
    (Nat.xor_lt_two_pow hr h2)
    (by rw [decode_fst_eq_zero_iff, bch_syndrome_xor, h1, Nat.xor_self])
  rw [Nat.xor_cancel_left, h3] at hfar2
  omega

/-- A 26-bit word on which the decoder gives up is at distance more than two
from every valid codeword. -/
theorem uncorrectable_far_from_codewords (r w : Nat) (hr : r < 2 ^ 26)
    (h3 : (decode_BCH_26_16 r w).1 = 3) (c2 v2 : Nat) (hc2 : c2 < 2 ^ 26)
    (hvalid : (decode_BCH_26_16 c2 v2).1 = 0) : 2 < popcountll (r ^^^ c2) := by
  by_contra hle
  rw [decode_fst_eq_zero_iff] at hvalid
  rw [decode_eq_correction] at h3
  have h := bch_correction_complete (r ^^^ c2) (Nat.xor_lt_two_pow hr hc2) (by omega)
  rw [bch_syndrome_xor, hvalid, Nat.xor_zero] at h
  exact h h3

/-- C4 at the codeword of `0x1234` with its three low bits flipped. -/
theorem C4_far_from_codewords_uncorrectable_witness :
    4771990 < 2 ^ 26 ∧ 7 < 2 ^ 26 ∧ (decode_BCH_26_16 4771990 0).1 = 0 ∧ 3 ≤ popcountll 7 ∧
      (∀ c2 v2, c2 < 2 ^ 26 → (decode_BCH_26_16 c2 v2).1 = 0 →
        2 < popcountll ((4771990 ^^^ 7) ^^^ c2)) ∧
      (decode_BCH_26_16 (4771990 ^^^ 7) 0).1 = 3 :=
  have hfar : ∀ c2 v2, c2 < 2 ^ 26 → (decode_BCH_26_16 c2 v2).1 = 0 →
      2 < popcountll ((4771990 ^^^ 7) ^^^ c2) :=
    uncorrectable_far_from_codewords (4771990 ^^^ 7) 0 (by decide) (by decide)
  ⟨by decide, by decide, by decide, by decide, hfar,
    C4_far_from_codewords_uncorrectable 4771990 7 0 0 (by decide) (by decide) (by decide)
      (by decide) hfar⟩

/-! ### Bit synchroniser -/

theorem popcountll_mod (x : Nat) : popcountll x % 2 ^ 8 = popcountll x := by
  have h := popcount_bits_le 64 x
  unfold popcountll
  omega

/-- In the searching state `cir_rxbit` has three outcomes, decided by the two
error counts. -/
theorem cir_rxbit_searching (s : cirfsk) (bit : Nat) (hs : s.rxbitcount = 0) :
    cir_rxbit s bit =
      if preamble_err s + frame_err s bit ≤ 4 ∨ (preamble_err s ≤ 6 ∧ frame_err s bit ≤ 2) then
        ({ s with
            sync_buffer0 := 0, sync_buffer1 := 0, rxbitstream := 0,
            rxbitcount := 1, rx_buf_pos := 0, fec_errors := 0 },
          [Event.sync_ok (preamble_err s) (frame_err s bit)])
      else if preamble_err s + frame_err s bit ≤ 10 then
        ({ s with sync_buffer0 := shifted_sync0 s bit, sync_buffer1 := shifted_sync1 s },
          [Event.sync_error (preamble_err s) (frame_err s bit) (shifted_sync1 s)
            (shifted_sync0 s bit)])
      else
        ({ s with sync_buffer0 := shifted_sync0 s bit, sync_buffer1 := shifted_sync1 s }, []) := by
  unfold cir_rxbit
  simp only [hs, if_true, popcountll_mod]
  rfl

/-- While collecting, `cir_rxbit` leaves `rxbitcount` at 0 or above 1. -/
theorem cir_rxbit_collecting_count (s : cirfsk) (bit : Nat) (hs : s.rxbitcount ≠ 0) :
    (cir_rxbit s bit).1.rxbitcount = 0 ∨ 2 ≤ (cir_rxbit s bit).1.rxbitcount := by
  unfold cir_rxbit
  simp only [hs, if_false]
  split_ifs <;> simp <;> omega

/-- C5: in the searching state, for every window content and every input bit,
with the two error counts taken after the bit is shifted in, `cir_rxbit`
declares lock (`rxbitcount` becomes 1) if and only if
`preamble_err + frame_err <= 4` or (`preamble_err <= 6` and `frame_err <= 2`);
in particular the error pairs (4,0), (0,4), (2,2) and (6,2) lock and (7,3)
does not. -/
theorem C5_lock_criterion (s : cirfsk) (bit : Nat) (hs : s.rxbitcount = 0) (hbit : bit < 2) :
    ((cir_rxbit s bit).1.rxbitcount = 1 ↔
      preamble_err s + frame_err s bit ≤ 4 ∨ (preamble_err s ≤ 6 ∧ frame_err s bit ≤ 2)) ∧
    ((preamble_err s, frame_err s bit) ∈ [(4, 0), (0, 4), (2, 2), (6, 2)] →
      (cir_rxbit s bit).1.rxbitcount = 1) ∧
    ((preamble_err s, frame_err s bit) = (7, 3) → (cir_rxbit s bit).1.rxbitcount = 0) := by
  have hiff : (cir_rxbit s bit).1.rxbitcount = 1 ↔
      preamble_err s + frame_err s bit ≤ 4 ∨ (preamble_err s ≤ 6 ∧ frame_err s bit ≤ 2) := by
    rw [cir_rxbit_searching s bit hs]
    split_ifs with h1 h2
    · simp [h1]
    · simp [h1, hs]
    · simp [h1, hs]
  refine ⟨hiff, ?_, ?_⟩
  · intro hmem
    rw [hiff]
    simp only [List.mem_cons, Prod.mk.injEq, List.mem_singleton, List.mem_nil_iff, or_false] at hmem
    omega
  · intro h73
    simp only [Prod.mk.injEq] at h73
    rw [cir_rxbit_searching s bit hs]
    have hno : ¬ (preamble_err s + frame_err s bit ≤ 4 ∨
        (preamble_err s ≤ 6 ∧ frame_err s bit ≤ 2)) := by omega
    rw [if_neg hno]
    split_ifs <;> exact hs

/-- C5 at five concrete windows, whose error pairs after the shift are (4,0),
(0,4), (2,2), (6,2), which lock, and (7,3), which does not. -/
theorem C5_lock_criterion_witness :
    ((sync_state 0x6ea12cf 0x2aaaaaad).rxbitcount = 0 ∧ 1 < 2 ∧
      (preamble_err (sync_state 0x6ea12cf 0x2aaaaaad),
        frame_err (sync_state 0x6ea12cf 0x2aaaaaad) 1) = (4, 0) ∧
      (cir_rxbit (sync_state 0x6ea12cf 0x2aaaaaad) 1).1.rxbitcount = 1) ∧
    ((preamble_err (sync_state 0x86ea12c8 0x2aaaaaaa),
        frame_err (sync_state 0x86ea12c8 0x2aaaaaaa) 0) = (0, 4) ∧
      (cir_rxbit (sync_state 0x86ea12c8 0x2aaaaaaa) 0).1.rxbitcount = 1) ∧
    ((preamble_err (sync_state 0x6ea12ce 0x2aaaaaab),
        frame_err (sync_state 0x6ea12ce 0x2aaaaaab) 0) = (2, 2) ∧
      (cir_rxbit (sync_state 0x6ea12ce 0x2aaaaaab) 0).1.rxbitcount = 1) ∧
    ((preamble_err (sync_state 0x6ea12ce 0x2aaaaab5),
        frame_err (sync_state 0x6ea12ce 0x2aaaaab5) 0) = (6, 2) ∧
      (cir_rxbit (sync_state 0x6ea12ce 0x2aaaaab5) 0).1.rxbitcount = 1) ∧
    ((preamble_err (sync_state 0x6ea12cc 0x2aaaaa95),
        frame_err (sync_state 0x6ea12cc 0x2aaaaa95) 0) = (7, 3) ∧
      (cir_rxbit (sync_state 0x6ea12cc 0x2aaaaa95) 0).1.rxbitcount = 0) :=
  ⟨⟨rfl, by decide, by decide,
      (C5_lock_criterion (sync_state 0x6ea12cf 0x2aaaaaad) 1 rfl (by decide)).2.1 (by decide)⟩,
    ⟨by decide,
      (C5_lock_criterion (sync_state 0x86ea12c8 0x2aaaaaaa) 0 rfl (by decide)).2.1 (by decide)⟩,
    ⟨by decide,
      (C5_lock_criterion (sync_state 0x6ea12ce 0x2aaaaaab) 0 rfl (by decide)).2.1 (by decide)⟩,
    ⟨by decide,
      (C5_lock_criterion (sync_state 0x6ea12ce 0x2aaaaab5) 0 rfl (by decide)).2.1 (by decide)⟩,
    ⟨by decide,
      (C5_lock_criterion (sync_state 0x6ea12cc 0x2aaaaa95) 0 rfl (by decide)).2.2 (by decide)⟩⟩

/-! ### Frame assembler -/

/-- On the 26th bit of a codeword `cir_rxbit` stores the decoded word and then
has five outcomes. -/
theorem cir_rxbit_at_word (s : cirfsk) (bit : Nat) (hs : s.rxbitcount ≠ 0)
    (hword : s.rxbitcount % 26 = 0) :
    cir_rxbit s bit =
      if s.rxbitcount = 26 then
        if rx_decoded s bit % 2 ^ 8 = 0 then
          ({ rx_stored s bit with rxlength := rx_decoded s bit % 2 ^ 8, rxbitcount := 0 },
            [rx_trace s bit, Event.zero_length])
        else
          ({ rx_stored s bit with
              rxlength := rx_decoded s bit % 2 ^ 8, rxbitcount := s.rxbitcount + 1 },
            [rx_trace s bit, Event.length (rx_decoded s bit % 2 ^ 8)])
      else if s.rx_buf_pos + 2 = actual_rx_length s.rxlength then
        if (crc16 (buffer_bytes (rx_stored s bit).rxbuf s.rxlength) >>> 8) &&& 0x00ff
              = (rx_stored s bit).rxbuf s.rxlength
            ∧ crc16 (buffer_bytes (rx_stored s bit).rxbuf s.rxlength) &&& 0x00ff
              = (rx_stored s bit).rxbuf (s.rxlength + 1) then
          ({ rx_stored s bit with rxbitcount := 0 },
            [rx_trace s bit, Event.crc_ok]
              ++ cir_display_package (rx_stored s bit).rxbuf (s.rxlength + 2))
        else
          ({ rx_stored s bit with rxbitcount := 0 },
            [rx_trace s bit, Event.bad_crc]
              ++ cir_display_package_bad_crc (rx_stored s bit).rxbuf (rx_stored s bit).rx_err
                (actual_rx_length s.rxlength))
      else
        ({ rx_stored s bit with rxbitcount := s.rxbitcount + 1 }, [rx_trace s bit]) := by
  unfold cir_rxbit
  simp only [hs, hword, if_true, if_false]
  rfl

/-- Between codeword boundaries `cir_rxbit` only shifts the bit in. -/
theorem cir_rxbit_in_word (s : cirfsk) (bit : Nat) (hword : s.rxbitcount % 26 ≠ 0) :
    cir_rxbit s bit =
      ({ s with rxbitstream := rx_word s bit, rxbitcount := s.rxbitcount + 1 }, []) := by
  have hs : s.rxbitcount ≠ 0 := fun h => hword (by rw [h])
  unfold cir_rxbit
  simp only [hs, hword, if_false]
  rfl

theorem crc16_lt (bytes : List Nat) : crc16 bytes < 2 ^ 16 :=
  Nat.mod_lt _ (Nat.two_pow_pos 16)

theorem high_byte_eq (crc : Nat) (h : crc < 2 ^ 16) : (crc >>> 8) &&& 0x00ff = crc / 256 := by
  have h1 : (crc >>> 8) &&& 0x00ff = (crc >>> 8) % 2 ^ 8 := Nat.and_pow_two_sub_one_eq_mod _ 8
  rw [h1, Nat.shiftRight_eq_div_pow]
  omega

theorem low_byte_eq (crc : Nat) : crc &&& 0x00ff = crc % 256 :=
  Nat.and_pow_two_sub_one_eq_mod _ 8

theorem actual_rx_length_eq (n : Nat) (hn : n < 256) : actual_rx_length n = n + n % 2 + 2 := by
  simp only [actual_rx_length]
  split_ifs <;> omega

/-- C7: when a frame completes with expected length `n = rxlength` (the word
just stored brings `rx_buf_pos` to `actual_rx_length n`), `cir_rxbit` emits
exactly one frame event: a good-frame report if the high byte of `crc16` over
`rxbuf[0..n)` equals `rxbuf[n]` and its low byte equals `rxbuf[n+1]`, and a
bad-frame report otherwise. -/
theorem C7_frame_completion (s : cirfsk) (bit : Nat) (hcol : s.rxbitcount ≠ 0)
    (hword : s.rxbitcount % 26 = 0) (hnotfirst : s.rxbitcount ≠ 26)
    (hlen : s.rxlength < 256) (hfull : s.rx_buf_pos + 2 = actual_rx_length s.rxlength) :
    (cir_rxbit s bit).1.rx_buf_pos = actual_rx_length s.rxlength ∧
    if crc16 (buffer_bytes (cir_rxbit s bit).1.rxbuf s.rxlength) / 256
          = (cir_rxbit s bit).1.rxbuf s.rxlength ∧
        crc16 (buffer_bytes (cir_rxbit s bit).1.rxbuf s.rxlength) % 256
          = (cir_rxbit s bit).1.rxbuf (s.rxlength + 1) then
      good_frames (cir_rxbit s bit).2
          = [buffer_bytes (cir_rxbit s bit).1.rxbuf (s.rxlength + 2)] ∧
        bad_frames (cir_rxbit s bit).2 = []
    else
      good_frames (cir_rxbit s bit).2 = [] ∧
        bad_frames (cir_rxbit s bit).2
          = [(buffer_bytes (cir_rxbit s bit).1.rxbuf (actual_rx_length s.rxlength),
              buffer_bytes (cir_rxbit s bit).1.rx_err (actual_rx_length s.rxlength / 2))] := by
  have harl := actual_rx_length_eq s.rxlength hlen
  have hmod1 : (s.rxlength + 2) % 2 ^ 16 = s.rxlength + 2 := Nat.mod_eq_of_lt (by omega)
  have hmod2 : actual_rx_length s.rxlength % 2 ^ 16 = actual_rx_length s.rxlength :=
    Nat.mod_eq_of_lt (by omega)
  rw [cir_rxbit_at_word s bit hcol hword, if_neg hnotfirst, if_pos hfull]
  simp only [high_byte_eq _ (crc16_lt _), low_byte_eq]
  by_cases h : crc16 (buffer_bytes (rx_stored s bit).rxbuf s.rxlength) / 256
        = (rx_stored s bit).rxbuf s.rxlength ∧
      crc16 (buffer_bytes (rx_stored s bit).rxbuf s.rxlength) % 256
        = (rx_stored s bit).rxbuf (s.rxlength + 1)
  · rw [if_pos h]
    refine ⟨hfull, ?_⟩
    rw [if_pos h]
    simp only [cir_display_package, hmod1]
    exact ⟨rfl, rfl⟩
  · rw [if_neg h]
    refine ⟨hfull, ?_⟩
    rw [if_neg h]
    simp only [cir_display_package_bad_crc, hmod2]
    exact ⟨rfl, rfl⟩

set_option maxRecDepth 8192 in
/-- C7 at `completing_state`: the last bit of the codeword of `0xb9b2`, the
CRC16 of `01 04 12 34`, completes a good frame. -/
theorem C7_frame_completion_witness :
    completing_state.rxbitcount ≠ 0 ∧ completing_state.rxbitcount % 26 = 0 ∧
      completing_state.rxbitcount ≠ 26 ∧ completing_state.rxlength < 256 ∧
      completing_state.rx_buf_pos + 2 = actual_rx_length completing_state.rxlength ∧
      (cir_rxbit completing_state 0).1.rx_buf_pos = 6 ∧
      good_frames (cir_rxbit completing_state 0).2 = [[0x01, 0x04, 0x12, 0x34, 0xb9, 0xb2]] ∧
      bad_frames (cir_rxbit completing_state 0).2 = [] := by
  obtain ⟨h1, h2⟩ := C7_frame_completion completing_state 0 (by decide) (by decide)
    (by decide) (by decide) (by decide)
  have hcond : crc16 (buffer_bytes (cir_rxbit completing_state 0).1.rxbuf
          completing_state.rxlength) / 256
        = (cir_rxbit completing_state 0).1.rxbuf completing_state.rxlength ∧
      crc16 (buffer_bytes (cir_rxbit completing_state 0).1.rxbuf
          completing_state.rxlength) % 256
        = (cir_rxbit completing_state 0).1.rxbuf (completing_state.rxlength + 1) := by
    decide!
  rw [if_pos hcond] at h2
  refine ⟨by decide, by decide, by decide, by decide, by decide, h1, ?_, h2.2⟩
  rw [h2.1]
  decide!

/-! ### CRC16 -/

/-- C8 fails: on the ASCII bytes of "123456789" `crc16` does not return
`0x29B1` (that is the check value of the variant with initial value
`0xFFFF`). -/
theorem C8_crc16_check_value_counterexample :
    crc16 [0x31, 0x32, 0x33, 0x34, 0x35, 0x36, 0x37, 0x38, 0x39] ≠ 0x29B1 := by
  decide!

/-- C8, amended: `crc16` applied to the 9 ASCII bytes of "123456789" (zero
initial value, polynomial `0x1021`) returns `0x31C3`. -/
theorem C8_crc16_check_value :
    crc16 [0x31, 0x32, 0x33, 0x34, 0x35, 0x36, 0x37, 0x38, 0x39] = 0x31C3 := by
  decide!

theorem crc16_bit_mod (crc : Nat) : crc16_bit crc % 2 ^ 16 = crc16_ref_bit (crc % 2 ^ 16) := by
  have hbit : crc &&& 0x8000 ≠ 0 ↔ crc.testBit 15 = true := and_two_pow_ne_zero crc 15
  have htest : crc.testBit 15 = true ↔ 0x8000 ≤ crc % 2 ^ 16 := by
    rw [Nat.testBit_to_div_mod]
    simp only [decide_eq_true_eq]
    omega
  have hshift : ∀ x : Nat, (x <<< 1) % 2 ^ 32 % 2 ^ 16 = ((x % 2 ^ 16) <<< 1) % 2 ^ 16 := by
    intro x
    rw [Nat.shiftLeft_eq, Nat.shiftLeft_eq]
    omega
  have hmm : ∀ x : Nat, x % 2 ^ 32 % 2 ^ 16 = x % 2 ^ 16 := by
    intro x
    omega
  unfold crc16_bit crc16_ref_bit
  by_cases h : crc.testBit 15 = true
  · rw [if_pos (hbit.mpr h), if_pos (htest.mp h), hmm, xor_mod_two_pow, ← hmm (crc <<< 1),
      hshift]
    rfl
  · rw [if_neg (fun hc => h (hbit.mp hc)), if_neg (fun hc => h (htest.mpr hc)), hshift]

theorem crc16_byte_mod (crc b : Nat) (hb : b < 256) :
    crc16_byte crc b % 2 ^ 16 = crc16_ref_byte (crc % 2 ^ 16) b := by
  have hx : (crc ^^^ (b <<< 8)) % 2 ^ 16 = crc % 2 ^ 16 ^^^ (b <<< 8) := by
    rw [xor_mod_two_pow]
    have h : (b <<< 8) % 2 ^ 16 = b <<< 8 := by
      rw [Nat.shiftLeft_eq]
      omega
    rw [h]
  unfold crc16_byte crc16_ref_byte
  simp only [crc16_bits, crc16_bit_mod, hx]

theorem crc16_fold_mod (bytes : List Nat) (hbytes : ∀ b ∈ bytes, b < 256) : ∀ crc,
    bytes.foldl crc16_byte crc % 2 ^ 16 = bytes.foldl crc16_ref_byte (crc % 2 ^ 16) := by
  induction bytes with
  | nil => intro crc; rfl
  | cons b bs ih =>
    intro crc
    simp only [List.foldl_cons]
    rw [ih (fun x hx => hbytes x (List.mem_cons_of_mem _ hx)),
      crc16_byte_mod crc b (hbytes b (List.mem_cons_self _ _))]

/-- C9: for every byte sequence, `crc16` returns the 16-bit CRC with polynomial
`0x1021`, initial value 0, most-significant-bit-first processing and no final
XOR, as computed by the reference implementation over a 16-bit register: the
bits that `crc16` accumulates above bit 15 of its `int` register never change
the returned low 16 bits. -/
theorem C9_crc16_refines_reference (bytes : List Nat) (hbytes : ∀ b ∈ bytes, b < 256) :
    crc16 bytes = crc16_ref bytes := by
  unfold crc16 crc16_reg crc16_ref
  exact crc16_fold_mod bytes hbytes 0

/-- C9 at the bytes of "123456789", where the `int` register of `crc16` does
hold bits above bit 15. -/
theorem C9_crc16_refines_reference_witness :
    (∀ b ∈ [0x31, 0x32, 0x33, 0x34, 0x35, 0x36, 0x37, 0x38, 0x39], b < 256) ∧
      2 ^ 16 ≤ crc16_reg [0x31, 0x32, 0x33, 0x34, 0x35, 0x36, 0x37, 0x38, 0x39] ∧
      crc16 [0x31, 0x32, 0x33, 0x34, 0x35, 0x36, 0x37, 0x38, 0x39]
        = crc16_ref [0x31, 0x32, 0x33, 0x34, 0x35, 0x36, 0x37, 0x38, 0x39] :=
  ⟨by decide, by decide!,
    C9_crc16_refines_reference [0x31, 0x32, 0x33, 0x34, 0x35, 0x36, 0x37, 0x38, 0x39]
      (by decide)⟩

/-! ### Feeding whole codewords -/

theorem cir_rxbits_append (s : cirfsk) (as bs : List Nat) :
    cir_rxbits s (as ++ bs) =
      ((cir_rxbits (cir_rxbits s as).1 bs).1,
        (cir_rxbits s as).2 ++ (cir_rxbits (cir_rxbits s as).1 bs).2) := by
  induction as generalizing s with
  | nil => simp [cir_rxbits]
  | cons a as ih =>
    rw [List.cons_append]
    simp only [cir_rxbits]
    rw [ih]
    simp only [List.append_assoc]

theorem bits_msb_succ (n w : Nat) : bits_msb (n + 1) w = bits_msb n (w >>> 1) ++ [w % 2] := by
  induction n with
  | zero => simp [bits_msb]
  | succ n ih =>
    have h : bits_msb (n + 1 + 1) w = (w >>> (n + 1)) % 2 :: bits_msb (n + 1) w := rfl
    rw [h, ih]
    have h2 : bits_msb (n + 1) (w >>> 1) = ((w >>> 1) >>> n) % 2 :: bits_msb n (w >>> 1) := rfl
    rw [h2, ← Nat.shiftRight_add, Nat.add_comm 1 n]
    rfl

theorem rx_word_eq (s : cirfsk) (b k : Nat) (hb : b < 2) (ha : s.rxbitstream < 2 ^ k)
    (hk : k < 32) : rx_word s b = 2 * s.rxbitstream + b ∧ rx_word s b < 2 ^ (k + 1) := by
  have h1 : s.rxbitstream <<< 1 ||| b = 2 ^ 1 * s.rxbitstream + b := by
    rw [Nat.mul_add_lt_is_or (by omega : b < 2 ^ 1), Nat.shiftLeft_eq, Nat.mul_comm]
  have h2 : 2 ^ (k + 1) ≤ 2 ^ 32 := Nat.pow_le_pow_right (by decide) (by omega)
  have h3 : 2 ^ (k + 1) = 2 * 2 ^ k := by rw [Nat.pow_succ, Nat.mul_comm]
  unfold rx_word
  rw [h1]
  have h4 : 2 ^ 1 * s.rxbitstream + b < 2 ^ 32 := by omega
  rw [Nat.mod_eq_of_lt h4]
  omega

theorem cir_rxbit_in_word_acc (s : cirfsk) (bit : Nat) (hword : s.rxbitcount % 26 ≠ 0) :
    cir_rxbit s bit = (with_accumulator s (rx_word s bit) (s.rxbitcount + 1), []) :=
  cir_rxbit_in_word s bit hword

/-- Bits that do not reach a codeword boundary are only shifted into the
accumulator. -/
theorem cir_rxbits_in_word (n : Nat) : ∀ (s : cirfsk) (x k : Nat),
    (n = 0 ∨ (1 ≤ s.rxbitcount % 26 ∧ s.rxbitcount % 26 + n ≤ 26)) →
    s.rxbitstream < 2 ^ k → k + n ≤ 32 →
    cir_rxbits s (bits_msb n x) =
      (with_accumulator s (s.rxbitstream * 2 ^ n + x % 2 ^ n) (s.rxbitcount + n), []) := by
  induction n with
  | zero =>
    intro s x k _ _ _
    simp [bits_msb, cir_rxbits, Nat.mod_one, with_accumulator]
  | succ n ih =>
    intro s x k h ha hk
    have hc : 1 ≤ s.rxbitcount % 26 ∧ s.rxbitcount % 26 + (n + 1) ≤ 26 := by
      rcases h with h | h
      · omega
      · exact h
    have hb : (x >>> n) % 2 < 2 := Nat.mod_lt _ (by decide)
    obtain ⟨hw, hwlt⟩ := rx_word_eq s ((x >>> n) % 2) k hb ha (by omega)
    have hstep := cir_rxbit_in_word_acc s ((x >>> n) % 2) (by omega)
    have hih := ih (with_accumulator s (rx_word s ((x >>> n) % 2)) (s.rxbitcount + 1)) x (k + 1)
      (by
        by_cases hn : n = 0
        · exact Or.inl hn
        · refine Or.inr ?_
          show 1 ≤ (s.rxbitcount + 1) % 26 ∧ (s.rxbitcount + 1) % 26 + n ≤ 26
          omega)
      hwlt (by omega)
    have hval : rx_word s ((x >>> n) % 2) * 2 ^ n + x % 2 ^ n
        = s.rxbitstream * 2 ^ (n + 1) + x % 2 ^ (n + 1) := by
      rw [hw, Nat.mod_pow_succ, Nat.shiftRight_eq_div_pow, Nat.pow_succ]
      ring
    simp only [bits_msb, cir_rxbits, hstep, hih, List.append_nil]
    simp only [with_accumulator, hval, Nat.add_assoc, Nat.add_comm 1 n]

/-- A 26-bit word fed most significant bit first from a codeword boundary:
25 bits are shifted in and the last one triggers the decode of the word. -/
theorem cir_rxbits_word (s : cirfsk) (w : Nat) (hc : s.rxbitcount % 26 = 1)
    (hz : s.rxbitstream = 0) (hw : w < 2 ^ 26) :
    cir_rxbits s (bits_msb 26 w) =
      cir_rxbit (with_accumulator s (w / 2) (s.rxbitcount + 25)) (w % 2) ∧
    rx_word (with_accumulator s (w / 2) (s.rxbitcount + 25)) (w % 2) = w := by
  have h25 := cir_rxbits_in_word 25 s (w >>> 1) 0 (Or.inr (by omega)) (by rw [hz]; decide)
    (by decide)
  have hv : s.rxbitstream * 2 ^ 25 + (w >>> 1) % 2 ^ 25 = w / 2 := by
    rw [hz, Nat.shiftRight_eq_div_pow]
    omega
  rw [hv] at h25
  constructor
  · rw [bits_msb_succ, cir_rxbits_append, h25]
    simp [cir_rxbits]
  · have h := (rx_word_eq (with_accumulator s (w / 2) (s.rxbitcount + 25))
      (w % 2) 25 (Nat.mod_lt _ (by decide)) (by show w / 2 < 2 ^ 25; omega) (by decide)).1
    rw [h]
    show 2 * (w / 2) + w % 2 = w
    omega

theorem decode_bch_encode (v w : Nat) (hv : v < 2 ^ 16) :
    decode_BCH_26_16 (bch_encode v) w = (0, v) ∧ bch_encode v >>> 10 = v ∧
      bch_encode v < 2 ^ 26 := by
  obtain ⟨h1, h2, h3⟩ := bch_encode_syndrome v hv
  refine ⟨?_, h2, h3⟩
  have h0 : bch_correction 0 = (0, 0) := rfl
  rw [decode_eq_correction, h1, h0]
  simp only [Nat.xor_zero, h2]
  rw [Nat.mod_eq_of_lt hv]
  simp

/-- What the boundary bit of a valid codeword computes: severity 0, the
encoded value, and the stored state. -/
theorem rx_stored_codeword (s : cirfsk) (v : Nat) (hv : v < 2 ^ 16) :
    rx_errors (with_accumulator s (bch_encode v / 2) (s.rxbitcount + 25)) (bch_encode v % 2) = 0 ∧
    rx_decoded (with_accumulator s (bch_encode v / 2) (s.rxbitcount + 25)) (bch_encode v % 2) = v ∧
    rx_trace (with_accumulator s (bch_encode v / 2) (s.rxbitcount + 25)) (bch_encode v % 2)
      = Event.word s.rx_buf_pos v (some v) 0 ∧
    rx_stored (with_accumulator s (bch_encode v / 2) (s.rxbitcount + 25)) (bch_encode v % 2)
      = after_word s v 0 (s.rxbitcount + 25) := by
  obtain ⟨hd, hsh, hlt⟩ := decode_bch_encode v 0 hv
  have hw : rx_word (with_accumulator s (bch_encode v / 2) (s.rxbitcount + 25)) (bch_encode v % 2)
      = bch_encode v := by
    have h := (rx_word_eq (with_accumulator s (bch_encode v / 2) (s.rxbitcount + 25))
      (bch_encode v % 2) 25 (Nat.mod_lt _ (by decide))
      (by show bch_encode v / 2 < 2 ^ 25; omega) (by decide)).1
    rw [h]
    show 2 * (bch_encode v / 2) + bch_encode v % 2 = bch_encode v
    omega
  have he : rx_errors (with_accumulator s (bch_encode v / 2) (s.rxbitcount + 25))
      (bch_encode v % 2) = 0 := by
    unfold rx_errors
    rw [hw, hd]
  have hdec : rx_decoded (with_accumulator s (bch_encode v / 2) (s.rxbitcount + 25))
      (bch_encode v % 2) = v := by
    unfold rx_decoded
    rw [he, hw, hd]
    rfl
  refine ⟨he, hdec, ?_, ?_⟩
  · unfold rx_trace
    rw [he, hw, hd, hsh]
    rfl
  · unfold rx_stored
    rw [he, hdec]
    rfl

/-- The header codeword of a frame: the word is stored, its low byte becomes
the expected length, and collection goes on when that length is not 0. -/
theorem cir_rxbits_header (s : cirfsk) (v : Nat) (hv : v < 2 ^ 16) (hc : s.rxbitcount = 1)
    (hz : s.rxbitstream = 0) (hlen : v % 2 ^ 8 ≠ 0) :
    cir_rxbits s (bits_msb 26 (bch_encode v)) =
      (with_rxlength (after_word s v 0 27) (v % 2 ^ 8),
        [Event.word s.rx_buf_pos v (some v) 0, Event.length (v % 2 ^ 8)]) := by
  obtain ⟨_, _, hlt⟩ := decode_bch_encode v 0 hv
  obtain ⟨he, hdec, htr, hst⟩ := rx_stored_codeword s v hv
  have h26 : (with_accumulator s (bch_encode v / 2) (s.rxbitcount + 25)).rxbitcount = 26 := by
    show s.rxbitcount + 25 = 26
    omega
  rw [(cir_rxbits_word s (bch_encode v) (by rw [hc]) hz hlt).1,
    cir_rxbit_at_word _ _ (by rw [h26]; decide) (by rw [h26]), if_pos h26, hdec, if_neg hlen,
    htr, hst, h26]
  rfl

/-- A codeword after the header that does not fill the frame buffer: the word
is stored and collection goes on. -/
theorem cir_rxbits_middle (s : cirfsk) (v : Nat) (hv : v < 2 ^ 16) (hc : s.rxbitcount % 26 = 1)
    (hc1 : s.rxbitcount ≠ 1) (hz : s.rxbitstream = 0)
    (hpos : s.rx_buf_pos + 2 ≠ actual_rx_length s.rxlength) :
    cir_rxbits s (bits_msb 26 (bch_encode v)) =
      (after_word s v 0 (s.rxbitcount + 26), [Event.word s.rx_buf_pos v (some v) 0]) := by
  obtain ⟨_, _, hlt⟩ := decode_bch_encode v 0 hv
  obtain ⟨he, hdec, htr, hst⟩ := rx_stored_codeword s v hv
  have hcnt : (with_accumulator s (bch_encode v / 2) (s.rxbitcount + 25)).rxbitcount
      = s.rxbitcount + 25 := rfl
  rw [(cir_rxbits_word s (bch_encode v) hc hz hlt).1,
    cir_rxbit_at_word _ _ (by rw [hcnt]; omega) (by rw [hcnt]; omega),
    if_neg (by rw [hcnt]; omega), htr, hst]
  have hpos2 : ¬ ((with_accumulator s (bch_encode v / 2) (s.rxbitcount + 25)).rx_buf_pos + 2
      = actual_rx_length (with_accumulator s (bch_encode v / 2) (s.rxbitcount + 25)).rxlength) :=
    hpos
  rw [if_neg hpos2, hcnt]
  rfl

/-- The codeword that fills the frame buffer: the word is stored, the CRC is
compared, the frame is reported, and the decoder returns to searching. -/
theorem cir_rxbits_last (s : cirfsk) (v : Nat) (hv : v < 2 ^ 16) (hc : s.rxbitcount % 26 = 1)
    (hc1 : s.rxbitcount ≠ 1) (hz : s.rxbitstream = 0)
    (hpos : s.rx_buf_pos + 2 = actual_rx_length s.rxlength) :
    cir_rxbits s (bits_msb 26 (bch_encode v)) =
      if crc16 (buffer_bytes (after_word s v 0 0).rxbuf s.rxlength) / 256
            = (after_word s v 0 0).rxbuf s.rxlength
          ∧ crc16 (buffer_bytes (after_word s v 0 0).rxbuf s.rxlength) % 256
            = (after_word s v 0 0).rxbuf (s.rxlength + 1) then
        (after_word s v 0 0,
          [Event.word s.rx_buf_pos v (some v) 0, Event.crc_ok]
            ++ cir_display_package (after_word s v 0 0).rxbuf (s.rxlength + 2))
      else
        (after_word s v 0 0,
          [Event.word s.rx_buf_pos v (some v) 0, Event.bad_crc]
            ++ cir_display_package_bad_crc (after_word s v 0 0).rxbuf (after_word s v 0 0).rx_err
              (actual_rx_length s.rxlength)) := by
  obtain ⟨_, _, hlt⟩ := decode_bch_encode v 0 hv
  obtain ⟨he, hdec, htr, hst⟩ := rx_stored_codeword s v hv
  have hcnt : (with_accumulator s (bch_encode v / 2) (s.rxbitcount + 25)).rxbitcount
      = s.rxbitcount + 25 := rfl
  have hpos2 : (with_accumulator s (bch_encode v / 2) (s.rxbitcount + 25)).rx_buf_pos + 2
      = actual_rx_length (with_accumulator s (bch_encode v / 2) (s.rxbitcount + 25)).rxlength :=
    hpos
  rw [(cir_rxbits_word s (bch_encode v) hc hz hlt).1,
    cir_rxbit_at_word _ _ (by rw [hcnt]; omega) (by rw [hcnt]; omega),
    if_neg (by rw [hcnt]; omega), if_pos hpos2, htr, hst]
  simp only [high_byte_eq _ (crc16_lt _), low_byte_eq]
  rfl

/-- On the 26th bit of a codeword the first thing `cir_rxbit` prints is the
trace line of the word just decoded. -/
theorem cir_rxbit_at_word_trace (s : cirfsk) (bit : Nat) (hs : s.rxbitcount ≠ 0)
    (hword : s.rxbitcount % 26 = 0) :
    ∃ tail, (cir_rxbit s bit).2 = rx_trace s bit :: tail := by
  rw [cir_rxbit_at_word s bit hs hword]
  split_ifs
  · exact ⟨_, rfl⟩
  · exact ⟨_, rfl⟩
  · exact ⟨_, rfl⟩
  · exact ⟨_, rfl⟩
  · exact ⟨_, rfl⟩

/-- C6: whenever `cir_rxbit` declares lock, the resulting state has both halves
of the sync window cleared, `rxbitstream = 0`, `rx_buf_pos = 0`,
`fec_errors = 0` and `rxbitcount = 1`; the lock-triggering bit is not part of
any codeword and the next bit fed is bit 1 of codeword 1: after one more bit
`b` the accumulator holds just `b`, and after any 26 bits `w` the decoder is
called on exactly `w`, at buffer position 0. -/
theorem C6_lock_resets (s : cirfsk) (bit : Nat)
    (hlock : (cir_rxbit s bit).1.rxbitcount = 1) :
    (cir_rxbit s bit).1.sync_buffer0 = 0 ∧ (cir_rxbit s bit).1.sync_buffer1 = 0 ∧
    (cir_rxbit s bit).1.rxbitstream = 0 ∧ (cir_rxbit s bit).1.rx_buf_pos = 0 ∧
    (cir_rxbit s bit).1.fec_errors = 0 ∧ (cir_rxbit s bit).1.rxbitcount = 1 ∧
    (∀ b, b < 2 →
      (cir_rxbit (cir_rxbit s bit).1 b).1.rxbitstream = b ∧
      (cir_rxbit (cir_rxbit s bit).1 b).1.rxbitcount = 2 ∧
      (cir_rxbit (cir_rxbit s bit).1 b).2 = []) ∧
    (∀ w, w < 2 ^ 26 → ∃ tail,
      (cir_rxbits (cir_rxbit s bit).1 (bits_msb 26 w)).2 =
        Event.word 0 (w >>> 10)
          (if (decode_BCH_26_16 w 0).1 ≥ 3 then none else some (decode_BCH_26_16 w 0).2)
          (decode_BCH_26_16 w 0).1 :: tail) := by
  have hfields : (cir_rxbit s bit).1.sync_buffer0 = 0 ∧ (cir_rxbit s bit).1.sync_buffer1 = 0 ∧
      (cir_rxbit s bit).1.rxbitstream = 0 ∧ (cir_rxbit s bit).1.rx_buf_pos = 0 ∧
      (cir_rxbit s bit).1.fec_errors = 0 := by
    by_cases hs : s.rxbitcount = 0
    · rw [cir_rxbit_searching s bit hs] at hlock ⊢
      split_ifs at hlock ⊢ with h1 h2
      · exact ⟨rfl, rfl, rfl, rfl, rfl⟩
      · simp [hs] at hlock
      · simp [hs] at hlock
    · have h := cir_rxbit_collecting_count s bit hs
      omega
  obtain ⟨f0, f1, fz, fp, ff⟩ := hfields
  refine ⟨f0, f1, fz, fp, ff, hlock, ?_, ?_⟩
  · intro b hb
    have hw := (rx_word_eq (cir_rxbit s bit).1 b 0 hb (by rw [fz]; decide) (by decide)).1
    rw [cir_rxbit_in_word _ b (by rw [hlock]; decide), hlock]
    refine ⟨?_, rfl, rfl⟩
    show rx_word (cir_rxbit s bit).1 b = b
    rw [hw, fz]
    omega
  · intro w hw
    obtain ⟨hfeed, hword⟩ := cir_rxbits_word (cir_rxbit s bit).1 w (by rw [hlock]) fz hw
    obtain ⟨tail, ht⟩ := cir_rxbit_at_word_trace
      (with_accumulator (cir_rxbit s bit).1 (w / 2) ((cir_rxbit s bit).1.rxbitcount + 25))
      (w % 2) (by show (cir_rxbit s bit).1.rxbitcount + 25 ≠ 0; omega)
      (by show ((cir_rxbit s bit).1.rxbitcount + 25) % 26 = 0; rw [hlock])
    refine ⟨tail, ?_⟩
    rw [hfeed, ht]
    unfold rx_trace rx_errors
    rw [hword]
    show Event.word (cir_rxbit s bit).1.rx_buf_pos _ _ _ :: tail = _
    rw [fp]

/-- C6 at the window that the exact preamble and frame-sync word leave. -/
theorem C6_lock_resets_witness :
    (cir_rxbit (sync_state 0x86ea12cf 0x2aaaaaaa) 1).1.rxbitcount = 1 ∧
      (cir_rxbit (sync_state 0x86ea12cf 0x2aaaaaaa) 1).1.sync_buffer0 = 0 ∧
      (cir_rxbit (cir_rxbit (sync_state 0x86ea12cf 0x2aaaaaaa) 1).1 1).1.rxbitstream = 1 :=
  have h := C6_lock_resets (sync_state 0x86ea12cf 0x2aaaaaaa) 1 (by decide)
  ⟨by decide, h.1, (h.2.2.2.2.2.2.1 1 (by decide)).1⟩

/-! ### A whole frame -/

theorem bswap_16_bytes (v : Nat) :
    bswap_16 v % 2 ^ 8 = v / 256 % 256 ∧ (bswap_16 v >>> 8) % 2 ^ 8 = v % 256 := by
  have hs : v >>> 8 = v / 256 := Nat.shiftRight_eq_div_pow v 8
  have hlt : v / 256 % 2 ^ 8 < 2 ^ 8 := Nat.mod_lt _ (Nat.two_pow_pos 8)
  have hor : bswap_16 v = 256 * (v % 256) + v / 256 % 256 := by
    unfold bswap_16
    rw [hs, Nat.shiftLeft_eq, Nat.mul_comm, ← Nat.mul_add_lt_is_or hlt]
    omega
  have hdiv : (256 * (v % 256) + v / 256 % 256) / 256 = v % 256 := by
    rw [Nat.mul_add_div (by decide : 256 > 0)]
    omega
  have hs2 : bswap_16 v >>> 8 = bswap_16 v / 256 := Nat.shiftRight_eq_div_pow _ 8
  rw [hs2, hor, hdiv]
  constructor <;> omega

/-- The 16-bit store of a byte-swapped word puts the high byte first. -/
theorem store_u16_bswap_apply (buf : Nat → Nat) (pos v k : Nat) :
    store_u16 buf pos (bswap_16 v) k =
      if k = pos then v / 256 % 256 else if k = pos + 1 then v % 256 else buf k := by
  unfold store_u16
  rw [(bswap_16_bytes v).1, (bswap_16_bytes v).2]

theorem good_frames_append (es fs : List Event) :
    good_frames (es ++ fs) = good_frames es ++ good_frames fs := by
  induction es with
  | nil => rfl
  | cons e es ih => cases e <;> simp [good_frames, ih]

theorem bad_frames_append (es fs : List Event) :
    bad_frames (es ++ fs) = bad_frames es ++ bad_frames fs := by
  induction es with
  | nil => rfl
  | cons e es ih => cases e <;> simp [bad_frames, ih]

theorem frame4_buffer (buf : Nat → Nat) (a b c : Nat) :
    buffer_bytes
        (store_u16 (store_u16 (store_u16 buf 0 (bswap_16 a)) 2 (bswap_16 b)) 4 (bswap_16 c)) 6
      = [a / 256 % 256, a % 256, b / 256 % 256, b % 256, c / 256 % 256, c % 256] ∧
    buffer_bytes
        (store_u16 (store_u16 (store_u16 buf 0 (bswap_16 a)) 2 (bswap_16 b)) 4 (bswap_16 c)) 4
      = [a / 256 % 256, a % 256, b / 256 % 256, b % 256] := by
  simp [buffer_bytes, List.range_succ, store_u16_bswap_apply]

/-- From a freshly locked state, the header `(mode, 4)`, one payload word and
the CRC word over the four bytes give one good frame. -/
theorem cir_rxbits_frame4 (s : cirfsk) (mode p0 p1 : Nat) (hc : s.rxbitcount = 1)
    (hz : s.rxbitstream = 0) (hp : s.rx_buf_pos = 0) (hm : mode < 256) (h0 : p0 < 256)
    (h1 : p1 < 256) :
    good_frames (cir_rxbits s (bits_msb 26 (bch_encode (mode * 256 + 4))
        ++ bits_msb 26 (bch_encode (p0 * 256 + p1))
        ++ bits_msb 26 (bch_encode (crc16 [mode, 4, p0, p1])))).2
      = [[mode, 4, p0, p1, crc16 [mode, 4, p0, p1] / 256, crc16 [mode, 4, p0, p1] % 256]] ∧
    bad_frames (cir_rxbits s (bits_msb 26 (bch_encode (mode * 256 + 4))
        ++ bits_msb 26 (bch_encode (p0 * 256 + p1))
        ++ bits_msb 26 (bch_encode (crc16 [mode, 4, p0, p1])))).2 = [] := by
  have hcrc := crc16_lt [mode, 4, p0, p1]
  have hl : (mode * 256 + 4) % 2 ^ 8 = 4 := by omega
  have hw1 := cir_rxbits_header s (mode * 256 + 4) (by omega) hc hz (by omega)
  rw [hl] at hw1
  have hw2 : cir_rxbits (with_rxlength (after_word s (mode * 256 + 4) 0 27) 4)
        (bits_msb 26 (bch_encode (p0 * 256 + p1)))
      = (after_word (with_rxlength (after_word s (mode * 256 + 4) 0 27) 4) (p0 * 256 + p1) 0
          (27 + 26), [Event.word (s.rx_buf_pos + 2) (p0 * 256 + p1) (some (p0 * 256 + p1)) 0]) :=
    cir_rxbits_middle (with_rxlength (after_word s (mode * 256 + 4) 0 27) 4)
      (p0 * 256 + p1) (by omega) (by show 27 % 26 = 1; decide) (by show 27 ≠ 1; decide) rfl
      (by show s.rx_buf_pos + 2 + 2 ≠ actual_rx_length 4; rw [hp]; decide)
  have hw3 := cir_rxbits_last
    (after_word (with_rxlength (after_word s (mode * 256 + 4) 0 27) 4) (p0 * 256 + p1) 0
      (27 + 26))
    (crc16 [mode, 4, p0, p1]) hcrc (by show (27 + 26) % 26 = 1; decide)
    (by show 27 + 26 ≠ 1; decide) rfl
    (by show s.rx_buf_pos + 2 + 2 + 2 = actual_rx_length 4; rw [hp]; decide)
  have hbuf := frame4_buffer s.rxbuf (mode * 256 + 4) (p0 * 256 + p1) (crc16 [mode, 4, p0, p1])
  have e1 : (mode * 256 + 4) / 256 % 256 = mode := by omega
  have e2 : (mode * 256 + 4) % 256 = 4 := by omega
  have e3 : (p0 * 256 + p1) / 256 % 256 = p0 := by omega
  have e4 : (p0 * 256 + p1) % 256 = p1 := by omega
  have e5 : crc16 [mode, 4, p0, p1] / 256 % 256 = crc16 [mode, 4, p0, p1] / 256 := by omega
  rw [e1, e2, e3, e4, e5] at hbuf
  have hrx : (after_word (after_word (with_rxlength (after_word s (mode * 256 + 4) 0 27) 4)
        (p0 * 256 + p1) 0 (27 + 26)) (crc16 [mode, 4, p0, p1]) 0 0).rxbuf
      = store_u16 (store_u16 (store_u16 s.rxbuf 0 (bswap_16 (mode * 256 + 4))) 2
          (bswap_16 (p0 * 256 + p1))) 4 (bswap_16 (crc16 [mode, 4, p0, p1])) := by
    show store_u16 (store_u16 (store_u16 s.rxbuf s.rx_buf_pos _) (s.rx_buf_pos + 2) _)
      (s.rx_buf_pos + 2 + 2) _ = _
    rw [hp]
  have hlen : (after_word (with_rxlength (after_word s (mode * 256 + 4) 0 27) 4)
      (p0 * 256 + p1) 0 (27 + 26)).rxlength = 4 := rfl
  rw [hrx, hlen, hbuf.2] at hw3
  have hcond : crc16 [mode, 4, p0, p1] / 256
        = store_u16 (store_u16 (store_u16 s.rxbuf 0 (bswap_16 (mode * 256 + 4))) 2
          (bswap_16 (p0 * 256 + p1))) 4 (bswap_16 (crc16 [mode, 4, p0, p1])) 4
      ∧ crc16 [mode, 4, p0, p1] % 256
        = store_u16 (store_u16 (store_u16 s.rxbuf 0 (bswap_16 (mode * 256 + 4))) 2
          (bswap_16 (p0 * 256 + p1))) 4 (bswap_16 (crc16 [mode, 4, p0, p1])) (4 + 1) := by
    simp [store_u16_bswap_apply, e5]
  rw [if_pos hcond] at hw3
  rw [cir_rxbits_append, cir_rxbits_append, hw1, hw2, hw3]
  simp only [good_frames_append, bad_frames_append, cir_display_package]
  have h6 : (4 + 2) % 2 ^ 16 = 6 := by decide
  rw [h6, hbuf.1]
  exact ⟨rfl, rfl⟩

/-- The exact preamble and frame-sync word lock a zeroed decoder on the last
bit of the frame-sync word and not before. -/
theorem preamble_frame_sync_locks :
    (cir_rxbits zero_state (preamble ++ frame_sync)).2 = [Event.sync_ok 0 0] ∧
      (cir_rxbits zero_state (preamble ++ frame_sync)).1.rxbitcount = 1 ∧
      (cir_rxbits zero_state (preamble ++ frame_sync)).1.rxbitstream = 0 ∧
      (cir_rxbits zero_state (preamble ++ frame_sync)).1.rx_buf_pos = 0 := by
  decide!

/-- C10 fails as stated: after the preamble and the frame-sync word, the header
`(mode = 1, length = 4)`, the payload words `0x1234` and `0x5678` and the CRC
word over the four payload bytes give no good-frame event and one bad-frame
event, raised when the second payload word arrives. -/
theorem C10_end_to_end_counterexample :
    good_frames (cir_rxbits zero_state (preamble ++ frame_sync
        ++ bits_msb 26 (bch_encode 0x0104)
        ++ bits_msb 26 (bch_encode 0x1234) ++ bits_msb 26 (bch_encode 0x5678)
        ++ bits_msb 26 (bch_encode (crc16 [0x12, 0x34, 0x56, 0x78])))).2 = [] ∧
    bad_frames (cir_rxbits zero_state (preamble ++ frame_sync
        ++ bits_msb 26 (bch_encode 0x0104)
        ++ bits_msb 26 (bch_encode 0x1234) ++ bits_msb 26 (bch_encode 0x5678)
        ++ bits_msb 26 (bch_encode (crc16 [0x12, 0x34, 0x56, 0x78])))).2
      = [([0x01, 0x04, 0x12, 0x34, 0x56, 0x78], [0, 0, 0])] := by
  decide!

/-- C10, amended: starting from a zeroed decoder state, feeding the 51-bit
alternating preamble, then the 32 bits of `0x0DD4259F` most significant bit
first, then valid codewords for a header word `(mode, length = 4)`, one payload
word `(p0, p1)`, and a CRC word whose 16 data bits are `crc16` of the four bytes
`mode, 4, p0, p1`, makes `cir_rxbit` emit exactly one good-frame event, carrying
those four bytes followed by the two CRC bytes, and no bad-frame event. -/
theorem C10_end_to_end_header_counted (mode p0 p1 : Nat) (hm : mode < 256) (h0 : p0 < 256)
    (h1 : p1 < 256) :
    good_frames (cir_rxbits zero_state (preamble ++ frame_sync
        ++ bits_msb 26 (bch_encode (mode * 256 + 4))
        ++ bits_msb 26 (bch_encode (p0 * 256 + p1))
        ++ bits_msb 26 (bch_encode (crc16 [mode, 4, p0, p1])))).2
      = [[mode, 4, p0, p1, crc16 [mode, 4, p0, p1] / 256, crc16 [mode, 4, p0, p1] % 256]] ∧
    bad_frames (cir_rxbits zero_state (preamble ++ frame_sync
        ++ bits_msb 26 (bch_encode (mode * 256 + 4))
        ++ bits_msb 26 (bch_encode (p0 * 256 + p1))
        ++ bits_msb 26 (bch_encode (crc16 [mode, 4, p0, p1])))).2 = [] := by
  obtain ⟨hev, hc, hz, hp⟩ := preamble_frame_sync_locks
  obtain ⟨hg, hb⟩ := cir_rxbits_frame4 (cir_rxbits zero_state (preamble ++ frame_sync)).1
    mode p0 p1 hc hz hp hm h0 h1
  have hassoc : preamble ++ frame_sync
        ++ bits_msb 26 (bch_encode (mode * 256 + 4))
        ++ bits_msb 26 (bch_encode (p0 * 256 + p1))
        ++ bits_msb 26 (bch_encode (crc16 [mode, 4, p0, p1]))
      = (preamble ++ frame_sync) ++ (bits_msb 26 (bch_encode (mode * 256 + 4))
        ++ bits_msb 26 (bch_encode (p0 * 256 + p1))
        ++ bits_msb 26 (bch_encode (crc16 [mode, 4, p0, p1]))) := by
    simp only [List.append_assoc]
  rw [hassoc, cir_rxbits_append]
  simp only [good_frames_append, bad_frames_append, hev, hg, hb]
  exact ⟨rfl, rfl⟩

/-- C10, amended, at `mode = 1` and the payload bytes `12 34`: the CRC bytes
are `b9 b2`. -/
theorem C10_end_to_end_header_counted_witness :
    1 < 256 ∧ 0x12 < 256 ∧ 0x34 < 256 ∧ crc16 [1, 4, 0x12, 0x34] = 0xb9b2 ∧
    good_frames (cir_rxbits zero_state (preamble ++ frame_sync
        ++ bits_msb 26 (bch_encode (1 * 256 + 4))
        ++ bits_msb 26 (bch_encode (0x12 * 256 + 0x34))
        ++ bits_msb 26 (bch_encode (crc16 [1, 4, 0x12, 0x34])))).2
      = [[1, 4, 0x12, 0x34, crc16 [1, 4, 0x12, 0x34] / 256, crc16 [1, 4, 0x12, 0x34] % 256]] :=
  ⟨by decide, by decide, by decide, by decide!,
    (C10_end_to_end_header_counted 1 0x12 0x34 (by decide) (by decide) (by decide)).1⟩

/-! ### One call of `cir_rxbit`, by branch -/

theorem rx_errors_le (s : cirfsk) (bit : Nat) : rx_errors s bit ≤ 3 := by
  unfold rx_errors
  rw [decode_eq_correction]
  exact bch_correction_fst_le _

theorem rx_decoded_lt (s : cirfsk) (bit : Nat) : rx_decoded s bit < 2 ^ 16 := by
  unfold rx_decoded
  split_ifs with h
  · exact Nat.mod_lt _ (Nat.two_pow_pos 16)
  · unfold rx_errors at h
    rw [decode_eq_correction] at h ⊢
    have h3 : (bch_correction (bch_syndrome (rx_word s bit))).1 ≠ 3 := by
      intro hc
      exact h (by rw [hc])
    show (if (bch_correction (bch_syndrome (rx_word s bit))).1 = 3 then 0
      else ((rx_word s bit ^^^ (bch_correction (bch_syndrome (rx_word s bit))).2) >>> 10)
        % 2 ^ 16) < 2 ^ 16
    rw [if_neg h3]
    exact Nat.mod_lt _ (Nat.two_pow_pos 16)

/-- What line 206-208 leave in the buffers: the word big-endian at the old
position, its severity at half that position, everything else untouched. -/
theorem rx_stored_buffers (s : cirfsk) (bit : Nat) :
    (rx_stored s bit).rxbuf s.rx_buf_pos = rx_decoded s bit / 256 ∧
    (rx_stored s bit).rxbuf (s.rx_buf_pos + 1) = rx_decoded s bit % 256 ∧
    (rx_stored s bit).rx_err (s.rx_buf_pos / 2) = rx_errors s bit ∧
    (rx_stored s bit).rx_buf_pos = s.rx_buf_pos + 2 ∧
    (∀ k, k ≠ s.rx_buf_pos → k ≠ s.rx_buf_pos + 1 → (rx_stored s bit).rxbuf k = s.rxbuf k) ∧
    (∀ k, k ≠ s.rx_buf_pos / 2 → (rx_stored s bit).rx_err k = s.rx_err k) := by
  have hd := rx_decoded_lt s bit
  have he := rx_errors_le s bit
  refine ⟨?_, ?_, ?_, rfl, ?_, ?_⟩
  · show store_u16 s.rxbuf s.rx_buf_pos (bswap_16 (rx_decoded s bit)) s.rx_buf_pos = _
    rw [store_u16_bswap_apply, if_pos rfl]
    omega
  · show store_u16 s.rxbuf s.rx_buf_pos (bswap_16 (rx_decoded s bit)) (s.rx_buf_pos + 1) = _
    rw [store_u16_bswap_apply, if_neg (by omega), if_pos rfl]
  · show store_u8 s.rx_err (s.rx_buf_pos / 2) (rx_errors s bit) (s.rx_buf_pos / 2) = _
    unfold store_u8
    rw [if_pos rfl]
    omega
  · intro k h1 h2
    show store_u16 s.rxbuf s.rx_buf_pos (bswap_16 (rx_decoded s bit)) k = _
    rw [store_u16_bswap_apply, if_neg h1, if_neg h2]
  · intro k h1
    show store_u8 s.rx_err (s.rx_buf_pos / 2) (rx_errors s bit) k = _
    unfold store_u8
    rw [if_neg h1]

/-- The state and the frame reports of a call on the 26th bit of a codeword,
branch by branch. -/
theorem cir_rxbit_at_word_cases (s : cirfsk) (bit : Nat) (hs : s.rxbitcount ≠ 0)
    (hword : s.rxbitcount % 26 = 0) :
    (s.rxbitcount = 26 ∧ rx_decoded s bit % 2 ^ 8 = 0 ∧
      cir_rxbit s bit =
        ({ rx_stored s bit with rxlength := rx_decoded s bit % 2 ^ 8, rxbitcount := 0 },
          [rx_trace s bit, Event.zero_length])) ∨
    (s.rxbitcount = 26 ∧ rx_decoded s bit % 2 ^ 8 ≠ 0 ∧
      cir_rxbit s bit =
        ({ rx_stored s bit with
            rxlength := rx_decoded s bit % 2 ^ 8, rxbitcount := s.rxbitcount + 1 },
          [rx_trace s bit, Event.length (rx_decoded s bit % 2 ^ 8)])) ∨
    (s.rxbitcount ≠ 26 ∧ s.rx_buf_pos + 2 = actual_rx_length s.rxlength ∧
      (crc16 (buffer_bytes (rx_stored s bit).rxbuf s.rxlength) / 256
          = (rx_stored s bit).rxbuf s.rxlength
        ∧ crc16 (buffer_bytes (rx_stored s bit).rxbuf s.rxlength) % 256
          = (rx_stored s bit).rxbuf (s.rxlength + 1)) ∧
      cir_rxbit s bit =
        ({ rx_stored s bit with rxbitcount := 0 },
          [rx_trace s bit, Event.crc_ok,
            Event.package (buffer_bytes (rx_stored s bit).rxbuf ((s.rxlength + 2) % 2 ^ 16))])) ∨
    (s.rxbitcount ≠ 26 ∧ s.rx_buf_pos + 2 = actual_rx_length s.rxlength ∧
      ¬ (crc16 (buffer_bytes (rx_stored s bit).rxbuf s.rxlength) / 256
          = (rx_stored s bit).rxbuf s.rxlength
        ∧ crc16 (buffer_bytes (rx_stored s bit).rxbuf s.rxlength) % 256
          = (rx_stored s bit).rxbuf (s.rxlength + 1)) ∧
      cir_rxbit s bit =
        ({ rx_stored s bit with rxbitcount := 0 },
          [rx_trace s bit, Event.bad_crc,
            Event.package_bad_crc
              (buffer_bytes (rx_stored s bit).rxbuf (actual_rx_length s.rxlength % 2 ^ 16))
              (buffer_bytes (rx_stored s bit).rx_err
                (actual_rx_length s.rxlength % 2 ^ 16 / 2))])) ∨
    (s.rxbitcount ≠ 26 ∧ s.rx_buf_pos + 2 ≠ actual_rx_length s.rxlength ∧
      cir_rxbit s bit =
        ({ rx_stored s bit with rxbitcount := s.rxbitcount + 1 }, [rx_trace s bit])) := by
  rw [cir_rxbit_at_word s bit hs hword]
  simp only [high_byte_eq _ (crc16_lt _), low_byte_eq]
  by_cases h26 : s.rxbitcount = 26
  · rw [if_pos h26]
    by_cases hz : rx_decoded s bit % 2 ^ 8 = 0
    · rw [if_pos hz]
      exact Or.inl ⟨h26, hz, rfl⟩
    · rw [if_neg hz]
      exact Or.inr (Or.inl ⟨h26, hz, rfl⟩)
  · rw [if_neg h26]
    by_cases hfull : s.rx_buf_pos + 2 = actual_rx_length s.rxlength
    · rw [if_pos hfull]
      by_cases hcrc : crc16 (buffer_bytes (rx_stored s bit).rxbuf s.rxlength) / 256
            = (rx_stored s bit).rxbuf s.rxlength
          ∧ crc16 (buffer_bytes (rx_stored s bit).rxbuf s.rxlength) % 256
            = (rx_stored s bit).rxbuf (s.rxlength + 1)
      · rw [if_pos hcrc]
        exact Or.inr (Or.inr (Or.inl ⟨h26, hfull, hcrc, rfl⟩))
      · rw [if_neg hcrc]
        exact Or.inr (Or.inr (Or.inr (Or.inl ⟨h26, hfull, hcrc, rfl⟩)))
    · rw [if_neg hfull]
      exact Or.inr (Or.inr (Or.inr (Or.inr ⟨h26, hfull, rfl⟩)))

/-- On the 26th bit of a codeword the buffers, the position, the error count
and the accumulator are those of `rx_stored`, whatever the branch. -/
theorem cir_rxbit_at_word_fields (s : cirfsk) (bit : Nat) (hs : s.rxbitcount ≠ 0)
    (hword : s.rxbitcount % 26 = 0) :
    (cir_rxbit s bit).1.rxbuf = (rx_stored s bit).rxbuf ∧
    (cir_rxbit s bit).1.rx_err = (rx_stored s bit).rx_err ∧
    (cir_rxbit s bit).1.rx_buf_pos = s.rx_buf_pos + 2 ∧
    (cir_rxbit s bit).1.fec_errors
      = (if rx_errors s bit ≥ 3 then s.fec_errors + 1 else s.fec_errors) ∧
    (cir_rxbit s bit).1.rxbitstream = 0 ∧
    (cir_rxbit s bit).1.sync_buffer0 = s.sync_buffer0 ∧
    (cir_rxbit s bit).1.sync_buffer1 = s.sync_buffer1 ∧
    ∃ tail, (cir_rxbit s bit).2 = rx_trace s bit :: tail ∧
      ∀ e ∈ tail, (∀ a b, e ≠ Event.sync_ok a b) ∧ (∀ a b c d, e ≠ Event.word a b c d) := by
  rcases cir_rxbit_at_word_cases s bit hs hword with
    ⟨_, _, h⟩ | ⟨_, _, h⟩ | ⟨_, _, _, h⟩ | ⟨_, _, _, h⟩ | ⟨_, _, h⟩ <;>
  · rw [h]
    refine ⟨rfl, rfl, rfl, rfl, rfl, rfl, rfl, _, rfl, ?_⟩
    intro e he
    constructor
    · intro a b hc
      subst hc
      simp at he
    · intro a b c d hc
      subst hc
      simp at he

/-- C19: in the searching state, if the lock criterion is not met after the
bit is shifted in (near-miss band included), `cir_rxbit` changes nothing but
the sync window: `rxbitcount` stays 0, `rxbitstream`, `rx_buf_pos`, `rxbuf`,
`rx_err`, `rxlength` and `fec_errors` are unchanged, and no frame event is
emitted (the near-miss band only prints its diagnostic line). -/
theorem C19_no_lock_only_shifts (s : cirfsk) (bit : Nat) (hs : s.rxbitcount = 0)
    (hno : ¬ (preamble_err s + frame_err s bit ≤ 4
      ∨ (preamble_err s ≤ 6 ∧ frame_err s bit ≤ 2))) :
    (cir_rxbit s bit).1 = with_window s (shifted_sync0 s bit) (shifted_sync1 s) ∧
    (cir_rxbit s bit).1.rxbitcount = 0 ∧
    (cir_rxbit s bit).1.rxbitstream = s.rxbitstream ∧
    (cir_rxbit s bit).1.rx_buf_pos = s.rx_buf_pos ∧
    (cir_rxbit s bit).1.rxbuf = s.rxbuf ∧
    (cir_rxbit s bit).1.rx_err = s.rx_err ∧
    (cir_rxbit s bit).1.rxlength = s.rxlength ∧
    (cir_rxbit s bit).1.fec_errors = s.fec_errors ∧
    good_frames (cir_rxbit s bit).2 = [] ∧ bad_frames (cir_rxbit s bit).2 = [] ∧
    (cir_rxbit s bit).2 =
      (if preamble_err s + frame_err s bit ≤ 10 then
        [Event.sync_error (preamble_err s) (frame_err s bit) (shifted_sync1 s)
          (shifted_sync0 s bit)]
      else []) := by
  rw [cir_rxbit_searching s bit hs, if_neg hno]
  by_cases h10 : preamble_err s + frame_err s bit ≤ 10
  · rw [if_pos h10, if_pos h10]
    exact ⟨rfl, hs, rfl, rfl, rfl, rfl, rfl, rfl, rfl, rfl, rfl⟩
  · rw [if_neg h10, if_neg h10]
    exact ⟨rfl, hs, rfl, rfl, rfl, rfl, rfl, rfl, rfl, rfl, rfl⟩

/-- C19 at a window whose error pair after the shift is (7,3), inside the
near-miss band. -/
theorem C19_no_lock_only_shifts_witness :
    (sync_state 0x6ea12cc 0x2aaaaa95).rxbitcount = 0 ∧
    (preamble_err (sync_state 0x6ea12cc 0x2aaaaa95),
      frame_err (sync_state 0x6ea12cc 0x2aaaaa95) 0) = (7, 3) ∧
    (cir_rxbit (sync_state 0x6ea12cc 0x2aaaaa95) 0).1.rxbitcount = 0 ∧
    (cir_rxbit (sync_state 0x6ea12cc 0x2aaaaa95) 0).2
      = [Event.sync_error 7 3 0x5555552a 0x0dd42598] :=
  have h := C19_no_lock_only_shifts (sync_state 0x6ea12cc 0x2aaaaa95) 0 rfl (by decide)
  ⟨rfl, by decide, h.2.1, by decide⟩

/-- C14: if the first word decoded after a lock has low byte 0, `cir_rxbit`
discards the frame: it returns to the searching state (`rxbitcount = 0`),
prints `zero length`, and emits neither a good-frame nor a bad-frame event. -/
theorem C14_zero_length_discarded (s : cirfsk) (bit : Nat) (hfirst : s.rxbitcount = 26)
    (hzero : rx_decoded s bit % 256 = 0) :
    (cir_rxbit s bit).1.rxbitcount = 0 ∧
    (cir_rxbit s bit).2 = [rx_trace s bit, Event.zero_length] ∧
    good_frames (cir_rxbit s bit).2 = [] ∧ bad_frames (cir_rxbit s bit).2 = [] := by
  have hz : rx_decoded s bit % 2 ^ 8 = 0 := hzero
  rw [cir_rxbit_at_word s bit (by rw [hfirst]; decide) (by rw [hfirst]), if_pos hfirst,
    if_pos hz]
  exact ⟨rfl, rfl, rfl, rfl⟩

/-- C14 at `zero_length_state`: the header `01 00` is discarded. -/
theorem C14_zero_length_discarded_witness :
    zero_length_state.rxbitcount = 26 ∧
    rx_decoded zero_length_state (bch_encode 0x0100 % 2) % 256 = 0 ∧
    (cir_rxbit zero_length_state (bch_encode 0x0100 % 2)).1.rxbitcount = 0 ∧
    (cir_rxbit zero_length_state (bch_encode 0x0100 % 2)).2
      = [Event.word 0 0x0100 (some 0x0100) 0, Event.zero_length] :=
  have h := C14_zero_length_discarded zero_length_state (bch_encode 0x0100 % 2) rfl
    (by decide!)
  ⟨rfl, by decide!, h.1, by decide!⟩

/-- A call in the searching state or inside a codeword reports no frame and
stores no word. -/
theorem cir_rxbit_quiet (s : cirfsk) (bit : Nat) (h : s.rxbitcount % 26 ≠ 0 ∨ s.rxbitcount = 0) :
    good_frames (cir_rxbit s bit).2 = [] ∧ bad_frames (cir_rxbit s bit).2 = [] ∧
    Event.zero_length ∉ (cir_rxbit s bit).2 ∧
    (cir_rxbit s bit).1.rxbuf = s.rxbuf ∧ (cir_rxbit s bit).1.rx_err = s.rx_err ∧
    (cir_rxbit s bit).1.rxlength = s.rxlength := by
  by_cases hs : s.rxbitcount = 0
  · rw [cir_rxbit_searching s bit hs]
    split_ifs <;> exact ⟨rfl, rfl, by simp, rfl, rfl, rfl⟩
  · have hword : s.rxbitcount % 26 ≠ 0 := by
      rcases h with h | h
      · exact h
      · exact absurd h hs
    rw [cir_rxbit_in_word s bit hword]
    exact ⟨rfl, rfl, by simp, rfl, rfl, rfl⟩

theorem buffer_bytes_succ (f : Nat → Nat) (n : Nat) :
    buffer_bytes f (n + 1) = buffer_bytes f n ++ [f n] := by
  simp [buffer_bytes, List.range_succ]

theorem buffer_bytes_length (f : Nat → Nat) (n : Nat) : (buffer_bytes f n).length = n := by
  simp [buffer_bytes]

/-- C11 fails: at `completing_state`, where the expected length `rxlength` is
4, the good frame reported has 6 bytes, the last two being the CRC trailer
`b9 b2`. -/
theorem C11_good_frame_bytes_counterexample :
    completing_state.rxlength = 4 ∧
    good_frames (cir_rxbit completing_state 0).2 = [[0x01, 0x04, 0x12, 0x34, 0xb9, 0xb2]] ∧
    (cir_rxbit completing_state 0).1.rxlength = 4 ∧
    [0x01, 0x04, 0x12, 0x34, 0xb9, 0xb2]
      ≠ buffer_bytes (cir_rxbit completing_state 0).1.rxbuf 4 := by
  decide!

/-- C11, amended: whenever `cir_rxbit` reports a good frame, it reports exactly
one, and the reported byte sequence is `rxbuf[0..rxlength + 2)`: the
`rxlength` bytes over which the CRC was computed followed by the two CRC
trailer bytes, so that its length is `rxlength + 2`. -/
theorem C11_good_frame_bytes_with_trailer (s : cirfsk) (bit : Nat) (bytes : List Nat)
    (hlen : s.rxlength < 256) (hgood : bytes ∈ good_frames (cir_rxbit s bit).2) :
    good_frames (cir_rxbit s bit).2 = [bytes] ∧
    (cir_rxbit s bit).1.rxlength = s.rxlength ∧
    bytes = buffer_bytes (cir_rxbit s bit).1.rxbuf (s.rxlength + 2) ∧
    bytes.length = s.rxlength + 2 ∧
    bytes = buffer_bytes (cir_rxbit s bit).1.rxbuf s.rxlength
      ++ [crc16 (buffer_bytes (cir_rxbit s bit).1.rxbuf s.rxlength) / 256,
          crc16 (buffer_bytes (cir_rxbit s bit).1.rxbuf s.rxlength) % 256] := by
  by_cases hq : s.rxbitcount % 26 ≠ 0 ∨ s.rxbitcount = 0
  · rw [(cir_rxbit_quiet s bit hq).1] at hgood
    simp at hgood
  · have hs : s.rxbitcount ≠ 0 := fun h => hq (Or.inr h)
    have hword : s.rxbitcount % 26 = 0 := by
      by_contra h
      exact hq (Or.inl h)
    have hmod : (s.rxlength + 2) % 2 ^ 16 = s.rxlength + 2 := Nat.mod_eq_of_lt (by omega)
    rcases cir_rxbit_at_word_cases s bit hs hword with
      ⟨_, _, h⟩ | ⟨_, _, h⟩ | ⟨_, _, hcrc, h⟩ | ⟨_, _, _, h⟩ | ⟨_, _, h⟩
    · rw [h] at hgood
      simp [good_frames] at hgood
    · rw [h] at hgood
      simp [good_frames] at hgood
    · rw [h, hmod] at hgood ⊢
      have hb : bytes = buffer_bytes (rx_stored s bit).rxbuf (s.rxlength + 2) := by
        simpa [good_frames] using hgood
      subst hb
      refine ⟨rfl, rfl, rfl, buffer_bytes_length _ _, ?_⟩
      show buffer_bytes (rx_stored s bit).rxbuf (s.rxlength + 1 + 1)
        = buffer_bytes (rx_stored s bit).rxbuf s.rxlength
          ++ [crc16 (buffer_bytes (rx_stored s bit).rxbuf s.rxlength) / 256,
              crc16 (buffer_bytes (rx_stored s bit).rxbuf s.rxlength) % 256]
      rw [buffer_bytes_succ, buffer_bytes_succ, hcrc.1, hcrc.2]
      simp
    · rw [h] at hgood
      simp [good_frames] at hgood
    · rw [h] at hgood
      simp [good_frames] at hgood

set_option maxRecDepth 8192 in
/-- C11, amended, at `completing_state`. -/
theorem C11_good_frame_bytes_with_trailer_witness :
    completing_state.rxlength < 256 ∧
    [0x01, 0x04, 0x12, 0x34, 0xb9, 0xb2] ∈ good_frames (cir_rxbit completing_state 0).2 ∧
    good_frames (cir_rxbit completing_state 0).2 = [[0x01, 0x04, 0x12, 0x34, 0xb9, 0xb2]] ∧
    [0x01, 0x04, 0x12, 0x34, 0xb9, 0xb2].length = completing_state.rxlength + 2 := by
  have hmem : [0x01, 0x04, 0x12, 0x34, 0xb9, 0xb2]
      ∈ good_frames (cir_rxbit completing_state 0).2 := by
    decide!
  obtain ⟨h1, _, _, h4, _⟩ := C11_good_frame_bytes_with_trailer completing_state 0
    [0x01, 0x04, 0x12, 0x34, 0xb9, 0xb2] (by decide) hmem
  exact ⟨by decide, hmem, h1, h4⟩

/-- C16 fails: at `completing_state` the call completes a good frame and
returns to searching, but `rx_buf_pos` is left at 6, the number of bytes
stored, not reset to 0. -/
theorem C16_accumulators_reset_counterexample :
    good_frames (cir_rxbit completing_state 0).2 = [[0x01, 0x04, 0x12, 0x34, 0xb9, 0xb2]] ∧
    (cir_rxbit completing_state 0).1.rxbitcount = 0 ∧
    (cir_rxbit completing_state 0).1.rx_buf_pos = 6 ∧
    (cir_rxbit completing_state 0).1.rx_buf_pos ≠ 0 := by
  decide!

/-- C15: when `decode_BCH_26_16` returns severity 3 for a received 26-bit word
`w`, `cir_rxbit` stores the raw uncorrected top 16 bits `w >> 10` in the frame
buffer (big-endian at the old position), records 3 in the error tally,
increments `fec_errors` by one, and does not abort the frame: a header word of
non-zero length and a word that does not fill the buffer leave the decoder
collecting without a frame event, and a word that fills the buffer has the
frame classified good or bad by the CRC comparison alone. -/
theorem C15_uncorrectable_word_kept (s : cirfsk) (bit : Nat) (hs : s.rxbitcount ≠ 0)
    (hword : s.rxbitcount % 26 = 0) (hw : rx_word s bit < 2 ^ 26)
    (h3 : (decode_BCH_26_16 (rx_word s bit) 0).1 = 3) :
    (cir_rxbit s bit).1.rxbuf s.rx_buf_pos = (rx_word s bit >>> 10) / 256 ∧
    (cir_rxbit s bit).1.rxbuf (s.rx_buf_pos + 1) = (rx_word s bit >>> 10) % 256 ∧
    (cir_rxbit s bit).1.rx_err (s.rx_buf_pos / 2) = 3 ∧
    (cir_rxbit s bit).1.fec_errors = s.fec_errors + 1 ∧
    (cir_rxbit s bit).1.rx_buf_pos = s.rx_buf_pos + 2 ∧
    (s.rxbitcount = 26 → (rx_word s bit >>> 10) % 256 ≠ 0 →
      (cir_rxbit s bit).1.rxbitcount = 27 ∧
      (cir_rxbit s bit).1.rxlength = (rx_word s bit >>> 10) % 256 ∧
      good_frames (cir_rxbit s bit).2 = [] ∧ bad_frames (cir_rxbit s bit).2 = []) ∧
    (s.rxbitcount ≠ 26 → s.rx_buf_pos + 2 ≠ actual_rx_length s.rxlength →
      (cir_rxbit s bit).1.rxbitcount = s.rxbitcount + 1 ∧
      good_frames (cir_rxbit s bit).2 = [] ∧ bad_frames (cir_rxbit s bit).2 = []) ∧
    (s.rxbitcount ≠ 26 → s.rx_buf_pos + 2 = actual_rx_length s.rxlength →
      (cir_rxbit s bit).1.rxbitcount = 0 ∧
      (good_frames (cir_rxbit s bit).2).length + (bad_frames (cir_rxbit s bit).2).length = 1 ∧
      (good_frames (cir_rxbit s bit).2 ≠ [] ↔
        crc16 (buffer_bytes (cir_rxbit s bit).1.rxbuf s.rxlength) / 256
            = (cir_rxbit s bit).1.rxbuf s.rxlength
          ∧ crc16 (buffer_bytes (cir_rxbit s bit).1.rxbuf s.rxlength) % 256
            = (cir_rxbit s bit).1.rxbuf (s.rxlength + 1))) := by
  have he : rx_errors s bit = 3 := h3
  have hd : rx_decoded s bit = rx_word s bit >>> 10 := by
    unfold rx_decoded
    rw [he, if_pos (Nat.le_refl 3)]
    exact Nat.mod_eq_of_lt (shiftRight_ten_lt _ hw)
  obtain ⟨b1, b2, b3, _, _, _⟩ := rx_stored_buffers s bit
  obtain ⟨f1, f2, f3, f4, _, _⟩ := cir_rxbit_at_word_fields s bit hs hword
  rw [hd] at b1 b2
  rw [he] at b3 f4
  rw [f1, f2]
  refine ⟨b1, b2, b3, by rw [f4, if_pos (Nat.le_refl 3)], f3, ?_, ?_, ?_⟩
  · intro h26 hnz
    rcases cir_rxbit_at_word_cases s bit hs hword with
      ⟨_, hz, _⟩ | ⟨_, _, h⟩ | ⟨hn, _⟩ | ⟨hn, _⟩ | ⟨hn, _⟩
    · rw [hd] at hz
      exact absurd hz hnz
    · rw [h, hd, h26]
      exact ⟨rfl, rfl, rfl, rfl⟩
    · exact absurd h26 hn
    · exact absurd h26 hn
    · exact absurd h26 hn
  · intro h26 hfull
    rcases cir_rxbit_at_word_cases s bit hs hword with
      ⟨hn, _⟩ | ⟨hn, _⟩ | ⟨_, hf, _⟩ | ⟨_, hf, _⟩ | ⟨_, _, h⟩
    · exact absurd hn h26
    · exact absurd hn h26
    · exact absurd hf hfull
    · exact absurd hf hfull
    · rw [h]
      exact ⟨rfl, rfl, rfl⟩
  · intro h26 hfull
    rcases cir_rxbit_at_word_cases s bit hs hword with
      ⟨hn, _⟩ | ⟨hn, _⟩ | ⟨_, _, hcrc, h⟩ | ⟨_, _, hcrc, h⟩ | ⟨_, hf, _⟩
    · exact absurd hn h26
    · exact absurd hn h26
    · rw [h]
      refine ⟨rfl, rfl, ?_⟩
      simp only [good_frames, ne_eq, List.cons_ne_nil, not_false_eq_true, true_iff]
      exact hcrc
    · rw [h]
      refine ⟨rfl, rfl, ?_⟩
      simp only [good_frames, ne_eq, not_true_eq_false, false_iff]
      exact hcrc
    · exact absurd hfull hf

/-- C15 at `uncorrectable_state`: the codeword of `0x1234` with its three low
bits flipped is stored raw as `12 34`, and collection goes on. -/
theorem C15_uncorrectable_word_kept_witness :
    uncorrectable_state.rxbitcount ≠ 0 ∧ uncorrectable_state.rxbitcount % 26 = 0 ∧
    rx_word uncorrectable_state 1 = bch_encode 0x1234 ^^^ 7 ∧
    rx_word uncorrectable_state 1 < 2 ^ 26 ∧
    (decode_BCH_26_16 (rx_word uncorrectable_state 1) 0).1 = 3 ∧
    (cir_rxbit uncorrectable_state 1).1.rxbuf uncorrectable_state.rx_buf_pos
      = (rx_word uncorrectable_state 1 >>> 10) / 256 ∧
    (cir_rxbit uncorrectable_state 1).1.fec_errors = uncorrectable_state.fec_errors + 1 ∧
    (cir_rxbit uncorrectable_state 1).1.rxbitcount = uncorrectable_state.rxbitcount + 1 :=
  have h := C15_uncorrectable_word_kept uncorrectable_state 1 (by decide) (by decide)
    (by decide!) (by decide!)
  ⟨by decide, by decide, by decide!, by decide!, by decide!, h.1, h.2.2.2.1,
    (h.2.2.2.2.2.2.1 (by decide) (by decide)).1⟩

/-! ### The buffer position counts the stored words -/

theorem words_since_lock_other (es : List Event) (c : Nat)
    (h : ∀ e ∈ es, (∀ a b, e ≠ Event.sync_ok a b) ∧ (∀ a b c d, e ≠ Event.word a b c d)) :
    words_since_lock es c = c := by
  induction es with
  | nil => rfl
  | cons e es ih =>
    have he := h e (List.mem_cons_self _ _)
    have hes := ih (fun x hx => h x (List.mem_cons_of_mem _ hx))
    cases e with
    | sync_ok a b => exact absurd rfl (he.1 a b)
    | word a b c d => exact absurd rfl (he.2 a b c d)
    | sync_error a b c d => exact hes
    | zero_length => exact hes
    | length n => exact hes
    | crc_ok => exact hes
    | bad_crc => exact hes
    | package bs => exact hes
    | package_bad_crc bs er => exact hes

theorem words_since_lock_append (es fs : List Event) (c : Nat) :
    words_since_lock (es ++ fs) c = words_since_lock fs (words_since_lock es c) := by
  induction es generalizing c with
  | nil => rfl
  | cons e es ih => cases e <;> exact ih _

/-- One call keeps `rx_buf_pos` at twice the number of words stored since the
last lock. -/
theorem cir_rxbit_pos_count (s : cirfsk) (bit c : Nat) (h : s.rx_buf_pos = 2 * c) :
    (cir_rxbit s bit).1.rx_buf_pos = 2 * words_since_lock (cir_rxbit s bit).2 c := by
  by_cases hs : s.rxbitcount = 0
  · rw [cir_rxbit_searching s bit hs]
    split_ifs
    · rfl
    · exact h
    · exact h
  · by_cases hword : s.rxbitcount % 26 = 0
    · obtain ⟨_, _, hpos, _, _, _, _, tail, hev, htail⟩ := cir_rxbit_at_word_fields s bit hs hword
      rw [hpos, hev]
      unfold rx_trace
      show s.rx_buf_pos + 2 = 2 * words_since_lock tail (c + 1)
      rw [words_since_lock_other tail (c + 1) htail]
      omega
    · rw [cir_rxbit_in_word s bit hword]
      exact h

theorem cir_rxbits_pos_count (bits : List Nat) : ∀ (s : cirfsk) (c : Nat),
    s.rx_buf_pos = 2 * c →
    (cir_rxbits s bits).1.rx_buf_pos = 2 * words_since_lock (cir_rxbits s bits).2 c := by
  induction bits with
  | nil => intro s c h; exact h
  | cons b bs ih =>
    intro s c h
    simp only [cir_rxbits]
    rw [words_since_lock_append]
    exact ih _ _ (cir_rxbit_pos_count s b c h)

/-- C20: for each decoded 16-bit word arriving when the buffer position is
`p = rx_buf_pos`, `cir_rxbit` stores it big-endian (high byte at `rxbuf[p]`,
low byte at `rxbuf[p+1]`), records its severity at `rx_err[p/2]`, and advances
`rx_buf_pos` by exactly 2; hence in every state reached from an initialised
decoder `rx_buf_pos` is even and equals twice the number of severity entries
recorded since the last lock. -/
theorem C20_word_store_and_position (s : cirfsk) (bit : Nat) (hs : s.rxbitcount ≠ 0)
    (hword : s.rxbitcount % 26 = 0) (s0 : cirfsk) (bits : List Nat) :
    (rx_decoded s bit < 2 ^ 16 ∧
      (cir_rxbit s bit).1.rxbuf s.rx_buf_pos = rx_decoded s bit / 256 ∧
      (cir_rxbit s bit).1.rxbuf (s.rx_buf_pos + 1) = rx_decoded s bit % 256 ∧
      (cir_rxbit s bit).1.rx_err (s.rx_buf_pos / 2) = (decode_BCH_26_16 (rx_word s bit) 0).1 ∧
      (cir_rxbit s bit).1.rx_buf_pos = s.rx_buf_pos + 2) ∧
    ((cir_rxbits (cir_init s0) bits).1.rx_buf_pos % 2 = 0 ∧
      (cir_rxbits (cir_init s0) bits).1.rx_buf_pos
        = 2 * words_since_lock (cir_rxbits (cir_init s0) bits).2 0) := by
  obtain ⟨b1, b2, b3, _, _, _⟩ := rx_stored_buffers s bit
  obtain ⟨f1, f2, f3, _⟩ := cir_rxbit_at_word_fields s bit hs hword
  have hinv := cir_rxbits_pos_count bits (cir_init s0) 0 rfl
  refine ⟨⟨rx_decoded_lt s bit, ?_, ?_, ?_, f3⟩, ?_, hinv⟩
  · rw [f1]
    exact b1
  · rw [f1]
    exact b2
  · rw [f2]
    exact b3
  · rw [hinv]
    omega

/-- C20 at `completing_state`, whose last word `b9 b2` goes to positions 4 and
5, and on the run of the preamble, the frame-sync word and one codeword from a
zeroed decoder, which stores one word. -/
theorem C20_word_store_and_position_witness :
    completing_state.rxbitcount ≠ 0 ∧ completing_state.rxbitcount % 26 = 0 ∧
    (cir_rxbit completing_state 0).1.rxbuf completing_state.rx_buf_pos
      = rx_decoded completing_state 0 / 256 ∧
    rx_decoded completing_state 0 = 0xb9b2 ∧
    (cir_rxbits (cir_init zero_state)
      (preamble ++ frame_sync ++ bits_msb 26 (bch_encode 0x0104))).1.rx_buf_pos = 2 :=
  have h := C20_word_store_and_position completing_state 0 (by decide) (by decide) zero_state
    (preamble ++ frame_sync ++ bits_msb 26 (bch_encode 0x0104))
  ⟨by decide, by decide, h.1.2.1, by decide!, by decide!⟩

/-! ### The sync window while searching -/

theorem shift_in_mod (bits : List Nat) : ∀ a : Nat,
    shift_in (a % 2 ^ 64) bits % 2 ^ 64 = shift_in a bits % 2 ^ 64 := by
  induction bits with
  | nil =>
    intro a
    exact Nat.mod_mod _ _
  | cons b bs ih =>
    intro a
    have h : ∀ x, shift_in x (b :: bs) = shift_in (2 * x + b) bs := fun _ => rfl
    rw [h, h, ← ih (2 * (a % 2 ^ 64) + b), ← ih (2 * a + b)]
    have hm : (2 * (a % 2 ^ 64) + b) % 2 ^ 64 = (2 * a + b) % 2 ^ 64 := by omega
    rw [hm]

/-- The two 32-bit halves shift as one 64-bit register. -/
theorem window_shift (s : cirfsk) (bit : Nat) (h0 : s.sync_buffer0 < 2 ^ 32)
    (h1 : s.sync_buffer1 < 2 ^ 32) (hbit : bit < 2) :
    shifted_sync1 s * 2 ^ 32 + shifted_sync0 s bit = (2 * window s + bit) % 2 ^ 64 ∧
    shifted_sync0 s bit < 2 ^ 32 ∧ shifted_sync1 s < 2 ^ 32 := by
  have hs : s.sync_buffer0 >>> 31 = s.sync_buffer0 / 2 ^ 31 := Nat.shiftRight_eq_div_pow _ _
  have hlt : s.sync_buffer0 / 2 ^ 31 < 2 ^ 1 := by omega
  have e1 : s.sync_buffer1 <<< 1 ||| s.sync_buffer0 >>> 31
      = 2 * s.sync_buffer1 + s.sync_buffer0 / 2 ^ 31 := by
    rw [hs, Nat.shiftLeft_eq, Nat.mul_comm, ← Nat.mul_add_lt_is_or hlt]
  have e0 : s.sync_buffer0 <<< 1 ||| bit = 2 * s.sync_buffer0 + bit := by
    rw [Nat.shiftLeft_eq, Nat.mul_comm, ← Nat.mul_add_lt_is_or (by omega : bit < 2 ^ 1)]
  unfold shifted_sync1 shifted_sync0 window
  rw [e1, e0]
  refine ⟨?_, Nat.mod_lt _ (Nat.two_pow_pos 32), Nat.mod_lt _ (Nat.two_pow_pos 32)⟩
  omega

/-- As long as no lock is declared, the window holds the received bits. -/
theorem cir_rxbits_window (bits : List Nat) : ∀ s : cirfsk,
    s.rxbitcount = 0 → s.sync_buffer0 < 2 ^ 32 → s.sync_buffer1 < 2 ^ 32 →
    (∀ b ∈ bits, b < 2) →
    (∀ pe fe, Event.sync_ok pe fe ∉ (cir_rxbits s bits).2) →
    window (cir_rxbits s bits).1 = shift_in (window s) bits % 2 ^ 64 := by
  induction bits with
  | nil =>
    intro s _ h0 h1 _ _
    show window s = window s % 2 ^ 64
    unfold window
    omega
  | cons b bs ih =>
    intro s hs h0 h1 hbits hno
    have hb : b < 2 := hbits b (List.mem_cons_self _ _)
    obtain ⟨hw, hl0, hl1⟩ := window_shift s b h0 h1 hb
    have hev : (cir_rxbits s (b :: bs)).2
        = (cir_rxbit s b).2 ++ (cir_rxbits (cir_rxbit s b).1 bs).2 := rfl
    have hst : (cir_rxbits s (b :: bs)).1 = (cir_rxbits (cir_rxbit s b).1 bs).1 := rfl
    have hstep : (cir_rxbit s b).1 = with_window s (shifted_sync0 s b) (shifted_sync1 s) := by
      have hno1 : ∀ pe fe, Event.sync_ok pe fe ∉ (cir_rxbit s b).2 := by
        intro pe fe hmem
        exact hno pe fe (by rw [hev]; exact List.mem_append_left _ hmem)
      rw [cir_rxbit_searching s b hs] at hno1 ⊢
      split_ifs at hno1 ⊢
      · exact absurd (List.mem_singleton.mpr rfl) (hno1 _ _)
      · rfl
      · rfl
    rw [hst]
    rw [hstep] at hev ⊢
    have hih := ih (with_window s (shifted_sync0 s b) (shifted_sync1 s)) hs hl0 hl1
      (fun x hx => hbits x (List.mem_cons_of_mem _ hx))
      (fun pe fe hmem => hno pe fe (by rw [hev]; exact List.mem_append_right _ hmem))
    rw [hih]
    have hwin : window (with_window s (shifted_sync0 s b) (shifted_sync1 s))
        = (2 * window s + b) % 2 ^ 64 := hw
    rw [hwin, shift_in_mod]
    rfl

theorem cir_rxbits_take_events (s : cirfsk) (bits : List Nat) (n : Nat) (e : Event)
    (h : e ∈ (cir_rxbits s (bits.take n)).2) : e ∈ (cir_rxbits s bits).2 := by
  have hsplit : cir_rxbits s bits = cir_rxbits s (bits.take n ++ bits.drop n) := by
    rw [List.take_append_drop]
  rw [hsplit, cir_rxbits_append]
  exact List.mem_append_left _ h

/-- C18 fails: after the 51 preamble bits and the 32 frame-sync bits, fed to a
zeroed decoder, the last 64 received bits are `0x555555550DD4259F`, but the
lock declared on the last bit has cleared the window to 0. -/
theorem C18_window_last_64_bits_counterexample :
    (∀ b ∈ preamble ++ frame_sync, b < 2) ∧
    shift_in 0 (preamble ++ frame_sync) % 2 ^ 64 = 0x555555550DD4259F ∧
    window (cir_rxbits zero_state (preamble ++ frame_sync)).1 = 0 := by
  decide!

/-! ### Leftovers of an earlier frame are never read -/

theorem buffer_bytes_congr (f g : Nat → Nat) (n : Nat) (h : ∀ k, k < n → f k = g k) :
    buffer_bytes f n = buffer_bytes g n := by
  unfold buffer_bytes
  exact List.map_congr_left (fun k hk => h k (List.mem_range.mp hk))

/-- The word-boundary call with its branch conditions in arithmetic form and
the two report functions unfolded. -/
theorem cir_rxbit_at_word_norm (s : cirfsk) (bit : Nat) (hs : s.rxbitcount ≠ 0)
    (hword : s.rxbitcount % 26 = 0) :
    cir_rxbit s bit =
      if s.rxbitcount = 26 then
        if rx_decoded s bit % 2 ^ 8 = 0 then
          ({ rx_stored s bit with rxlength := rx_decoded s bit % 2 ^ 8, rxbitcount := 0 },
            [rx_trace s bit, Event.zero_length])
        else
          ({ rx_stored s bit with
              rxlength := rx_decoded s bit % 2 ^ 8, rxbitcount := s.rxbitcount + 1 },
            [rx_trace s bit, Event.length (rx_decoded s bit % 2 ^ 8)])
      else if s.rx_buf_pos + 2 = actual_rx_length s.rxlength then
        if crc16 (buffer_bytes (rx_stored s bit).rxbuf s.rxlength) / 256
              = (rx_stored s bit).rxbuf s.rxlength
            ∧ crc16 (buffer_bytes (rx_stored s bit).rxbuf s.rxlength) % 256
              = (rx_stored s bit).rxbuf (s.rxlength + 1) then
          ({ rx_stored s bit with rxbitcount := 0 },
            [rx_trace s bit, Event.crc_ok,
              Event.package (buffer_bytes (rx_stored s bit).rxbuf ((s.rxlength + 2) % 2 ^ 16))])
        else
          ({ rx_stored s bit with rxbitcount := 0 },
            [rx_trace s bit, Event.bad_crc,
              Event.package_bad_crc
                (buffer_bytes (rx_stored s bit).rxbuf (actual_rx_length s.rxlength % 2 ^ 16))
                (buffer_bytes (rx_stored s bit).rx_err
                  (actual_rx_length s.rxlength % 2 ^ 16 / 2))])
      else
        ({ rx_stored s bit with rxbitcount := s.rxbitcount + 1 }, [rx_trace s bit]) := by
  rw [cir_rxbit_at_word s bit hs hword]
  simp only [high_byte_eq _ (crc16_lt _), low_byte_eq]
  rfl

/-- States that agree from the lock on store the same word the same way. -/
theorem rx_stored_agree (s t : cirfsk) (bit : Nat) (h : same_from_lock s t)
    (hs : s.rxbitcount ≠ 0) :
    rx_decoded t bit = rx_decoded s bit ∧ rx_trace t bit = rx_trace s bit ∧
    t.rx_buf_pos = s.rx_buf_pos ∧
    (∀ k, k < s.rx_buf_pos + 2 → (rx_stored t bit).rxbuf k = (rx_stored s bit).rxbuf k) ∧
    (∀ k, k < (s.rx_buf_pos + 2) / 2 → (rx_stored t bit).rx_err k = (rx_stored s bit).rx_err k) ∧
    same_from_lock { rx_stored s bit with rxbitcount := 0 }
      { rx_stored t bit with rxbitcount := 0 } := by
  obtain ⟨hc, h0, h1, hrest⟩ := h
  obtain ⟨hacc, hpos, hbuf, herr, _⟩ := hrest hs
  have hw : rx_word t bit = rx_word s bit := by
    unfold rx_word
    rw [hacc]
  have he : rx_errors t bit = rx_errors s bit := by
    unfold rx_errors
    rw [hw]
  have hd : rx_decoded t bit = rx_decoded s bit := by
    unfold rx_decoded
    rw [he, hw]
  refine ⟨hd, ?_, hpos.symm, ?_, ?_, ⟨rfl, h0, h1, fun hne => absurd rfl hne⟩⟩
  · unfold rx_trace
    rw [he, hw, hpos]
  · intro k hk
    show store_u16 t.rxbuf t.rx_buf_pos (bswap_16 (rx_decoded t bit)) k
      = store_u16 s.rxbuf s.rx_buf_pos (bswap_16 (rx_decoded s bit)) k
    rw [hd, ← hpos]
    unfold store_u16
    by_cases hk1 : k = s.rx_buf_pos
    · rw [if_pos hk1, if_pos hk1]
    · rw [if_neg hk1, if_neg hk1]
      by_cases hk2 : k = s.rx_buf_pos + 1
      · rw [if_pos hk2, if_pos hk2]
      · rw [if_neg hk2, if_neg hk2]
        exact (hbuf k (by omega)).symm
  · intro k hk
    show store_u8 t.rx_err (t.rx_buf_pos / 2) (rx_errors t bit) k
      = store_u8 s.rx_err (s.rx_buf_pos / 2) (rx_errors s bit) k
    rw [he, ← hpos]
    unfold store_u8
    by_cases hk1 : k = s.rx_buf_pos / 2
    · rw [if_pos hk1, if_pos hk1]
    · rw [if_neg hk1, if_neg hk1]
      exact (herr k (by omega)).symm

theorem same_from_lock_stored (s t : cirfsk) (bit c n m : Nat) (h : same_from_lock s t)
    (hs : s.rxbitcount ≠ 0) (hnm : n = m) (hn : n < 256) :
    same_from_lock { rx_stored s bit with rxlength := n, rxbitcount := c }
      { rx_stored t bit with rxlength := m, rxbitcount := c } := by
  obtain ⟨_, _, hpos, hbuf, herr, _⟩ := rx_stored_agree s t bit h hs
  obtain ⟨_, h0, h1, _⟩ := h
  refine ⟨rfl, h0, h1, fun _ => ⟨rfl, ?_, ?_, ?_, fun _ => ⟨hnm, hn⟩⟩⟩
  · show s.rx_buf_pos + 2 = t.rx_buf_pos + 2
    rw [hpos]
  · intro k hk
    exact (hbuf k hk).symm
  · intro k hk
    exact (herr k hk).symm

/-- One call cannot tell apart two states that agree from the lock on. -/
theorem cir_rxbit_same (s t : cirfsk) (bit : Nat) (h : same_from_lock s t) :
    (cir_rxbit t bit).2 = (cir_rxbit s bit).2 ∧
    same_from_lock (cir_rxbit s bit).1 (cir_rxbit t bit).1 := by
  have hc : t.rxbitcount = s.rxbitcount := h.1.symm
  have h0 : t.sync_buffer0 = s.sync_buffer0 := h.2.1.symm
  have h1 : t.sync_buffer1 = s.sync_buffer1 := h.2.2.1.symm
  by_cases hs : s.rxbitcount = 0
  · have ht : t.rxbitcount = 0 := by rw [hc, hs]
    have e1 : shifted_sync1 t = shifted_sync1 s := by
      unfold shifted_sync1
      rw [h0, h1]
    have e0 : shifted_sync0 t bit = shifted_sync0 s bit := by
      unfold shifted_sync0
      rw [h0]
    have ep : preamble_err t = preamble_err s := by
      unfold preamble_err
      rw [e1]
    have ef : frame_err t bit = frame_err s bit := by
      unfold frame_err
      rw [e0]
    rw [cir_rxbit_searching s bit hs, cir_rxbit_searching t bit ht, ep, ef, e1, e0]
    split_ifs
    · refine ⟨rfl, rfl, rfl, rfl, fun _ => ⟨rfl, rfl, ?_, ?_, ?_⟩⟩
      · intro k hk
        exact absurd hk (Nat.not_lt_zero k)
      · intro k hk
        have hk0 : k < 0 / 2 := hk
        omega
      · intro h26
        have h261 : 26 < 1 := h26
        omega
    · exact ⟨rfl, hc.symm, rfl, rfl, fun hne => absurd hs hne⟩
    · exact ⟨rfl, hc.symm, rfl, rfl, fun hne => absurd hs hne⟩
  · have ht : t.rxbitcount ≠ 0 := by rw [hc]; exact hs
    obtain ⟨hacc, hpos, hbuf, herr, hlen⟩ := h.2.2.2 hs
    by_cases hword : s.rxbitcount % 26 = 0
    · have htword : t.rxbitcount % 26 = 0 := by rw [hc]; exact hword
      obtain ⟨hd, htr, hp, hbuf2, herr2, hdone⟩ := rx_stored_agree s t bit h hs
      have hd256 : rx_decoded s bit % 2 ^ 8 < 256 := Nat.mod_lt _ (by decide)
      rw [cir_rxbit_at_word_norm s bit hs hword, cir_rxbit_at_word_norm t bit ht htword,
        hc, hd, htr, hp]
      by_cases h26 : s.rxbitcount = 26
      · rw [if_pos h26, if_pos h26]
        by_cases hz : rx_decoded s bit % 2 ^ 8 = 0
        · rw [if_pos hz, if_pos hz]
          exact ⟨rfl, same_from_lock_stored s t bit 0 _ _ h hs rfl hd256⟩
        · rw [if_neg hz, if_neg hz]
          exact ⟨rfl, same_from_lock_stored s t bit _ _ _ h hs rfl hd256⟩
      · rw [if_neg h26, if_neg h26]
        obtain ⟨hl, hl256⟩ := hlen (by omega)
        have harl := actual_rx_length_eq s.rxlength hl256
        rw [← hl]
        by_cases hfull : s.rx_buf_pos + 2 = actual_rx_length s.rxlength
        · rw [if_pos hfull, if_pos hfull]
          have hb1 : buffer_bytes (rx_stored t bit).rxbuf s.rxlength
              = buffer_bytes (rx_stored s bit).rxbuf s.rxlength :=
            buffer_bytes_congr _ _ _ (fun k hk => hbuf2 k (by omega))
          have hb2 : (rx_stored t bit).rxbuf s.rxlength = (rx_stored s bit).rxbuf s.rxlength :=
            hbuf2 _ (by omega)
          have hb3 : (rx_stored t bit).rxbuf (s.rxlength + 1)
              = (rx_stored s bit).rxbuf (s.rxlength + 1) := hbuf2 _ (by omega)
          have hb4 : buffer_bytes (rx_stored t bit).rxbuf ((s.rxlength + 2) % 2 ^ 16)
              = buffer_bytes (rx_stored s bit).rxbuf ((s.rxlength + 2) % 2 ^ 16) :=
            buffer_bytes_congr _ _ _ (fun k hk => hbuf2 k (by omega))
          have hb5 : buffer_bytes (rx_stored t bit).rxbuf (actual_rx_length s.rxlength % 2 ^ 16)
              = buffer_bytes (rx_stored s bit).rxbuf (actual_rx_length s.rxlength % 2 ^ 16) :=
            buffer_bytes_congr _ _ _ (fun k hk => hbuf2 k (by omega))
          have hb6 : buffer_bytes (rx_stored t bit).rx_err
                (actual_rx_length s.rxlength % 2 ^ 16 / 2)
              = buffer_bytes (rx_stored s bit).rx_err
                (actual_rx_length s.rxlength % 2 ^ 16 / 2) :=
            buffer_bytes_congr _ _ _ (fun k hk => herr2 k (by omega))
          rw [hb1, hb2, hb3, hb4, hb5, hb6]
          split_ifs
          · exact ⟨rfl, hdone⟩
          · exact ⟨rfl, hdone⟩
        · rw [if_neg hfull, if_neg hfull]
          exact ⟨rfl, same_from_lock_stored s t bit _ s.rxlength t.rxlength h hs hl hl256⟩
    · have htword : t.rxbitcount % 26 ≠ 0 := by rw [hc]; exact hword
      have hw : rx_word t bit = rx_word s bit := by
        unfold rx_word
        rw [hacc]
      rw [cir_rxbit_in_word s bit hword, cir_rxbit_in_word t bit htword, hw, hc]
      exact ⟨rfl, rfl, h0.symm, h1.symm, fun _ => ⟨rfl, hpos, hbuf, herr,
        fun h26 => hlen (by show 26 < s.rxbitcount; have : 26 < s.rxbitcount + 1 := h26; omega)⟩⟩

theorem cir_rxbits_same (bits : List Nat) : ∀ s t : cirfsk, same_from_lock s t →
    (cir_rxbits t bits).2 = (cir_rxbits s bits).2 := by
  induction bits with
  | nil => intro s t _; rfl
  | cons b bs ih =>
    intro s t h
    obtain ⟨hev, hst⟩ := cir_rxbit_same s t b h
    simp only [cir_rxbits]
    rw [hev, ih _ _ hst]

/-- C17: resynchronisation leaves no leftover state: for any two decoder states
that are both searching (`rxbitcount = 0`) and have equal sync windows, and for
every subsequent bit sequence, `cir_rxbit` prints and reports the same, in
particular the same sequence of frame events (kind, reported bytes, error
tallies), whatever the values of `rxbuf`, `rx_err`, `rx_buf_pos`, `rxlength`,
`rxbitstream` and `fec_errors` left by the prior frame. -/
theorem C17_no_leftover_state (s t : cirfsk) (bits : List Nat) (hs : s.rxbitcount = 0)
    (ht : t.rxbitcount = 0) (h0 : s.sync_buffer0 = t.sync_buffer0)
    (h1 : s.sync_buffer1 = t.sync_buffer1) :
    (cir_rxbits s bits).2 = (cir_rxbits t bits).2 ∧
    good_frames (cir_rxbits s bits).2 = good_frames (cir_rxbits t bits).2 ∧
    bad_frames (cir_rxbits s bits).2 = bad_frames (cir_rxbits t bits).2 := by
  have h : same_from_lock s t := ⟨by rw [hs, ht], h0, h1, fun hne => absurd hs hne⟩
  have hev := cir_rxbits_same bits s t h
  rw [hev]
  exact ⟨rfl, rfl, rfl⟩

/-- C17 at a zeroed decoder and `leftover_state`, on the bits of a whole good
frame: both report the frame `01 04 12 34 b9 b2`. -/
theorem C17_no_leftover_state_witness :
    zero_state.rxbitcount = 0 ∧ leftover_state.rxbitcount = 0 ∧
    zero_state.sync_buffer0 = leftover_state.sync_buffer0 ∧
    zero_state.sync_buffer1 = leftover_state.sync_buffer1 ∧
    leftover_state.rx_buf_pos ≠ zero_state.rx_buf_pos ∧
    good_frames (cir_rxbits zero_state (preamble ++ frame_sync
      ++ bits_msb 26 (bch_encode 0x0104) ++ bits_msb 26 (bch_encode 0x1234)
      ++ bits_msb 26 (bch_encode 0xb9b2))).2 = [[0x01, 0x04, 0x12, 0x34, 0xb9, 0xb2]] ∧
    good_frames (cir_rxbits zero_state (preamble ++ frame_sync
      ++ bits_msb 26 (bch_encode 0x0104) ++ bits_msb 26 (bch_encode 0x1234)
      ++ bits_msb 26 (bch_encode 0xb9b2))).2
      = good_frames (cir_rxbits leftover_state (preamble ++ frame_sync
      ++ bits_msb 26 (bch_encode 0x0104) ++ bits_msb 26 (bch_encode 0x1234)
      ++ bits_msb 26 (bch_encode 0xb9b2))).2 :=
  ⟨rfl, rfl, rfl, rfl, by decide, by decide!,
    (C17_no_leftover_state zero_state leftover_state _ rfl rfl rfl rfl).2.1⟩

/-! ### A frame of any length, word by word -/

theorem word_bits_append (as bs : List Nat) :
    word_bits (as ++ bs) = word_bits as ++ word_bits bs := by
  induction as with
  | nil => rfl
  | cons a as ih =>
    show bits_msb 26 a ++ word_bits (as ++ bs) = bits_msb 26 a ++ word_bits as ++ word_bits bs
    rw [ih, List.append_assoc]

theorem word_bits_singleton (w : Nat) : word_bits [w] = bits_msb 26 w :=
  List.append_nil _

theorem frame_bytes_append (as : List Nat) (w : Nat) :
    frame_bytes (as ++ [w]) = frame_bytes as ++ [word_decoded w / 256, word_decoded w % 256] := by
  induction as with
  | nil => rfl
  | cons a as ih =>
    show word_decoded a / 256 :: word_decoded a % 256 :: frame_bytes (as ++ [w]) = _
    rw [ih]
    rfl

theorem frame_bytes_length (ws : List Nat) : (frame_bytes ws).length = 2 * ws.length := by
  induction ws with
  | nil => rfl
  | cons a as ih =>
    show (frame_bytes as).length + 1 + 1 = 2 * (as.length + 1)
    omega

theorem word_decoded_lt (w : Nat) : word_decoded w < 2 ^ 16 := by
  unfold word_decoded
  split_ifs with h3
  · exact Nat.mod_lt _ (Nat.two_pow_pos 16)
  · unfold word_errors at h3
    rw [decode_eq_correction] at h3 ⊢
    have hne : (bch_correction (bch_syndrome w)).1 ≠ 3 := by
      intro hc
      exact h3 (by rw [hc])
    show (if (bch_correction (bch_syndrome w)).1 = 3 then 0
      else ((w ^^^ (bch_correction (bch_syndrome w)).2) >>> 10) % 2 ^ 16) < 2 ^ 16
    rw [if_neg hne]
    exact Nat.mod_lt _ (Nat.two_pow_pos 16)

theorem word_errors_le (w : Nat) : word_errors w ≤ 3 := by
  unfold word_errors
  rw [decode_eq_correction]
  exact bch_correction_fst_le _

/-- The 26 bits of a received word `w`, fed from a codeword boundary, end in
one word-boundary call whose decoder input is `w`. -/
theorem cir_rxbits_received_word (s : cirfsk) (w : Nat) (hc : s.rxbitcount % 26 = 1)
    (hz : s.rxbitstream = 0) (hw : w < 2 ^ 26) :
    cir_rxbits s (bits_msb 26 w)
      = cir_rxbit (with_accumulator s (w / 2) (s.rxbitcount + 25)) (w % 2) ∧
    rx_decoded (with_accumulator s (w / 2) (s.rxbitcount + 25)) (w % 2) = word_decoded w ∧
    rx_errors (with_accumulator s (w / 2) (s.rxbitcount + 25)) (w % 2) = word_errors w ∧
    (rx_stored (with_accumulator s (w / 2) (s.rxbitcount + 25)) (w % 2)).rxbuf
      = store_u16 s.rxbuf s.rx_buf_pos (bswap_16 (word_decoded w)) ∧
    (rx_stored (with_accumulator s (w / 2) (s.rxbitcount + 25)) (w % 2)).rx_err
      = store_u8 s.rx_err (s.rx_buf_pos / 2) (word_errors w) := by
  obtain ⟨hfeed, hword⟩ := cir_rxbits_word s w hc hz hw
  have he : rx_errors (with_accumulator s (w / 2) (s.rxbitcount + 25)) (w % 2)
      = word_errors w := by
    unfold rx_errors word_errors
    rw [hword]
  have hd : rx_decoded (with_accumulator s (w / 2) (s.rxbitcount + 25)) (w % 2)
      = word_decoded w := by
    unfold rx_decoded word_decoded
    rw [he, hword]
  refine ⟨hfeed, hd, he, ?_, ?_⟩
  · show store_u16 s.rxbuf s.rx_buf_pos (bswap_16 (rx_decoded _ _)) = _
    rw [hd]
  · show store_u8 s.rx_err (s.rx_buf_pos / 2) (rx_errors _ _) = _
    rw [he]

/-- Storing one more word extends the stored bytes and severities by that
word's. -/
theorem collected_store (s : cirfsk) (ws : List Nat) (w : Nat) (h : collected s ws) :
    buffer_bytes (store_u16 s.rxbuf s.rx_buf_pos (bswap_16 (word_decoded w)))
        (2 * (ws ++ [w]).length) = frame_bytes (ws ++ [w]) ∧
    buffer_bytes (store_u8 s.rx_err (s.rx_buf_pos / 2) (word_errors w)) (ws ++ [w]).length
      = (ws ++ [w]).map word_errors := by
  obtain ⟨_, _, hpos, hbuf, herr, _⟩ := h
  have hd := word_decoded_lt w
  have he := word_errors_le w
  have hlen : (ws ++ [w]).length = ws.length + 1 := by simp
  constructor
  · have h2 : 2 * (ws ++ [w]).length = 2 * ws.length + 1 + 1 := by omega
    rw [h2, buffer_bytes_succ, buffer_bytes_succ, frame_bytes_append, ← hbuf, hpos,
      store_u16_bswap_apply, store_u16_bswap_apply, if_pos rfl, if_neg (by omega), if_pos rfl,
      List.append_assoc]
    have hc : buffer_bytes (store_u16 s.rxbuf (2 * ws.length) (bswap_16 (word_decoded w)))
        (2 * ws.length) = buffer_bytes s.rxbuf (2 * ws.length) := by
      apply buffer_bytes_congr
      intro k hk
      rw [store_u16_bswap_apply, if_neg (by omega), if_neg (by omega)]
    have hb : word_decoded w / 256 % 256 = word_decoded w / 256 := by omega
    rw [hc, hb]
    rfl
  · rw [hlen, buffer_bytes_succ, List.map_append, ← herr, hpos]
    have hidx : 2 * ws.length / 2 = ws.length := by omega
    rw [hidx]
    have hc : buffer_bytes (store_u8 s.rx_err ws.length (word_errors w)) ws.length
        = buffer_bytes s.rx_err ws.length := by
      apply buffer_bytes_congr
      intro k hk
      unfold store_u8
      rw [if_neg (by omega)]
    rw [hc]
    unfold store_u8
    rw [if_pos rfl]
    have hm : word_errors w % 2 ^ 8 = word_errors w := by omega
    rw [hm]
    rfl

theorem collected_locked (s : cirfsk) (hc : s.rxbitcount = 1) (hz : s.rxbitstream = 0)
    (hp : s.rx_buf_pos = 0) : collected s [] :=
  ⟨hc, hz, hp, rfl, rfl, fun _ _ h => List.noConfusion h⟩

/-- The header word of a frame, of non-zero length, is stored and collection
goes on. -/
theorem collected_header (s : cirfsk) (w : Nat) (h : collected s []) (hw : w < 2 ^ 26)
    (hn : word_decoded w % 256 ≠ 0) :
    collected (cir_rxbits s (bits_msb 26 w)).1 [w] ∧
    good_frames (cir_rxbits s (bits_msb 26 w)).2 = [] ∧
    bad_frames (cir_rxbits s (bits_msb 26 w)).2 = [] := by
  obtain ⟨hst, _⟩ := collected_store s [] w h
  obtain ⟨hc, hz, hp, _⟩ := h
  have hc1 : s.rxbitcount = 1 := hc
  obtain ⟨hfeed, hd, he, hbuf, herr⟩ := cir_rxbits_received_word s w (by rw [hc1]) hz hw
  have hcnt : (with_accumulator s (w / 2) (s.rxbitcount + 25)).rxbitcount = 26 := by
    show s.rxbitcount + 25 = 26
    omega
  have hn8 : ¬ word_decoded w % 2 ^ 8 = 0 := hn
  rw [hfeed, cir_rxbit_at_word_norm _ _ (by rw [hcnt]; decide) (by rw [hcnt]), if_pos hcnt,
    hd, if_neg hn8]
  refine ⟨⟨?_, rfl, ?_, ?_, ?_, ?_⟩, rfl, rfl⟩
  · show s.rxbitcount + 25 + 1 = 26 * 1 + 1
    omega
  · show s.rx_buf_pos + 2 = 2 * 1
    omega
  · show buffer_bytes (rx_stored _ _).rxbuf (2 * 1) = frame_bytes [w]
    rw [hbuf]
    exact hst
  · show buffer_bytes (rx_stored _ _).rx_err 1 = [w].map word_errors
    rw [herr]
    exact (collected_store s [] w ⟨hc, hz, hp, rfl, rfl, fun _ _ h => List.noConfusion h⟩).2
  · intro w' rest heq
    have hw' : w = w' := List.head_eq_of_cons_eq heq
    rw [← hw']
    rfl

/-- A later word that does not fill the buffer is stored and collection goes
on. -/
theorem collected_middle (s : cirfsk) (w0 w : Nat) (ws : List Nat) (h : collected s (w0 :: ws))
    (hw : w < 2 ^ 26)
    (hpos : 2 * (ws.length + 2) ≠ actual_rx_length (word_decoded w0 % 256)) :
    collected (cir_rxbits s (bits_msb 26 w)).1 (w0 :: ws ++ [w]) ∧
    good_frames (cir_rxbits s (bits_msb 26 w)).2 = [] ∧
    bad_frames (cir_rxbits s (bits_msb 26 w)).2 = [] := by
  obtain ⟨hsb, hse⟩ := collected_store s (w0 :: ws) w h
  obtain ⟨hc, hz, hp, _, _, hl⟩ := h
  have hlen : s.rxlength = word_decoded w0 % 256 := hl w0 ws rfl
  have hc1 : s.rxbitcount = 26 * (ws.length + 1) + 1 := hc
  have hp1 : s.rx_buf_pos = 2 * (ws.length + 1) := hp
  obtain ⟨hfeed, hd, he, hbuf, herr⟩ := cir_rxbits_received_word s w (by omega) hz hw
  have hcnt : (with_accumulator s (w / 2) (s.rxbitcount + 25)).rxbitcount
      = s.rxbitcount + 25 := rfl
  have hfull : ¬ ((with_accumulator s (w / 2) (s.rxbitcount + 25)).rx_buf_pos + 2
      = actual_rx_length (with_accumulator s (w / 2) (s.rxbitcount + 25)).rxlength) := by
    show ¬ (s.rx_buf_pos + 2 = actual_rx_length s.rxlength)
    rw [hlen, hp1]
    omega
  have hlen2 : (w0 :: ws ++ [w]).length = ws.length + 2 := by simp
  rw [hfeed, cir_rxbit_at_word_norm _ _ (by rw [hcnt]; omega) (by rw [hcnt]; omega),
    if_neg (by rw [hcnt]; omega), if_neg hfull]
  refine ⟨⟨?_, rfl, ?_, ?_, ?_, ?_⟩, rfl, rfl⟩
  · show s.rxbitcount + 25 + 1 = 26 * (w0 :: ws ++ [w]).length + 1
    rw [hlen2]
    omega
  · show s.rx_buf_pos + 2 = 2 * (w0 :: ws ++ [w]).length
    rw [hlen2]
    omega
  · show buffer_bytes (rx_stored _ _).rxbuf (2 * (w0 :: ws ++ [w]).length) = _
    rw [hbuf]
    exact hsb
  · show buffer_bytes (rx_stored _ _).rx_err (w0 :: ws ++ [w]).length = _
    rw [herr]
    exact hse
  · intro w' rest heq
    have hw' : w0 = w' := List.head_eq_of_cons_eq heq
    rw [← hw']
    exact hlen

/-- The word that fills the buffer is stored, the frame is reported good or
bad, and the decoder returns to searching. -/
theorem collected_last (s : cirfsk) (w0 w : Nat) (ws : List Nat) (h : collected s (w0 :: ws))
    (hw : w < 2 ^ 26)
    (hpos : 2 * (ws.length + 2) = actual_rx_length (word_decoded w0 % 256)) :
    (cir_rxbits s (bits_msb 26 w)).1.rxbitcount = 0 ∧
    (cir_rxbits s (bits_msb 26 w)).1.rx_buf_pos = actual_rx_length (word_decoded w0 % 256) ∧
    (cir_rxbits s (bits_msb 26 w)).1.rxlength = word_decoded w0 % 256 ∧
    buffer_bytes (cir_rxbits s (bits_msb 26 w)).1.rxbuf
      (actual_rx_length (word_decoded w0 % 256)) = frame_bytes (w0 :: ws ++ [w]) ∧
    ((good_frames (cir_rxbits s (bits_msb 26 w)).2
        = [buffer_bytes (cir_rxbits s (bits_msb 26 w)).1.rxbuf (word_decoded w0 % 256 + 2)] ∧
      bad_frames (cir_rxbits s (bits_msb 26 w)).2 = []) ∨
     (good_frames (cir_rxbits s (bits_msb 26 w)).2 = [] ∧
      bad_frames (cir_rxbits s (bits_msb 26 w)).2
        = [(frame_bytes (w0 :: ws ++ [w]), (w0 :: ws ++ [w]).map word_errors)])) := by
  obtain ⟨hsb, hse⟩ := collected_store s (w0 :: ws) w h
  obtain ⟨hc, hz, hp, _, _, hl⟩ := h
  have hlen : s.rxlength = word_decoded w0 % 256 := hl w0 ws rfl
  have hn256 : word_decoded w0 % 256 < 256 := Nat.mod_lt _ (by decide)
  have harl := actual_rx_length_eq _ hn256
  have hc1 : s.rxbitcount = 26 * (ws.length + 1) + 1 := hc
  have hp1 : s.rx_buf_pos = 2 * (ws.length + 1) := hp
  obtain ⟨hfeed, hd, he, hbuf, herr⟩ := cir_rxbits_received_word s w (by omega) hz hw
  have hcnt : (with_accumulator s (w / 2) (s.rxbitcount + 25)).rxbitcount
      = s.rxbitcount + 25 := rfl
  have hfull : (with_accumulator s (w / 2) (s.rxbitcount + 25)).rx_buf_pos + 2
      = actual_rx_length (with_accumulator s (w / 2) (s.rxbitcount + 25)).rxlength := by
    show s.rx_buf_pos + 2 = actual_rx_length s.rxlength
    rw [hlen, hp1]
    omega
  have hrl : (with_accumulator s (w / 2) (s.rxbitcount + 25)).rxlength
      = word_decoded w0 % 256 := hlen
  have hlen2 : (w0 :: ws ++ [w]).length = ws.length + 2 := by simp
  have hm1 : (word_decoded w0 % 256 + 2) % 2 ^ 16 = word_decoded w0 % 256 + 2 :=
    Nat.mod_eq_of_lt (by omega)
  have hm2 : actual_rx_length (word_decoded w0 % 256) % 2 ^ 16
      = actual_rx_length (word_decoded w0 % 256) := Nat.mod_eq_of_lt (by omega)
  have hbytes : buffer_bytes
      (rx_stored (with_accumulator s (w / 2) (s.rxbitcount + 25)) (w % 2)).rxbuf
      (actual_rx_length (word_decoded w0 % 256)) = frame_bytes (w0 :: ws ++ [w]) := by
    rw [hbuf, ← hpos, ← hlen2]
    exact hsb
  have herrs : buffer_bytes
      (rx_stored (with_accumulator s (w / 2) (s.rxbitcount + 25)) (w % 2)).rx_err
      (actual_rx_length (word_decoded w0 % 256) / 2)
      = (w0 :: ws ++ [w]).map word_errors := by
    have hidx : actual_rx_length (word_decoded w0 % 256) / 2 = (w0 :: ws ++ [w]).length := by
      rw [hlen2]
      omega
    rw [herr, hidx]
    exact hse
  rw [hfeed, cir_rxbit_at_word_norm _ _ (by rw [hcnt]; omega) (by rw [hcnt]; omega),
    if_neg (by rw [hcnt]; omega), if_pos hfull, hrl, hm1, hm2, hbytes, herrs]
  split_ifs
  · exact ⟨rfl, by show s.rx_buf_pos + 2 = _; rw [hp1]; omega, hlen, hbytes, Or.inl ⟨rfl, rfl⟩⟩
  · exact ⟨rfl, by show s.rx_buf_pos + 2 = _; rw [hp1]; omega, hlen, hbytes, Or.inr ⟨rfl, rfl⟩⟩

theorem cir_rxbits_append_state (s : cirfsk) (as bs : List Nat) :
    (cir_rxbits s (as ++ bs)).1 = (cir_rxbits (cir_rxbits s as).1 bs).1 := by
  rw [cir_rxbits_append]

theorem cir_rxbits_append_events (s : cirfsk) (as bs : List Nat) :
    (cir_rxbits s (as ++ bs)).2 = (cir_rxbits s as).2 ++ (cir_rxbits (cir_rxbits s as).1 bs).2 := by
  rw [cir_rxbits_append]

/-- After a lock, as long as fewer words than the header asks for have
arrived, the decoder has stored them all and reported no frame. -/
theorem collected_words (w0 : Nat) (ws : List Nat) : ∀ s : cirfsk, collected s [] →
    (∀ w ∈ w0 :: ws, w < 2 ^ 26) → word_decoded w0 % 256 ≠ 0 →
    2 * (ws.length + 1) < actual_rx_length (word_decoded w0 % 256) →
    collected (cir_rxbits s (word_bits (w0 :: ws))).1 (w0 :: ws) ∧
    good_frames (cir_rxbits s (word_bits (w0 :: ws))).2 = [] ∧
    bad_frames (cir_rxbits s (word_bits (w0 :: ws))).2 = [] := by
  induction ws using List.reverseRecOn with
  | nil =>
    intro s hs hws hn _
    rw [word_bits_singleton]
    exact collected_header s w0 hs (hws w0 (List.mem_cons_self _ _)) hn
  | append_singleton init w ih =>
    intro s hs hws hn hlen
    have hl : (init ++ [w]).length = init.length + 1 := by simp
    rw [hl] at hlen
    obtain ⟨hcol, hg, hb⟩ := ih s hs
      (fun x hx => hws x (by
        rcases List.mem_cons.mp hx with h | h
        · rw [h]; exact List.mem_cons_self _ _
        · exact List.mem_cons_of_mem _ (List.mem_append_left _ h)))
      hn (by omega)
    have hw : w < 2 ^ 26 :=
      hws w (List.mem_cons_of_mem _ (List.mem_append_right _ (List.mem_singleton.mpr rfl)))
    obtain ⟨hcol2, hg2, hb2⟩ := collected_middle _ w0 w init hcol hw (by omega)
    have hbits : word_bits (w0 :: (init ++ [w])) = word_bits (w0 :: init) ++ bits_msb 26 w := by
      rw [← List.cons_append, word_bits_append, word_bits_singleton]
    rw [hbits, cir_rxbits_append_state, cir_rxbits_append_events]
    refine ⟨hcol2, ?_, ?_⟩
    · rw [good_frames_append, hg, hg2]
      rfl
    · rw [bad_frames_append, hb, hb2]
      rfl

/-- After a lock, the word that brings the buffer to `actual_rx_length` of the
header's length byte completes the frame. -/
theorem completed_words (w0 : Nat) (ws : List Nat) (s : cirfsk) (hs : collected s [])
    (hws : ∀ w ∈ w0 :: ws, w < 2 ^ 26) (hn : word_decoded w0 % 256 ≠ 0)
    (hfull : 2 * (ws.length + 1) = actual_rx_length (word_decoded w0 % 256)) :
    (cir_rxbits s (word_bits (w0 :: ws))).1.rxbitcount = 0 ∧
    (cir_rxbits s (word_bits (w0 :: ws))).1.rx_buf_pos
      = actual_rx_length (word_decoded w0 % 256) ∧
    (cir_rxbits s (word_bits (w0 :: ws))).1.rxlength = word_decoded w0 % 256 ∧
    buffer_bytes (cir_rxbits s (word_bits (w0 :: ws))).1.rxbuf
      (actual_rx_length (word_decoded w0 % 256)) = frame_bytes (w0 :: ws) ∧
    ((good_frames (cir_rxbits s (word_bits (w0 :: ws))).2
        = [buffer_bytes (cir_rxbits s (word_bits (w0 :: ws))).1.rxbuf
            (word_decoded w0 % 256 + 2)] ∧
      bad_frames (cir_rxbits s (word_bits (w0 :: ws))).2 = []) ∨
     (good_frames (cir_rxbits s (word_bits (w0 :: ws))).2 = [] ∧
      bad_frames (cir_rxbits s (word_bits (w0 :: ws))).2
        = [(frame_bytes (w0 :: ws), (w0 :: ws).map word_errors)])) := by
  have hn256 : word_decoded w0 % 256 < 256 := Nat.mod_lt _ (by decide)
  have harl := actual_rx_length_eq _ hn256
  rcases List.eq_nil_or_concat ws with hnil | ⟨init, w, hcat⟩
  · rw [hnil] at hfull
    have : 2 * (0 + 1) = actual_rx_length (word_decoded w0 % 256) := hfull
    omega
  · rw [List.concat_eq_append] at hcat
    subst hcat
    have hl : (init ++ [w]).length = init.length + 1 := by simp
    rw [hl] at hfull
    obtain ⟨hcol, hg, hb⟩ := collected_words w0 init s hs
      (fun x hx => hws x (by
        rcases List.mem_cons.mp hx with h | h
        · rw [h]; exact List.mem_cons_self _ _
        · exact List.mem_cons_of_mem _ (List.mem_append_left _ h)))
      hn (by omega)
    have hw : w < 2 ^ 26 :=
      hws w (List.mem_cons_of_mem _ (List.mem_append_right _ (List.mem_singleton.mpr rfl)))
    obtain ⟨h1, h2, h3, h4, h5⟩ := collected_last _ w0 w init hcol hw (by omega)
    have hbits : word_bits (w0 :: (init ++ [w])) = word_bits (w0 :: init) ++ bits_msb 26 w := by
      rw [← List.cons_append, word_bits_append, word_bits_singleton]
    rw [hbits, cir_rxbits_append_state, cir_rxbits_append_events]
    refine ⟨h1, h2, h3, h4, ?_⟩
    rw [good_frames_append, bad_frames_append, hg, hb]
    exact h5

theorem bits_msb_length (n w : Nat) : (bits_msb n w).length = n := by
  induction n with
  | zero => rfl
  | succ n ih => simp [bits_msb, ih]

theorem bits_msb_take (n : Nat) : ∀ (r w : Nat), r ≤ n →
    (bits_msb n w).take r = bits_msb r (w >>> (n - r)) := by
  induction n with
  | zero =>
    intro r w hr
    have h0 : r = 0 := by omega
    subst h0
    rfl
  | succ n ih =>
    intro r w hr
    by_cases h : r ≤ n
    · rw [bits_msb_succ, List.take_append_of_le_length (by rw [bits_msb_length]; exact h),
        ih r _ h, ← Nat.shiftRight_add]
      have he : 1 + (n - r) = n + 1 - r := by omega
      rw [he]
    · have he : r = n + 1 := by omega
      subst he
      rw [List.take_of_length_le (by rw [bits_msb_length]), Nat.sub_self, Nat.shiftRight_zero]

theorem word_bits_take (ws : List Nat) : ∀ (q r : Nat), q < ws.length → r < 26 →
    (word_bits ws).take (26 * q + r)
      = word_bits (ws.take q) ++ bits_msb r (ws.getD q 0 >>> (26 - r)) := by
  induction ws with
  | nil =>
    intro q r hq _
    simp at hq
  | cons w ws ih =>
    intro q r hq hr
    cases q with
    | zero =>
      show (bits_msb 26 w ++ word_bits ws).take (26 * 0 + r)
        = [] ++ bits_msb r (w >>> (26 - r))
      rw [Nat.mul_zero, Nat.zero_add,
        List.take_append_of_le_length (by rw [bits_msb_length]; omega),
        bits_msb_take 26 r w (by omega)]
      rfl
    | succ q =>
      show (bits_msb 26 w ++ word_bits ws).take (26 * (q + 1) + r)
        = (bits_msb 26 w ++ word_bits (ws.take q)) ++ bits_msb r (ws.getD q 0 >>> (26 - r))
      have he : 26 * (q + 1) + r = (bits_msb 26 w).length + (26 * q + r) := by
        rw [bits_msb_length]
        omega
      rw [he, List.take_append, ih q r (by simpa using hq) hr, List.append_assoc]

/-- The call that declares lock leaves the decoder collecting with nothing
stored. -/
theorem collected_after_lock (s : cirfsk) (b : Nat) (hs : s.rxbitcount = 0)
    (hlock : (cir_rxbit s b).1.rxbitcount = 1) : collected (cir_rxbit s b).1 [] := by
  rw [cir_rxbit_searching s b hs] at hlock ⊢
  split_ifs at hlock ⊢
  · exact collected_locked _ rfl rfl rfl
  · simp [hs] at hlock
  · simp [hs] at hlock

/-- After `q` whole words and `r` further bits of a frame that is not yet
full, the decoder is still collecting and has reported no frame. -/
theorem collecting_partial (w0 : Nat) (ws : List Nat) (s : cirfsk) (hs : collected s [])
    (hws : ∀ w ∈ w0 :: ws, w < 2 ^ 26) (hn : word_decoded w0 % 256 ≠ 0)
    (hfull : 2 * (ws.length + 1) = actual_rx_length (word_decoded w0 % 256))
    (q r x : Nat) (hq : q < ws.length + 1) (hr : r < 26) :
    (cir_rxbits s (word_bits ((w0 :: ws).take q) ++ bits_msb r x)).1.rxbitcount
      = 26 * q + r + 1 ∧
    (cir_rxbits s (word_bits ((w0 :: ws).take q) ++ bits_msb r x)).1.rx_buf_pos = 2 * q ∧
    good_frames (cir_rxbits s (word_bits ((w0 :: ws).take q) ++ bits_msb r x)).2 = [] ∧
    bad_frames (cir_rxbits s (word_bits ((w0 :: ws).take q) ++ bits_msb r x)).2 = [] := by
  cases q with
  | zero =>
    obtain ⟨hc, hz, hp, _⟩ := hs
    have hc1 : s.rxbitcount = 1 := hc
    have hp0 : s.rx_buf_pos = 0 := hp
    show (cir_rxbits s ([] ++ bits_msb r x)).1.rxbitcount = 26 * 0 + r + 1 ∧
      (cir_rxbits s ([] ++ bits_msb r x)).1.rx_buf_pos = 2 * 0 ∧
      good_frames (cir_rxbits s ([] ++ bits_msb r x)).2 = [] ∧
      bad_frames (cir_rxbits s ([] ++ bits_msb r x)).2 = []
    rw [List.nil_append, cir_rxbits_in_word r s x 0 (Or.inr (by omega)) (by rw [hz]; decide)
      (by omega)]
    refine ⟨?_, ?_, rfl, rfl⟩
    · show s.rxbitcount + r = 26 * 0 + r + 1
      omega
    · show s.rx_buf_pos = 2 * 0
      omega
  | succ q =>
    have hlt : (ws.take q).length = q := by
      rw [List.length_take]
      omega
    obtain ⟨hcol, hg, hb⟩ := collected_words w0 (ws.take q) s hs
      (fun y hy => hws y (by
        rcases List.mem_cons.mp hy with h | h
        · rw [h]; exact List.mem_cons_self _ _
        · exact List.mem_cons_of_mem _ (List.mem_of_mem_take h)))
      hn (by rw [hlt]; omega)
    obtain ⟨hc, hz, hp, _⟩ := hcol
    have hc1 : (cir_rxbits s (word_bits (w0 :: ws.take q))).1.rxbitcount = 26 * (q + 1) + 1 := by
      rw [hc, List.length_cons, hlt]
    have hp1 : (cir_rxbits s (word_bits (w0 :: ws.take q))).1.rx_buf_pos = 2 * (q + 1) := by
      rw [hp, List.length_cons, hlt]
    show (cir_rxbits s (word_bits (w0 :: ws.take q) ++ bits_msb r x)).1.rxbitcount
        = 26 * (q + 1) + r + 1 ∧
      (cir_rxbits s (word_bits (w0 :: ws.take q) ++ bits_msb r x)).1.rx_buf_pos = 2 * (q + 1) ∧
      good_frames (cir_rxbits s (word_bits (w0 :: ws.take q) ++ bits_msb r x)).2 = [] ∧
      bad_frames (cir_rxbits s (word_bits (w0 :: ws.take q) ++ bits_msb r x)).2 = []
    rw [cir_rxbits_append_state, cir_rxbits_append_events, good_frames_append, bad_frames_append,
      hg, hb,
      cir_rxbits_in_word r _ x 0 (Or.inr (by omega)) (by rw [hz]; decide) (by omega)]
    refine ⟨?_, ?_, rfl, rfl⟩
    · show (cir_rxbits s (word_bits (w0 :: ws.take q))).1.rxbitcount + r = 26 * (q + 1) + r + 1
      omega
    · exact hp1

/-- Every proper prefix of the bits of a frame leaves the decoder collecting
with no frame reported. -/
theorem collecting_before_full (w0 : Nat) (ws : List Nat) (s : cirfsk) (hs : collected s [])
    (hws : ∀ w ∈ w0 :: ws, w < 2 ^ 26) (hn : word_decoded w0 % 256 ≠ 0)
    (hfull : 2 * (ws.length + 1) = actual_rx_length (word_decoded w0 % 256))
    (m : Nat) (hm : m < 26 * (ws.length + 1)) :
    (cir_rxbits s ((word_bits (w0 :: ws)).take m)).1.rxbitcount = m + 1 ∧
    (cir_rxbits s ((word_bits (w0 :: ws)).take m)).1.rx_buf_pos = 2 * (m / 26) ∧
    good_frames (cir_rxbits s ((word_bits (w0 :: ws)).take m)).2 = [] ∧
    bad_frames (cir_rxbits s ((word_bits (w0 :: ws)).take m)).2 = [] := by
  have hsplit : 26 * (m / 26) + m % 26 = m := Nat.div_add_mod m 26
  have htake := word_bits_take (w0 :: ws) (m / 26) (m % 26)
    (by rw [List.length_cons]; omega) (Nat.mod_lt _ (by decide))
  rw [hsplit] at htake
  rw [htake]
  obtain ⟨h1, h2, h3, h4⟩ := collecting_partial w0 ws s hs hws hn hfull (m / 26) (m % 26)
    ((w0 :: ws).getD (m / 26) 0 >>> (26 - m % 26)) (by omega) (Nat.mod_lt _ (by decide))
  exact ⟨by rw [h1]; omega, h2, h3, h4⟩

/-- C12: whenever a call of `cir_rxbit` reports a bad frame, with `n` the
expected length `rxlength`, it reports exactly one and no good frame; the
reported bytes are `rxbuf[0..actual_rx_length n)`, header and CRC trailer
included, and the error tally is `rx_err[0..actual_rx_length n / 2)`, of
exactly `actual_rx_length n / 2` entries, which is 3 for `n = 4`. For the words
`w0 :: ws` received since the lock, the reported bytes are the two stored
bytes of each word in order and entry `k` of the tally is the severity of the
`k`-th word, the header word being entry 0. -/
theorem C12_bad_frame_report (s : cirfsk) (bit : Nat) (bytes errs : List Nat)
    (hlen : s.rxlength < 256) (hbad : (bytes, errs) ∈ bad_frames (cir_rxbit s bit).2) :
    bad_frames (cir_rxbit s bit).2 = [(bytes, errs)] ∧
    good_frames (cir_rxbit s bit).2 = [] ∧
    (cir_rxbit s bit).1.rxlength = s.rxlength ∧
    bytes = buffer_bytes (cir_rxbit s bit).1.rxbuf (actual_rx_length s.rxlength) ∧
    bytes.length = actual_rx_length s.rxlength ∧
    errs = buffer_bytes (cir_rxbit s bit).1.rx_err (actual_rx_length s.rxlength / 2) ∧
    errs.length = actual_rx_length s.rxlength / 2 ∧
    (s.rxlength = 4 → errs.length = 3) ∧
    (∀ (s0 : cirfsk) (b w0 : Nat) (ws : List Nat), s0.rxbitcount = 0 →
      (cir_rxbit s0 b).1.rxbitcount = 1 → (∀ w ∈ w0 :: ws, w < 2 ^ 26) →
      word_decoded w0 % 256 ≠ 0 →
      ws.length + 1 = actual_rx_length (word_decoded w0 % 256) / 2 →
      ∀ e ∈ bad_frames (cir_rxbits (cir_rxbit s0 b).1 (word_bits (w0 :: ws))).2,
        e = (frame_bytes (w0 :: ws), (w0 :: ws).map word_errors) ∧
        e.1 = buffer_bytes (cir_rxbits (cir_rxbit s0 b).1 (word_bits (w0 :: ws))).1.rxbuf
          (actual_rx_length (word_decoded w0 % 256)) ∧
        e.2.length = actual_rx_length (word_decoded w0 % 256) / 2 ∧
        ∀ k (hk : k < (w0 :: ws).length), e.2.getD k 0 = word_errors ((w0 :: ws).get ⟨k, hk⟩)) := by
  have harl := actual_rx_length_eq _ hlen
  have hmod : actual_rx_length s.rxlength % 2 ^ 16 = actual_rx_length s.rxlength :=
    Nat.mod_eq_of_lt (by omega)
  have hsingle : bad_frames (cir_rxbit s bit).2 = [(bytes, errs)] ∧
      good_frames (cir_rxbit s bit).2 = [] ∧
      (cir_rxbit s bit).1.rxlength = s.rxlength ∧
      bytes = buffer_bytes (cir_rxbit s bit).1.rxbuf (actual_rx_length s.rxlength) ∧
      errs = buffer_bytes (cir_rxbit s bit).1.rx_err (actual_rx_length s.rxlength / 2) := by
    by_cases hq : s.rxbitcount % 26 ≠ 0 ∨ s.rxbitcount = 0
    · rw [(cir_rxbit_quiet s bit hq).2.1] at hbad
      simp at hbad
    · have hs : s.rxbitcount ≠ 0 := fun h => hq (Or.inr h)
      have hword : s.rxbitcount % 26 = 0 := by
        by_contra h
        exact hq (Or.inl h)
      rcases cir_rxbit_at_word_cases s bit hs hword with
        ⟨_, _, h⟩ | ⟨_, _, h⟩ | ⟨_, _, _, h⟩ | ⟨_, _, _, h⟩ | ⟨_, _, h⟩
      · rw [h] at hbad
        simp [bad_frames] at hbad
      · rw [h] at hbad
        simp [bad_frames] at hbad
      · rw [h] at hbad
        simp [bad_frames] at hbad
      · rw [h, hmod] at hbad ⊢
        have hb : (bytes, errs)
            = (buffer_bytes (rx_stored s bit).rxbuf (actual_rx_length s.rxlength),
                buffer_bytes (rx_stored s bit).rx_err (actual_rx_length s.rxlength / 2)) := by
          simpa [bad_frames] using hbad
        have hb1 : bytes = buffer_bytes (rx_stored s bit).rxbuf (actual_rx_length s.rxlength) :=
          congrArg Prod.fst hb
        have hb2 : errs
            = buffer_bytes (rx_stored s bit).rx_err (actual_rx_length s.rxlength / 2) :=
          congrArg Prod.snd hb
        subst hb1
        subst hb2
        exact ⟨rfl, rfl, rfl, rfl, rfl⟩
      · rw [h] at hbad
        simp [bad_frames] at hbad
  obtain ⟨h1, h2, h3, h4, h5⟩ := hsingle
  have hl5 : errs.length = actual_rx_length s.rxlength / 2 := by
    rw [h5, buffer_bytes_length]
  refine ⟨h1, h2, h3, h4, by rw [h4, buffer_bytes_length], h5, hl5, ?_, ?_⟩
  · intro h4n
    rw [hl5, h4n]
    decide
  · intro s0 b w0 ws hs0 hlock hws hn hfull e he
    have hn256 : word_decoded w0 % 256 < 256 := Nat.mod_lt _ (by decide)
    have harl0 := actual_rx_length_eq _ hn256
    have hcol := collected_after_lock s0 b hs0 hlock
    obtain ⟨_, _, _, hbuf, hev⟩ := completed_words w0 ws _ hcol hws hn (by omega)
    have hee : e = (frame_bytes (w0 :: ws), (w0 :: ws).map word_errors) := by
      rcases hev with ⟨_, hb⟩ | ⟨_, hb⟩
      · rw [hb] at he
        simp at he
      · rw [hb] at he
        exact List.mem_singleton.mp he
    subst hee
    refine ⟨rfl, hbuf.symm, ?_, ?_⟩
    · show ((w0 :: ws).map word_errors).length = _
      rw [List.length_map, List.length_cons]
      exact hfull
    · intro k hk
      show ((w0 :: ws).map word_errors).getD k 0 = _
      rw [List.getD_eq_getElem _ _ (by rw [List.length_map]; exact hk), List.getElem_map]
      rfl

set_option maxRecDepth 8192 in
/-- C12 at `bad_crc_state`, and on `bad_crc_words` after the lock from the
window `0x2aaaaaad 06ea12cf`. -/
theorem C12_bad_frame_report_witness :
    bad_crc_state.rxlength < 256 ∧
    ([0x01, 0x04, 0x12, 0x34, 0x00, 0x00], [0, 1, 1]) ∈ bad_frames (cir_rxbit bad_crc_state 0).2 ∧
    bad_frames (cir_rxbit bad_crc_state 0).2 = [([0x01, 0x04, 0x12, 0x34, 0x00, 0x00], [0, 1, 1])] ∧
    [0, 1, 1].length = actual_rx_length bad_crc_state.rxlength / 2 ∧
    (∀ e ∈ bad_frames (cir_rxbits (cir_rxbit (sync_state 0x6ea12cf 0x2aaaaaad) 1).1
        (word_bits bad_crc_words)).2,
      e = (frame_bytes bad_crc_words, bad_crc_words.map word_errors)) ∧
    bad_frames (cir_rxbits (cir_rxbit (sync_state 0x6ea12cf 0x2aaaaaad) 1).1
        (word_bits bad_crc_words)).2 = [([0x01, 0x04, 0x12, 0x34, 0x00, 0x00], [0, 1, 1])] := by
  have hmem : ([0x01, 0x04, 0x12, 0x34, 0x00, 0x00], [0, 1, 1])
      ∈ bad_frames (cir_rxbit bad_crc_state 0).2 := by
    decide!
  have hrun : bad_frames (cir_rxbits (cir_rxbit (sync_state 0x6ea12cf 0x2aaaaaad) 1).1
      (word_bits bad_crc_words)).2 = [([0x01, 0x04, 0x12, 0x34, 0x00, 0x00], [0, 1, 1])] := by
    decide!
  have hd : word_decoded (bch_encode 0x0104) % 256 = 4 := by
    decide!
  obtain ⟨h1, _, _, _, _, _, h7, _, h9⟩ := C12_bad_frame_report bad_crc_state 0
    [0x01, 0x04, 0x12, 0x34, 0x00, 0x00] [0, 1, 1] (by decide) hmem
  exact ⟨by decide, hmem, h1, h7,
    fun e he => (h9 (sync_state 0x6ea12cf 0x2aaaaaad) 1 (bch_encode 0x0104)
      [bch_encode 0x1234 ^^^ 8, 0x1000] rfl (by decide!) (by decide!)
      (by rw [hd]; decide) (by rw [hd]; decide) e he).1, hrun⟩

/-- C13: after the call that declares lock, let the received words be
`w0 :: ws`, the first of which is stored with a low byte `n ≠ 0`, and let there
be `actual_rx_length n / 2` of them. Then `actual_rx_length n` is `n`, plus 1
if `n` is odd, plus 2; after every proper prefix of the bits of these words the
decoder is collecting (`rxbitcount` is the number of bits taken plus 1, not 0),
the buffer holds two bytes per whole word taken, fewer than
`actual_rx_length n`, and no good or bad frame has been reported; and after
the last bit of the last word exactly one frame has been reported, the buffer
length is `actual_rx_length n`, and the decoder is searching (`rxbitcount = 0`). -/
theorem C13_collects_until_full (s0 : cirfsk) (b w0 : Nat) (ws : List Nat)
    (hs0 : s0.rxbitcount = 0) (hlock : (cir_rxbit s0 b).1.rxbitcount = 1)
    (hws : ∀ w ∈ w0 :: ws, w < 2 ^ 26) (hn : word_decoded w0 % 256 ≠ 0)
    (hfull : ws.length + 1 = actual_rx_length (word_decoded w0 % 256) / 2) :
    actual_rx_length (word_decoded w0 % 256)
      = word_decoded w0 % 256 + (if word_decoded w0 % 256 % 2 = 1 then 1 else 0) + 2 ∧
    (∀ m, m < 26 * (ws.length + 1) →
      (cir_rxbits (cir_rxbit s0 b).1 ((word_bits (w0 :: ws)).take m)).1.rxbitcount = m + 1 ∧
      (cir_rxbits (cir_rxbit s0 b).1 ((word_bits (w0 :: ws)).take m)).1.rx_buf_pos
        = 2 * (m / 26) ∧
      (cir_rxbits (cir_rxbit s0 b).1 ((word_bits (w0 :: ws)).take m)).1.rx_buf_pos
        < actual_rx_length (word_decoded w0 % 256) ∧
      good_frames (cir_rxbits (cir_rxbit s0 b).1 ((word_bits (w0 :: ws)).take m)).2 = [] ∧
      bad_frames (cir_rxbits (cir_rxbit s0 b).1 ((word_bits (w0 :: ws)).take m)).2 = []) ∧
    (cir_rxbits (cir_rxbit s0 b).1 (word_bits (w0 :: ws))).1.rxbitcount = 0 ∧
    (cir_rxbits (cir_rxbit s0 b).1 (word_bits (w0 :: ws))).1.rx_buf_pos
      = actual_rx_length (word_decoded w0 % 256) ∧
    (cir_rxbits (cir_rxbit s0 b).1 (word_bits (w0 :: ws))).1.rxlength = word_decoded w0 % 256 ∧
    (good_frames (cir_rxbits (cir_rxbit s0 b).1 (word_bits (w0 :: ws))).2).length
      + (bad_frames (cir_rxbits (cir_rxbit s0 b).1 (word_bits (w0 :: ws))).2).length = 1 := by
  have hn256 : word_decoded w0 % 256 < 256 := Nat.mod_lt _ (by decide)
  have harl := actual_rx_length_eq _ hn256
  have hcol := collected_after_lock s0 b hs0 hlock
  have hfull2 : 2 * (ws.length + 1) = actual_rx_length (word_decoded w0 % 256) := by omega
  refine ⟨?_, ?_, ?_⟩
  · rw [harl]
    split_ifs <;> omega
  · intro m hm
    obtain ⟨h1, h2, h3, h4⟩ := collecting_before_full w0 ws _ hcol hws hn hfull2 m hm
    exact ⟨h1, h2, by rw [h2]; omega, h3, h4⟩
  · obtain ⟨h1, h2, h3, _, h5⟩ := completed_words w0 ws _ hcol hws hn hfull2
    refine ⟨h1, h2, h3, ?_⟩
    rcases h5 with ⟨hg, hb⟩ | ⟨hg, hb⟩
    · rw [hg, hb]
      rfl
    · rw [hg, hb]
      rfl

set_option maxRecDepth 8192 in
/-- C13 on the lock from the window `0x2aaaaaad 06ea12cf` and the three
codewords of `0x0104`, `0x1234`, `0xb9b2`: collecting after 77 bits, one frame
and searching after 78. -/
theorem C13_collects_until_full_witness :
    (sync_state 0x6ea12cf 0x2aaaaaad).rxbitcount = 0 ∧
    (cir_rxbit (sync_state 0x6ea12cf 0x2aaaaaad) 1).1.rxbitcount = 1 ∧
    (∀ w ∈ [bch_encode 0x0104, bch_encode 0x1234, bch_encode 0xb9b2], w < 2 ^ 26) ∧
    word_decoded (bch_encode 0x0104) % 256 = 4 ∧
    actual_rx_length 4 = 6 ∧
    (cir_rxbits (cir_rxbit (sync_state 0x6ea12cf 0x2aaaaaad) 1).1
      ((word_bits [bch_encode 0x0104, bch_encode 0x1234, bch_encode 0xb9b2]).take
        77)).1.rxbitcount = 78 ∧
    good_frames (cir_rxbits (cir_rxbit (sync_state 0x6ea12cf 0x2aaaaaad) 1).1
      ((word_bits [bch_encode 0x0104, bch_encode 0x1234, bch_encode 0xb9b2]).take 77)).2 = [] ∧
    (cir_rxbits (cir_rxbit (sync_state 0x6ea12cf 0x2aaaaaad) 1).1
      (word_bits [bch_encode 0x0104, bch_encode 0x1234, bch_encode 0xb9b2])).1.rxbitcount = 0 ∧
    (good_frames (cir_rxbits (cir_rxbit (sync_state 0x6ea12cf 0x2aaaaaad) 1).1
      (word_bits [bch_encode 0x0104, bch_encode 0x1234, bch_encode 0xb9b2])).2).length
      + (bad_frames (cir_rxbits (cir_rxbit (sync_state 0x6ea12cf 0x2aaaaaad) 1).1
      (word_bits [bch_encode 0x0104, bch_encode 0x1234, bch_encode 0xb9b2])).2).length = 1 := by
  have hlock : (cir_rxbit (sync_state 0x6ea12cf 0x2aaaaaad) 1).1.rxbitcount = 1 := by
    decide!
  have hws : ∀ w ∈ [bch_encode 0x0104, bch_encode 0x1234, bch_encode 0xb9b2], w < 2 ^ 26 := by
    decide!
  have hd : word_decoded (bch_encode 0x0104) % 256 = 4 := by
    decide!
  have ha : actual_rx_length 4 = 6 := by
    decide
  obtain ⟨_, hpre, h1, _, _, h4⟩ := C13_collects_until_full (sync_state 0x6ea12cf 0x2aaaaaad) 1
    (bch_encode 0x0104) [bch_encode 0x1234, bch_encode 0xb9b2] rfl hlock hws
    (by rw [hd]; decide) (by rw [hd, ha]; rfl)
  obtain ⟨p1, _, _, p4, _⟩ := hpre 77 (by decide)
  exact ⟨rfl, hlock, hws, hd, ha, p1, p4, h1, h4⟩

/-- C24: the table `check_matrix` has 26 entries; entry `i`, for every `i` in
0..25, is the syndrome that the division loop of `decode_BCH_26_16` computes
for the single-bit word `1 << (25 - i)`; the entries are pairwise distinct and
none is 0. -/
theorem C24_check_matrix_syndromes :
    check_matrix = (List.range 26).map (fun i => bch_syndrome (1 <<< (25 - i))) ∧
    check_matrix.length = 26 ∧
    check_matrix.Nodup ∧
    0 ∉ check_matrix := by
  decide!

/-- C28: the syndrome computed by the division loop of `decode_BCH_26_16` is
linear, `syndrome (a xor b) = syndrome a xor syndrome b` for all words `a` and
`b`; hence for a valid codeword `c` (severity 0) the severity returned for
`c xor e` is the one returned for `e` alone, whatever `c` is. -/
theorem C28_syndrome_linear (a b c e v0 v1 v2 : Nat)
    (hc : (decode_BCH_26_16 c v0).1 = 0) :
    bch_syndrome (a ^^^ b) = bch_syndrome a ^^^ bch_syndrome b ∧
    (decode_BCH_26_16 (c ^^^ e) v1).1 = (decode_BCH_26_16 e v2).1 := by
  refine ⟨bch_syndrome_xor a b, ?_⟩
  have hs : bch_syndrome c = 0 := (decode_fst_eq_zero_iff c v0).mp hc
  rw [decode_valid_xor c e v1 hs, decode_eq_correction e v2]

/-- C28 at the codeword of `0x1234` and the error pattern `0x2000005`. -/
theorem C28_syndrome_linear_witness :
    (decode_BCH_26_16 (bch_encode 0x1234) 0).1 = 0 ∧
    bch_syndrome (0x48d1f5 ^^^ 0x2000005) = bch_syndrome 0x48d1f5 ^^^ bch_syndrome 0x2000005 ∧
    (decode_BCH_26_16 (bch_encode 0x1234 ^^^ 0x2000005) 0).1
      = (decode_BCH_26_16 0x2000005 0).1 := by
  have hc : (decode_BCH_26_16 (bch_encode 0x1234) 0).1 = 0 := by
    decide!
  exact ⟨hc, C28_syndrome_linear 0x48d1f5 0x2000005 (bch_encode 0x1234) 0x2000005 0 0 0 hc⟩

/-- C27: for every 26-bit input `w` on which `decode_BCH_26_16` returns
severity `s` in {1, 2}, let `c` be `w` with the masks of the matching search
stage flipped. The reported value is `c >> 10`; `c` is a 26-bit word that
differs from `w` in exactly `s` bit positions; and `c` is a valid codeword:
decoding it returns severity 0 and the same value. -/
theorem C27_corrected_word_valid (w v v1 : Nat) (hw : w < 2 ^ 26)
    (hs : (decode_BCH_26_16 w v).1 = 1 ∨ (decode_BCH_26_16 w v).1 = 2) :
    (decode_BCH_26_16 w v).2 = (w ^^^ (bch_correction (bch_syndrome w)).2) >>> 10 ∧
    w ^^^ (bch_correction (bch_syndrome w)).2 < 2 ^ 26 ∧
    popcountll (w ^^^ (w ^^^ (bch_correction (bch_syndrome w)).2)) = (decode_BCH_26_16 w v).1 ∧
    (decode_BCH_26_16 (w ^^^ (bch_correction (bch_syndrome w)).2) v1).1 = 0 ∧
    (decode_BCH_26_16 (w ^^^ (bch_correction (bch_syndrome w)).2) v1).2
      = (decode_BCH_26_16 w v).2 := by
  have hsev : (decode_BCH_26_16 w v).1 = (bch_correction (bch_syndrome w)).1 := by
    rw [decode_eq_correction]
  have hne : (bch_correction (bch_syndrome w)).1 ≠ 3 := by
    rw [← hsev]
    omega
  obtain ⟨hsyn, hlt, hpop⟩ := bch_correction_sound (bch_syndrome w) hne
  have hc : w ^^^ (bch_correction (bch_syndrome w)).2 < 2 ^ 26 := Nat.xor_lt_two_pow hw hlt
  have hval : (decode_BCH_26_16 w v).2
      = (w ^^^ (bch_correction (bch_syndrome w)).2) >>> 10 := by
    rw [decode_eq_correction, if_neg hne]
    apply Nat.mod_eq_of_lt
    rw [Nat.shiftRight_eq_div_pow]
    omega
  have hzero : bch_syndrome (w ^^^ (bch_correction (bch_syndrome w)).2) = 0 := by
    rw [bch_syndrome_xor, hsyn, Nat.xor_self]
  have hdec := decode_eq_correction (w ^^^ (bch_correction (bch_syndrome w)).2) v1
  rw [hzero] at hdec
  have hb0 : bch_correction 0 = (0, 0) := rfl
  rw [hb0] at hdec
  refine ⟨hval, hc, ?_, ?_, ?_⟩
  · rw [← Nat.xor_assoc, Nat.xor_self, Nat.zero_xor, hpop, hsev]
  · rw [hdec]
  · rw [hdec, hval]
    show ((w ^^^ (bch_correction (bch_syndrome w)).2 ^^^ 0) >>> 10) % 2 ^ 16 = _
    rw [Nat.xor_zero]
    apply Nat.mod_eq_of_lt
    rw [Nat.shiftRight_eq_div_pow]
    omega

/-- C27 at the codeword of `0x1234` with bits 3 and 20 flipped. -/
theorem C27_corrected_word_valid_witness :
    bch_encode 0x1234 ^^^ 0x100008 < 2 ^ 26 ∧
    (decode_BCH_26_16 (bch_encode 0x1234 ^^^ 0x100008) 0).1 = 2 ∧
    (decode_BCH_26_16 (bch_encode 0x1234 ^^^ 0x100008) 0).2 = 0x1234 ∧
    (decode_BCH_26_16 ((bch_encode 0x1234 ^^^ 0x100008)
      ^^^ (bch_correction (bch_syndrome (bch_encode 0x1234 ^^^ 0x100008))).2) 0).1 = 0 := by
  have hw : bch_encode 0x1234 ^^^ 0x100008 < 2 ^ 26 := by
    decide!
  have h2 : (decode_BCH_26_16 (bch_encode 0x1234 ^^^ 0x100008) 0).1 = 2 := by
    decide!
  have hv : (decode_BCH_26_16 (bch_encode 0x1234 ^^^ 0x100008) 0).2 = 0x1234 := by
    decide!
  exact ⟨hw, h2, hv,
    (C27_corrected_word_valid (bch_encode 0x1234 ^^^ 0x100008) 0 0 hw (Or.inr h2)).2.2.2.1⟩

theorem gf2_quot_lt (g dg k : Nat) : ∀ a, gf2_quot g dg k a < 2 ^ k := by
  induction k with
  | zero =>
    intro a
    show 0 < 2 ^ 0
    decide
  | succ k ih =>
    intro a
    show (if a.testBit (dg + k) then 2 ^ k else 0)
      + gf2_quot g dg k (if a.testBit (dg + k) then a ^^^ (g <<< k) else a) < 2 ^ (k + 1)
    rw [Nat.pow_succ]
    by_cases hb : a.testBit (dg + k) = true
    · rw [if_pos hb, if_pos hb]
      have h := ih (a ^^^ (g <<< k))
      omega
    · rw [if_neg hb, if_neg hb]
      have h := ih a
      omega

/-- The product reads only the `k` low bits of its second factor. -/
theorem gf2_mul_congr (g k : Nat) : ∀ q q1, (∀ i, i < k → q.testBit i = q1.testBit i) →
    gf2_mul g k q = gf2_mul g k q1 := by
  induction k with
  | zero =>
    intro q q1 _
    rfl
  | succ k ih =>
    intro q q1 h
    show (if q.testBit k then g <<< k else 0) ^^^ gf2_mul g k q
      = (if q1.testBit k then g <<< k else 0) ^^^ gf2_mul g k q1
    rw [h k (Nat.lt_succ_self k), ih q q1 (fun i hi => h i (Nat.lt_succ_of_lt hi))]

theorem gf2_mul_lt (k : Nat) : ∀ q, gf2_mul 0x5B9 k q < 2 ^ (10 + k) := by
  induction k with
  | zero =>
    intro q
    show 0 < 2 ^ (10 + 0)
    decide
  | succ k ih =>
    intro q
    show (if q.testBit k then 0x5B9 <<< k else 0) ^^^ gf2_mul 0x5B9 k q < 2 ^ (10 + (k + 1))
    have h1 : gf2_mul 0x5B9 k q < 2 ^ (10 + (k + 1)) :=
      Nat.lt_of_lt_of_le (ih q) (Nat.pow_le_pow_right (by decide) (by omega))
    have h2 : (if q.testBit k then 0x5B9 <<< k else 0) < 2 ^ (10 + (k + 1)) := by
      split_ifs
      · rw [Nat.shiftLeft_eq]
        have hp : 2 ^ (10 + (k + 1)) = 2 ^ 11 * 2 ^ k := by
          rw [← Nat.pow_add]
          congr 1
          omega
        rw [hp]
        exact Nat.mul_lt_mul_of_lt_of_le (by decide) (Nat.le_refl _) (Nat.two_pow_pos k)
      · exact Nat.two_pow_pos _
    exact Nat.xor_lt_two_pow h2 h1

/-- Long division is division: the dividend is quotient times divisor plus
remainder, over GF(2). -/
theorem gf2_division (g dg k : Nat) : ∀ a,
    a = gf2_mul g k (gf2_quot g dg k a) ^^^ gf2_rem g dg k a := by
  induction k with
  | zero =>
    intro a
    show a = 0 ^^^ a
    rw [Nat.zero_xor]
  | succ k ih =>
    intro a
    show a = ((if ((if a.testBit (dg + k) then 2 ^ k else 0)
          + gf2_quot g dg k (if a.testBit (dg + k) then a ^^^ (g <<< k) else a)).testBit k
        then g <<< k else 0)
        ^^^ gf2_mul g k ((if a.testBit (dg + k) then 2 ^ k else 0)
          + gf2_quot g dg k (if a.testBit (dg + k) then a ^^^ (g <<< k) else a)))
      ^^^ gf2_rem g dg k (if a.testBit (dg + k) then a ^^^ (g <<< k) else a)
    by_cases hb : a.testBit (dg + k) = true
    · simp only [hb, if_true]
      have hq := gf2_quot_lt g dg k (a ^^^ (g <<< k))
      have htop : (2 ^ k + gf2_quot g dg k (a ^^^ (g <<< k))).testBit k = true := by
        rw [Nat.testBit_two_pow_add_eq, Nat.testBit_lt_two_pow hq]
        rfl
      have hlow : gf2_mul g k (2 ^ k + gf2_quot g dg k (a ^^^ (g <<< k)))
          = gf2_mul g k (gf2_quot g dg k (a ^^^ (g <<< k))) :=
        gf2_mul_congr g k _ _ (fun i hi => Nat.testBit_two_pow_add_gt hi _)
      rw [htop, if_pos rfl, hlow, Nat.xor_assoc, ← ih (a ^^^ (g <<< k)), Nat.xor_comm a,
        ← Nat.xor_assoc, Nat.xor_self, Nat.zero_xor]
    · have hbf : a.testBit (dg + k) = false := by simpa using hb
      simp only [hbf, Bool.false_eq_true, if_false, Nat.zero_add]
      have hq := gf2_quot_lt g dg k a
      rw [Nat.testBit_lt_two_pow hq]
      simp only [Bool.false_eq_true, if_false, Nat.zero_xor]
      exact ih a

theorem xor_cancel_outer (a b c : Nat) : ((a ^^^ b) ^^^ c) ^^^ a = b ^^^ c := by
  apply Nat.eq_of_testBit_eq
  intro i
  simp only [Nat.testBit_xor]
  cases a.testBit i <;> cases b.testBit i <;> cases c.testBit i <;> rfl

/-- The remainder is unique: whatever quotient and remainder of degree below
10 a word is written with, long division finds that remainder. -/
theorem gf2_rem_mul_xor (k : Nat) : ∀ q r, r < 2 ^ 10 →
    gf2_rem 0x5B9 10 k (gf2_mul 0x5B9 k q ^^^ r) = r := by
  induction k with
  | zero =>
    intro q r _
    show 0 ^^^ r = r
    rw [Nat.zero_xor]
  | succ k ih =>
    intro q r hr
    have hM := gf2_mul_lt k q
    have hr2 : r < 2 ^ (10 + k) :=
      Nat.lt_of_lt_of_le hr (Nat.pow_le_pow_right (by decide) (by omega))
    show gf2_rem 0x5B9 10 k
        (if (((if q.testBit k then 0x5B9 <<< k else 0) ^^^ gf2_mul 0x5B9 k q) ^^^ r).testBit
            (10 + k)
          then (((if q.testBit k then 0x5B9 <<< k else 0) ^^^ gf2_mul 0x5B9 k q) ^^^ r)
            ^^^ (0x5B9 <<< k)
          else ((if q.testBit k then 0x5B9 <<< k else 0) ^^^ gf2_mul 0x5B9 k q) ^^^ r) = r
    by_cases hb : q.testBit k = true
    · simp only [hb, if_true]
      have htop : ((0x5B9 <<< k ^^^ gf2_mul 0x5B9 k q) ^^^ r).testBit (10 + k) = true := by
        rw [Nat.testBit_xor, Nat.testBit_xor, gen_shift_testBit_top, Nat.testBit_lt_two_pow hM,
          Nat.testBit_lt_two_pow hr2]
        rfl
      rw [htop, if_pos rfl]
      rw [xor_cancel_outer]
      exact ih q r hr
    · have hbf : q.testBit k = false := by simpa using hb
      have htop : (gf2_mul 0x5B9 k q ^^^ r).testBit (10 + k) = false := by
        rw [Nat.testBit_xor, Nat.testBit_lt_two_pow hM, Nat.testBit_lt_two_pow hr2]
        rfl
      simp only [hbf, Bool.false_eq_true, if_false, Nat.zero_xor, htop]
      exact ih q r hr

/-- C23: for every 26-bit word `w`, the value `res` computed by the
16-iteration test-bit-25 / XOR / shift-left loop of `decode_BCH_26_16` is less
than `2 ^ 10` and is the remainder of `w`, read as a polynomial over GF(2), on
division by `g(x) = x^10 + x^8 + x^7 + x^5 + x^4 + x^3 + 1` (`0x5B9`): it is what
long division leaves, `w` is the product of a 16-bit quotient and `g` plus
`res`, and `res` is the only word below `2 ^ 10` for which such a quotient
exists. `decode_BCH_26_16` returns severity 0 exactly when `res` is 0. -/
theorem C23_syndrome_is_remainder (w v : Nat) (hw : w < 2 ^ 26) :
    0x5B9 = 2 ^ 10 + 2 ^ 8 + 2 ^ 7 + 2 ^ 5 + 2 ^ 4 + 2 ^ 3 + 1 ∧
    bch_syndrome w < 2 ^ 10 ∧
    bch_syndrome w = gf2_rem 0x5B9 10 16 w ∧
    (∃ q, q < 2 ^ 16 ∧ w = gf2_mul 0x5B9 16 q ^^^ bch_syndrome w) ∧
    (∀ q r, r < 2 ^ 10 → w = gf2_mul 0x5B9 16 q ^^^ r → r = bch_syndrome w) ∧
    ((decode_BCH_26_16 w v).1 = 0 ↔ bch_syndrome w = 0) := by
  obtain ⟨hrem, hlt⟩ := bch_syndrome_eq_gf2_rem w hw
  refine ⟨by decide, by rw [hrem]; exact hlt, hrem, ?_, ?_, decode_fst_eq_zero_iff w v⟩
  · refine ⟨gf2_quot 0x5B9 10 16 w, gf2_quot_lt _ _ _ _, ?_⟩
    rw [hrem]
    exact gf2_division 0x5B9 10 16 w
  · intro q r hr hq
    rw [hrem]
    have h := gf2_rem_mul_xor 16 q r hr
    rw [← hq] at h
    exact h.symm

/-- C23 at the word `0x2345678`. -/
theorem C23_syndrome_is_remainder_witness :
    0x2345678 < 2 ^ 26 ∧ bch_syndrome 0x2345678 < 2 ^ 10 ∧
    bch_syndrome 0x2345678 = gf2_rem 0x5B9 10 16 0x2345678 ∧
    ((decode_BCH_26_16 0x2345678 0).1 = 0 ↔ bch_syndrome 0x2345678 = 0) :=
  ⟨by decide, (C23_syndrome_is_remainder 0x2345678 0 (by decide)).2.1,
    (C23_syndrome_is_remainder 0x2345678 0 (by decide)).2.2.1,
    (C23_syndrome_is_remainder 0x2345678 0 (by decide)).2.2.2.2.2⟩

/-! ### The CRC residue -/

theorem crc16_ref_bit_lt (r : Nat) : crc16_ref_bit r < 2 ^ 16 := by
  unfold crc16_ref_bit
  have h : (r <<< 1) % 2 ^ 16 < 2 ^ 16 := Nat.mod_lt _ (Nat.two_pow_pos 16)
  split_ifs
  · exact Nat.xor_lt_two_pow h (by decide)
  · exact h

theorem crc16_ref_bit_eq (r : Nat) (hr : r < 2 ^ 16) :
    crc16_ref_bit r = ((r <<< 1) % 2 ^ 16) ^^^ (if r.testBit 15 then 0x1021 else 0) := by
  have htest : r.testBit 15 = true ↔ 0x8000 ≤ r := by
    rw [Nat.testBit_to_div_mod]
    simp only [decide_eq_true_eq]
    omega
  unfold crc16_ref_bit
  by_cases h : 0x8000 ≤ r
  · rw [if_pos h, if_pos (htest.mpr h)]
  · rw [if_neg h, if_neg (fun hc => h (htest.mp hc)), Nat.xor_zero]

theorem crc16_ref_bit_xor (r s : Nat) (hr : r < 2 ^ 16) (hs : s < 2 ^ 16) :
    crc16_ref_bit (r ^^^ s) = crc16_ref_bit r ^^^ crc16_ref_bit s := by
  rw [crc16_ref_bit_eq r hr, crc16_ref_bit_eq s hs,
    crc16_ref_bit_eq (r ^^^ s) (Nat.xor_lt_two_pow hr hs), xor_shiftLeft, xor_mod_two_pow,
    Nat.testBit_xor]
  apply Nat.eq_of_testBit_eq
  intro i
  cases r.testBit 15 <;> cases s.testBit 15 <;>
    simp only [Nat.testBit_xor, Bool.xor_false, Bool.xor_true, Bool.false_xor, Bool.true_xor,
      Bool.false_eq_true, if_false, if_true, Nat.xor_zero, Nat.zero_testBit, Bool.not_true,
      Bool.not_false] <;>
    cases ((r <<< 1) % 2 ^ 16).testBit i <;> cases ((s <<< 1) % 2 ^ 16).testBit i <;>
    cases (0x1021 : Nat).testBit i <;> rfl

theorem crc16_ref_byte_zero_arg (r b : Nat) :
    crc16_ref_byte r b = crc16_ref_byte (r ^^^ (b <<< 8)) 0 := by
  unfold crc16_ref_byte
  rw [Nat.zero_shiftLeft, Nat.xor_zero]

theorem crc16_ref_byte_lt (r b : Nat) : crc16_ref_byte r b < 2 ^ 16 :=
  crc16_ref_bit_lt _

theorem crc16_ref_byte_xor (u v : Nat) (hu : u < 2 ^ 16) (hv : v < 2 ^ 16) :
    crc16_ref_byte (u ^^^ v) 0 = crc16_ref_byte u 0 ^^^ crc16_ref_byte v 0 := by
  unfold crc16_ref_byte
  rw [Nat.zero_shiftLeft, Nat.xor_zero, Nat.xor_zero, Nat.xor_zero,
    crc16_ref_bit_xor u v hu hv,
    crc16_ref_bit_xor _ _ (crc16_ref_bit_lt _) (crc16_ref_bit_lt _),
    crc16_ref_bit_xor _ _ (crc16_ref_bit_lt _) (crc16_ref_bit_lt _),
    crc16_ref_bit_xor _ _ (crc16_ref_bit_lt _) (crc16_ref_bit_lt _),
    crc16_ref_bit_xor _ _ (crc16_ref_bit_lt _) (crc16_ref_bit_lt _),
    crc16_ref_bit_xor _ _ (crc16_ref_bit_lt _) (crc16_ref_bit_lt _),
    crc16_ref_bit_xor _ _ (crc16_ref_bit_lt _) (crc16_ref_bit_lt _),
    crc16_ref_bit_xor _ _ (crc16_ref_bit_lt _) (crc16_ref_bit_lt _)]

/-- Eight steps on a register whose high byte is 0 only shift. -/
theorem crc16_ref_low_byte : ∀ l, l < 256 → crc16_ref_byte l 0 = l <<< 8 := by
  decide!

/-- The low byte of the register after a byte fed into a zero register is 0
only for the byte 0. -/
theorem crc16_ref_table_low : ∀ x, x < 256 → crc16_ref_byte 0 x % 256 = 0 → x = 0 := by
  decide!

theorem split_bytes (r : Nat) : r = ((r / 256) <<< 8) ^^^ (r % 256) := by
  have h1 : (r / 256) <<< 8 ^^^ (r % 256) = (r / 256) <<< 8 ||| (r % 256) :=
    (shiftLeft_or_eq_xor (r / 256) (r % 256) 8 (Nat.mod_lt _ (by decide))).symm
  have h2 : 2 ^ 8 * (r / 256) + r % 256 = 2 ^ 8 * (r / 256) ||| r % 256 :=
    Nat.mul_add_lt_is_or (Nat.mod_lt _ (by decide)) _
  rw [h1, Nat.shiftLeft_eq, Nat.mul_comm, ← h2]
  omega

/-- One byte into a 16-bit register: the table entry of high byte XOR input,
XOR the low byte moved up. -/
theorem crc16_ref_byte_split (r a : Nat) (hr : r < 2 ^ 16) (ha : a < 256) :
    crc16_ref_byte r a = crc16_ref_byte 0 (r / 256 ^^^ a) ^^^ ((r % 256) <<< 8) := by
  have hx : r / 256 ^^^ a < 2 ^ 8 := Nat.xor_lt_two_pow (by omega) ha
  have hdec : r ^^^ (a <<< 8) = ((r / 256 ^^^ a) <<< 8) ^^^ (r % 256) := by
    rw [xor_shiftLeft, xor_right_comm, ← split_bytes r]
  have hb : (r / 256 ^^^ a) <<< 8 < 2 ^ 16 := by
    rw [Nat.shiftLeft_eq]
    omega
  rw [crc16_ref_byte_zero_arg r a, hdec,
    crc16_ref_byte_xor _ _ hb (by omega), crc16_ref_low_byte _ (Nat.mod_lt _ (by decide)),
    crc16_ref_byte_zero_arg 0 (r / 256 ^^^ a), Nat.zero_xor]

/-- Two bytes fed into a 16-bit register leave it 0 exactly when they are its
high and low byte. -/
theorem crc16_ref_residue (r a b : Nat) (hr : r < 2 ^ 16) (ha : a < 256) (hb : b < 256) :
    crc16_ref_byte (crc16_ref_byte r a) b = 0 ↔ a = r / 256 ∧ b = r % 256 := by
  have hl : r % 256 < 2 ^ 8 := Nat.mod_lt _ (by decide)
  have hx : r / 256 ^^^ a < 2 ^ 8 := Nat.xor_lt_two_pow (by omega) ha
  have hT : crc16_ref_byte 0 (r / 256 ^^^ a) < 2 ^ 16 := crc16_ref_byte_lt _ _
  have h0 : crc16_ref_byte 0 0 = 0 := by decide
  have hdiv : (crc16_ref_byte 0 (r / 256 ^^^ a) ^^^ ((r % 256) <<< 8)) / 256
      = crc16_ref_byte 0 (r / 256 ^^^ a) / 256 ^^^ r % 256 := by
    have h := xor_shiftRight (crc16_ref_byte 0 (r / 256 ^^^ a)) ((r % 256) <<< 8) 8
    rw [Nat.shiftLeft_shiftRight, Nat.shiftRight_eq_div_pow, Nat.shiftRight_eq_div_pow] at h
    exact h
  have hmod : (crc16_ref_byte 0 (r / 256 ^^^ a) ^^^ ((r % 256) <<< 8)) % 256
      = crc16_ref_byte 0 (r / 256 ^^^ a) % 256 := by
    have h := xor_mod_two_pow (crc16_ref_byte 0 (r / 256 ^^^ a)) ((r % 256) <<< 8) 8
    have hz : ((r % 256) <<< 8) % 2 ^ 8 = 0 := by
      rw [Nat.shiftLeft_eq]
      omega
    rw [hz, Nat.xor_zero] at h
    exact h
  have hy : crc16_ref_byte 0 (r / 256 ^^^ a) / 256 ^^^ r % 256 ^^^ b < 2 ^ 8 :=
    Nat.xor_lt_two_pow (Nat.xor_lt_two_pow (by omega) hl) hb
  rw [crc16_ref_byte_split r a hr ha,
    crc16_ref_byte_split _ b (Nat.xor_lt_two_pow hT (by rw [Nat.shiftLeft_eq]; omega)) hb,
    hdiv, hmod]
  constructor
  · intro h
    have heq := Nat.xor_eq_zero.mp h
    have hlow : crc16_ref_byte 0 (crc16_ref_byte 0 (r / 256 ^^^ a) / 256 ^^^ r % 256 ^^^ b) % 256
        = 0 := by
      rw [heq, Nat.shiftLeft_eq]
      omega
    have hy0 := crc16_ref_table_low _ hy hlow
    rw [hy0, h0] at heq
    have hm0 : crc16_ref_byte 0 (r / 256 ^^^ a) % 256 = 0 := by
      rw [Nat.shiftLeft_eq] at heq
      omega
    have hx0 := crc16_ref_table_low _ hx hm0
    have ha0 : r / 256 = a := Nat.xor_eq_zero.mp hx0
    rw [hx0, h0, Nat.zero_div, Nat.zero_xor] at hy0
    have hb0 : r % 256 = b := Nat.xor_eq_zero.mp hy0
    exact ⟨ha0.symm, hb0.symm⟩
  · rintro ⟨ha0, hb0⟩
    rw [ha0, hb0, Nat.xor_self, h0, Nat.zero_div, Nat.zero_xor, Nat.xor_self, h0, Nat.zero_mod,
      Nat.zero_shiftLeft]
    rfl

/-- CRC residue for `crc16`: the CRC over a byte sequence followed by two
bytes is 0 exactly when the two bytes are the CRC of the sequence, high byte
first. -/
theorem crc16_residue (m : List Nat) (a b : Nat) (hm : ∀ x ∈ m, x < 256) (ha : a < 256)
    (hb : b < 256) :
    crc16 (m ++ [a, b]) = 0 ↔ a = crc16 m / 256 ∧ b = crc16 m % 256 := by
  have hall : ∀ x ∈ m ++ [a, b], x < 256 := by
    intro x hx
    rcases List.mem_append.mp hx with h | h
    · exact hm x h
    · rcases List.mem_cons.mp h with h | h
      · rw [h]; exact ha
      · rw [List.mem_singleton.mp h]; exact hb
  have h1 : crc16 (m ++ [a, b]) = crc16_ref (m ++ [a, b]) := by
    unfold crc16 crc16_reg crc16_ref
    exact crc16_fold_mod _ hall 0
  have h2 : crc16 m = crc16_ref m := by
    unfold crc16 crc16_reg crc16_ref
    exact crc16_fold_mod _ hm 0
  have h3 : crc16_ref (m ++ [a, b]) = crc16_ref_byte (crc16_ref_byte (crc16_ref m) a) b := by
    unfold crc16_ref
    rw [List.foldl_append, List.foldl_cons, List.foldl_cons, List.foldl_nil]
  rw [h1, h3, ← h2]
  exact crc16_ref_residue (crc16 m) a b (crc16_lt m) ha hb

theorem rx_stored_bytes (s : cirfsk) (bit : Nat) (h : ∀ k, s.rxbuf k < 256) :
    ∀ k, (rx_stored s bit).rxbuf k < 256 := by
  intro k
  obtain ⟨h0, h1, _, _, hrest, _⟩ := rx_stored_buffers s bit
  have hd := rx_decoded_lt s bit
  by_cases hk0 : k = s.rx_buf_pos
  · rw [hk0, h0]
    omega
  · by_cases hk1 : k = s.rx_buf_pos + 1
    · rw [hk1, h1]
      omega
    · rw [hrest k hk0 hk1]
      exact h k

/-- C29: CRC residue. For every byte sequence `m` and bytes `a`, `b`,
`crc16 (m ++ [a, b]) = 0` if and only if `a` is the high byte and `b` the low
byte of `crc16 m`; so when a word completes a frame with expected length
`n = rxlength`, the frame is reported good exactly when `crc16` over the first
`n + 2` bytes of the buffer is 0, and bad exactly when it is not. -/
theorem C29_crc_residue (m : List Nat) (a b : Nat) (s : cirfsk) (bit : Nat)
    (hm : ∀ x ∈ m, x < 256) (ha : a < 256) (hb : b < 256)
    (hbytes : ∀ k, s.rxbuf k < 256)
    (hs : s.rxbitcount ≠ 0) (hword : s.rxbitcount % 26 = 0) (h26 : s.rxbitcount ≠ 26)
    (hfull : s.rx_buf_pos + 2 = actual_rx_length s.rxlength) :
    (crc16 (m ++ [a, b]) = 0 ↔ a = crc16 m / 256 ∧ b = crc16 m % 256) ∧
    (good_frames (cir_rxbit s bit).2 ≠ []
      ↔ crc16 (buffer_bytes (cir_rxbit s bit).1.rxbuf (s.rxlength + 2)) = 0) ∧
    (bad_frames (cir_rxbit s bit).2 ≠ []
      ↔ crc16 (buffer_bytes (cir_rxbit s bit).1.rxbuf (s.rxlength + 2)) ≠ 0) ∧
    (good_frames (cir_rxbit s bit).2 ≠ [] ∨ bad_frames (cir_rxbit s bit).2 ≠ []) := by
  refine ⟨crc16_residue m a b hm ha hb, ?_⟩
  have hst := rx_stored_bytes s bit hbytes
  have hres := crc16_residue (buffer_bytes (rx_stored s bit).rxbuf s.rxlength)
    ((rx_stored s bit).rxbuf s.rxlength) ((rx_stored s bit).rxbuf (s.rxlength + 1))
    (by
      intro x hx
      unfold buffer_bytes at hx
      obtain ⟨k, _, hk⟩ := List.mem_map.mp hx
      rw [← hk]
      exact hst k)
    (hst _) (hst _)
  have hsplit : buffer_bytes (rx_stored s bit).rxbuf (s.rxlength + 2)
      = buffer_bytes (rx_stored s bit).rxbuf s.rxlength
        ++ [(rx_stored s bit).rxbuf s.rxlength, (rx_stored s bit).rxbuf (s.rxlength + 1)] := by
    show buffer_bytes (rx_stored s bit).rxbuf (s.rxlength + 1 + 1) = _
    rw [buffer_bytes_succ, buffer_bytes_succ, List.append_assoc]
    rfl
  rw [← hsplit] at hres
  rcases cir_rxbit_at_word_cases s bit hs hword with
    ⟨h, _⟩ | ⟨h, _⟩ | ⟨_, _, hcrc, h⟩ | ⟨_, _, hcrc, h⟩ | ⟨_, hne, _⟩
  · exact absurd h h26
  · exact absurd h h26
  · have hz : crc16 (buffer_bytes (rx_stored s bit).rxbuf (s.rxlength + 2)) = 0 :=
      hres.mpr ⟨hcrc.1.symm, hcrc.2.symm⟩
    rw [h]
    refine ⟨⟨fun _ => hz, fun _ => by simp [good_frames, cir_display_package]⟩,
      ⟨fun hb2 => absurd (by simp [bad_frames, rx_trace]) hb2, fun hc => absurd hz hc⟩,
      Or.inl (by simp [good_frames, rx_trace])⟩
  · have hnz : crc16 (buffer_bytes (rx_stored s bit).rxbuf (s.rxlength + 2)) ≠ 0 :=
      fun hz => hcrc ⟨(hres.mp hz).1.symm, (hres.mp hz).2.symm⟩
    rw [h]
    refine ⟨⟨fun hg => absurd (by simp [good_frames, rx_trace]) hg, fun hc => absurd hc hnz⟩,
      ⟨fun _ => hnz, fun _ => by simp [bad_frames, rx_trace]⟩,
      Or.inr (by simp [bad_frames, rx_trace])⟩
  · exact absurd hfull hne

/-- C29 on the bytes `01 04 12 34` with the trailer `b9 b2`, and at
`completing_state`, whose last word brings exactly that trailer. -/
theorem C29_crc_residue_witness :
    (∀ x ∈ [0x01, 0x04, 0x12, 0x34], x < 256) ∧ 0xb9 < 256 ∧ 0xb2 < 256 ∧
    (∀ k, completing_state.rxbuf k < 256) ∧
    completing_state.rxbitcount ≠ 0 ∧ completing_state.rxbitcount % 26 = 0 ∧
    completing_state.rxbitcount ≠ 26 ∧
    completing_state.rx_buf_pos + 2 = actual_rx_length completing_state.rxlength ∧
    (crc16 ([0x01, 0x04, 0x12, 0x34] ++ [0xb9, 0xb2]) = 0
      ↔ 0xb9 = crc16 [0x01, 0x04, 0x12, 0x34] / 256
        ∧ 0xb2 = crc16 [0x01, 0x04, 0x12, 0x34] % 256) ∧
    (good_frames (cir_rxbit completing_state 0).2 ≠ []
      ↔ crc16 (buffer_bytes (cir_rxbit completing_state 0).1.rxbuf
          (completing_state.rxlength + 2)) = 0) := by
  have hbytes : ∀ k, completing_state.rxbuf k < 256 := by
    intro k
    show (if k = 0 then 0x01 else if k = 1 then 0x04
      else if k = 2 then 0x12 else if k = 3 then 0x34 else 0) < 256
    split_ifs <;> decide
  have h := C29_crc_residue [0x01, 0x04, 0x12, 0x34] 0xb9 0xb2 completing_state 0
    (by decide) (by decide) (by decide) hbytes (by decide) (by decide) (by decide) (by decide)
  exact ⟨by decide, by decide, by decide, hbytes, by decide, by decide, by decide, by decide,
    h.1, h.2.1⟩

theorem json_builder_fail (resp raw : List Nat) : json_builder false resp raw = resp := by
  simp [json_builder]

theorem json_builder_first (raw : List Nat) : json_builder true [] raw = quoted_hex raw := rfl

theorem json_builder_next (resp raw : List Nat) (h : resp ≠ []) :
    json_builder true resp raw = resp ++ [0x2c, 0x0d, 0x0a] ++ quoted_hex raw := by
  have hl : resp.length ≠ 0 := fun hc => h (List.length_eq_zero.mp hc)
  unfold json_builder quoted_hex
  rw [if_neg hl]
  simp

theorem quoted_hex_ne_nil (raw : List Nat) : quoted_hex raw ≠ [] := by
  unfold quoted_hex
  simp

theorem frames_text_snoc (done : List (List Nat)) (raw : List Nat) (h : done ≠ []) :
    frames_text (done ++ [raw]) = frames_text done ++ [0x2c, 0x0d, 0x0a] ++ quoted_hex raw := by
  induction done with
  | nil => exact absurd rfl h
  | cons x rest ih =>
    cases rest with
    | nil => rfl
    | cons y rest =>
      have ih2 : frames_text (y :: (rest ++ [raw]))
          = frames_text (y :: rest) ++ [0x2c, 0x0d, 0x0a] ++ quoted_hex raw :=
        ih (List.cons_ne_nil y rest)
      show quoted_hex x ++ [0x2c, 0x0d, 0x0a] ++ frames_text (y :: (rest ++ [raw]))
        = quoted_hex x ++ [0x2c, 0x0d, 0x0a] ++ frames_text (y :: rest) ++ [0x2c, 0x0d, 0x0a]
          ++ quoted_hex raw
      rw [ih2]
      simp only [List.append_assoc]

theorem frames_text_ne_nil (done : List (List Nat)) (h : done ≠ []) : frames_text done ≠ [] := by
  cases done with
  | nil => exact absurd rfl h
  | cons x rest =>
    cases rest with
    | nil => exact quoted_hex_ne_nil x
    | cons y rest =>
      show quoted_hex x ++ [0x2c, 0x0d, 0x0a] ++ frames_text (y :: rest) ≠ []
      simp

/-- One successful call appends one frame to the text. -/
theorem json_builder_text (done : List (List Nat)) (raw : List Nat) :
    json_builder true (frames_text done) raw = frames_text (done ++ [raw]) := by
  cases done with
  | nil =>
    show json_builder true [] raw = frames_text [raw]
    rw [json_builder_first]
    rfl
  | cons x rest =>
    rw [json_builder_next _ _ (frames_text_ne_nil _ (by simp)), frames_text_snoc _ _ (by simp)]

theorem json_builder_run_text (calls : List (Bool × List Nat)) : ∀ done : List (List Nat),
    json_builder_run (frames_text done) calls
      = frames_text (done ++ (calls.filter (fun c => c.1)).map (fun c => c.2)) := by
  induction calls with
  | nil =>
    intro done
    simp [json_builder_run]
  | cons c rest ih =>
    intro done
    obtain ⟨ok, raw⟩ := c
    cases ok with
    | false =>
      show json_builder_run (json_builder false (frames_text done) raw) rest = _
      rw [json_builder_fail, ih done]
      simp
    | true =>
      show json_builder_run (json_builder true (frames_text done) raw) rest = _
      rw [json_builder_text, ih (done ++ [raw])]
      simp

theorem hex_digit_lowercase (d : Nat) :
    (0x30 ≤ hex_digit d ∧ hex_digit d ≤ 0x39) ∨ (0x61 ≤ hex_digit d ∧ hex_digit d ≤ 0x66) := by
  unfold hex_digit
  split_ifs <;> omega

theorem cs_to_hex_digits (raw : List Nat) :
    (cs_to_hex raw).length = 2 * raw.length ∧
    ∀ c ∈ cs_to_hex raw, (0x30 ≤ c ∧ c ≤ 0x39) ∨ (0x61 ≤ c ∧ c ≤ 0x66) := by
  induction raw with
  | nil => exact ⟨rfl, fun c hc => absurd hc (List.not_mem_nil c)⟩
  | cons b rest ih =>
    constructor
    · show (cs_to_hex rest).length + 1 + 1 = 2 * (rest.length + 1)
      rw [ih.1]
      omega
    · intro c hc
      rcases List.mem_cons.mp hc with h | h
      · rw [h]
        exact hex_digit_lowercase _
      · rcases List.mem_cons.mp h with h | h
        · rw [h]
          exact hex_digit_lowercase _
        · exact ih.2 c h

/-- C22 fails: one frame, `01 b9`, is passed to `json_builder` on an empty
response and the `malloc` of that call returns no block: the function returns
at line 116 and the response stays empty, where the claim has the text
`"01b9"`. -/
theorem C22_json_response_counterexample :
    json_builder_run [] [(false, [0x01, 0xb9])] = [] ∧
    frames_text [[0x01, 0xb9]] = [0x22, 0x30, 0x31, 0x62, 0x39, 0x22] ∧
    json_builder_run [] [(false, [0x01, 0xb9])] ≠ frames_text [[0x01, 0xb9]] := by
  decide

/-- C22, amended: after the frames of `calls` have been passed to
`json_builder` in order, starting from an empty response, if every allocation
succeeded the response text is these frames in report order, each rendered as
a double-quoted string of two lowercase hex digits per byte, joined by a comma
followed by CR LF, with nothing before the first or after the last frame. A
call whose allocation fails leaves the response unchanged, so that whatever the
allocations do the text holds, in report order, exactly the frames whose
allocation succeeded. -/
theorem C22_json_response_text (calls : List (Bool × List Nat))
    (hall : ∀ c ∈ calls, c.1 = true) :
    json_builder_run [] calls = frames_text (calls.map (fun c => c.2)) ∧
    (∀ calls2 : List (Bool × List Nat), json_builder_run [] calls2
      = frames_text ((calls2.filter (fun c => c.1)).map (fun c => c.2))) ∧
    (∀ resp raw, json_builder false resp raw = resp) ∧
    (∀ raw, quoted_hex raw = [0x22] ++ cs_to_hex raw ++ [0x22] ∧
      (cs_to_hex raw).length = 2 * raw.length ∧
      ∀ c ∈ cs_to_hex raw, (0x30 ≤ c ∧ c ≤ 0x39) ∨ (0x61 ≤ c ∧ c ≤ 0x66)) ∧
    (∀ f g : List Nat, ∀ rest : List (List Nat),
      frames_text [] = [] ∧ frames_text [f] = quoted_hex f ∧
      frames_text (f :: g :: rest)
        = quoted_hex f ++ [0x2c, 0x0d, 0x0a] ++ frames_text (g :: rest)) := by
  have hgen : ∀ calls2 : List (Bool × List Nat), json_builder_run [] calls2
      = frames_text ((calls2.filter (fun c => c.1)).map (fun c => c.2)) := by
    intro calls2
    have h := json_builder_run_text calls2 []
    rw [List.nil_append] at h
    exact h
  refine ⟨?_, hgen, json_builder_fail, fun raw => ⟨rfl, cs_to_hex_digits raw⟩,
    fun f g rest => ⟨rfl, rfl, rfl⟩⟩
  rw [hgen calls]
  have hf : calls.filter (fun c => c.1) = calls :=
    List.filter_eq_self.mpr (fun c hc => hall c hc)
  rw [hf]

/-- C22, amended, on the frames `01 b9` and `ff`, both allocations
succeeding: the text is `"01b9"`, comma, CR, LF, `"ff"`. -/
theorem C22_json_response_text_witness :
    (∀ c ∈ [(true, [0x01, 0xb9]), (true, [0xff])], c.1 = true) ∧
    json_builder_run [] [(true, [0x01, 0xb9]), (true, [0xff])]
      = frames_text [[0x01, 0xb9], [0xff]] ∧
    frames_text [[0x01, 0xb9], [0xff]]
      = [0x22, 0x30, 0x31, 0x62, 0x39, 0x22, 0x2c, 0x0d, 0x0a, 0x22, 0x66, 0x66, 0x22] ∧
    String.mk ((cs_to_hex [0x01, 0xb9, 0xff]).map Char.ofNat) = "01b9ff" :=
  ⟨by decide,
    (C22_json_response_text [(true, [0x01, 0xb9]), (true, [0xff])] (by decide)).1,
    by decide, by decide⟩

/-! ### The frame assembler is bounded -/

theorem frame_bounded_le (s : cirfsk) (h : frame_bounded s) :
    s.rx_buf_pos ≤ 258 ∧ s.rxbitcount ≤ 3354 := by
  rcases h with ⟨h0, hp⟩ | ⟨_, h26, hp⟩ | ⟨_, hl, hp, hlt⟩
  · omega
  · omega
  · have harl := actual_rx_length_eq _ hl
    omega

theorem cir_rxbit_frame_bounded (s : cirfsk) (bit : Nat) (h : frame_bounded s) :
    frame_bounded (cir_rxbit s bit).1 ∧
    (s.rxbitcount ≠ 0 →
      (cir_rxbit s bit).1.rxbitcount = 0 ∨ (cir_rxbit s bit).1.rxbitcount = s.rxbitcount + 1) := by
  by_cases hs : s.rxbitcount = 0
  · refine ⟨?_, fun hn => absurd hs hn⟩
    have hp : s.rx_buf_pos ≤ 258 := (frame_bounded_le s h).1
    rw [cir_rxbit_searching s bit hs]
    split_ifs
    · exact Or.inr (Or.inl ⟨Nat.le_refl 1, Nat.le_of_ble_eq_true rfl, rfl⟩)
    · exact Or.inl ⟨hs, hp⟩
    · exact Or.inl ⟨hs, hp⟩
  · by_cases hword : s.rxbitcount % 26 = 0
    · have hd := rx_decoded_lt s bit
      rcases cir_rxbit_at_word_cases s bit hs hword with
        ⟨h26, _, he⟩ | ⟨h26, hnz, he⟩ | ⟨h26, hfull, _, he⟩ | ⟨h26, hfull, _, he⟩ | ⟨h26, hne, he⟩
      · rw [he]
        refine ⟨Or.inl ⟨rfl, ?_⟩, fun _ => Or.inl rfl⟩
        show s.rx_buf_pos + 2 ≤ 258
        rcases h with ⟨h0, _⟩ | ⟨_, _, hp⟩ | ⟨h27, _⟩ <;> omega
      · rw [he]
        refine ⟨Or.inr (Or.inr ⟨?_, ?_, ?_, ?_⟩), fun _ => Or.inr rfl⟩
        · show 27 ≤ s.rxbitcount + 1
          omega
        · show rx_decoded s bit % 2 ^ 8 < 256
          omega
        · show s.rx_buf_pos + 2 = 2 * ((s.rxbitcount + 1 - 1) / 26)
          rcases h with ⟨h0, _⟩ | ⟨_, _, hp⟩ | ⟨h27, _⟩ <;> omega
        · show s.rx_buf_pos + 2 < actual_rx_length (rx_decoded s bit % 2 ^ 8)
          have harl := actual_rx_length_eq (rx_decoded s bit % 2 ^ 8) (by omega)
          rcases h with ⟨h0, _⟩ | ⟨_, _, hp⟩ | ⟨h27, _⟩ <;> omega
      · rw [he]
        refine ⟨Or.inl ⟨rfl, ?_⟩, fun _ => Or.inl rfl⟩
        show s.rx_buf_pos + 2 ≤ 258
        rcases h with ⟨h0, _⟩ | ⟨_, _, hp⟩ | ⟨_, hl, _, _⟩
        · omega
        · omega
        · have harl := actual_rx_length_eq _ hl
          omega
      · rw [he]
        refine ⟨Or.inl ⟨rfl, ?_⟩, fun _ => Or.inl rfl⟩
        show s.rx_buf_pos + 2 ≤ 258
        rcases h with ⟨h0, _⟩ | ⟨_, _, hp⟩ | ⟨_, hl, _, _⟩
        · omega
        · omega
        · have harl := actual_rx_length_eq _ hl
          omega
      · rw [he]
        refine ⟨Or.inr (Or.inr ?_), fun _ => Or.inr rfl⟩
        show 27 ≤ s.rxbitcount + 1 ∧ s.rxlength < 256 ∧
          s.rx_buf_pos + 2 = 2 * ((s.rxbitcount + 1 - 1) / 26) ∧
          s.rx_buf_pos + 2 < actual_rx_length s.rxlength
        rcases h with ⟨h0, _⟩ | ⟨_, _, hp⟩ | ⟨_, hl, hp, hlt⟩
        · omega
        · omega
        · have harl := actual_rx_length_eq _ hl
          omega
    · rw [cir_rxbit_in_word s bit hword]
      refine ⟨?_, fun _ => Or.inr rfl⟩
      rcases h with ⟨h0, _⟩ | ⟨h1, h26, hp⟩ | ⟨h27, hl, hp, hlt⟩
      · exact absurd h0 hs
      · refine Or.inr (Or.inl ⟨?_, ?_, hp⟩)
        · show 1 ≤ s.rxbitcount + 1
          omega
        · show s.rxbitcount + 1 ≤ 26
          omega
      · refine Or.inr (Or.inr ⟨?_, hl, ?_, hlt⟩)
        · show 27 ≤ s.rxbitcount + 1
          omega
        · show s.rx_buf_pos = 2 * ((s.rxbitcount + 1 - 1) / 26)
          omega

theorem cir_rxbits_frame_bounded (bits : List Nat) : ∀ s : cirfsk, frame_bounded s →
    frame_bounded (cir_rxbits s bits).1 := by
  induction bits with
  | nil => intro s h; exact h
  | cons b bs ih =>
    intro s h
    exact ih _ (cir_rxbit_frame_bounded s b h).1

/-- A collecting decoder is back in the searching state before its bit counter
could pass 3354. -/
theorem cir_rxbits_returns (bits : List Nat) : ∀ s : cirfsk, frame_bounded s →
    s.rxbitcount ≠ 0 → 3354 < bits.length + s.rxbitcount →
    ∃ m, 1 ≤ m ∧ m ≤ bits.length ∧ m + s.rxbitcount ≤ 3355 ∧
      (cir_rxbits s (bits.take m)).1.rxbitcount = 0 := by
  induction bits with
  | nil =>
    intro s h _ hlen
    have hb := (frame_bounded_le s h).2
    have hl : ([] : List Nat).length = 0 := rfl
    omega
  | cons b bs ih =>
    intro s h hs hlen
    have hb := (frame_bounded_le s h).2
    obtain ⟨hinv, hstep⟩ := cir_rxbit_frame_bounded s b h
    have hl : (b :: bs).length = bs.length + 1 := rfl
    rcases hstep hs with h0 | h1
    · exact ⟨1, Nat.le_refl 1, by omega, by omega, h0⟩
    · obtain ⟨m, hm1, hm2, hm3, hm4⟩ := ih (cir_rxbit s b).1 hinv (by omega) (by omega)
      exact ⟨m + 1, by omega, by omega, by omega, hm4⟩

/-- The bounds 3354 and 258 are attained: after a lock, a header word with
length byte 255 and 128 further words, the last word is taken at
`rxbitcount = 3354` and leaves `rx_buf_pos = 258`. -/
theorem frame_bound_attained :
    (cir_rxbits (cir_rxbit (sync_state 0x6ea12cf 0x2aaaaaad) 1).1
      ((word_bits (bch_encode 0x01ff :: List.replicate 128 0)).take 3353)).1.rxbitcount
        = 3354 ∧
    (cir_rxbits (cir_rxbit (sync_state 0x6ea12cf 0x2aaaaaad) 1).1
      (word_bits (bch_encode 0x01ff :: List.replicate 128 0))).1.rx_buf_pos = 258 := by
  have hlock : (cir_rxbit (sync_state 0x6ea12cf 0x2aaaaaad) 1).1.rxbitcount = 1 := by
    decide!
  have hcol := collected_after_lock (sync_state 0x6ea12cf 0x2aaaaaad) 1 rfl hlock
  have hd : word_decoded (bch_encode 0x01ff) % 256 = 255 := by
    decide!
  have hw0 : bch_encode 0x01ff < 2 ^ 26 := by
    decide!
  have hws : ∀ w ∈ bch_encode 0x01ff :: List.replicate 128 0, w < 2 ^ 26 := by
    intro w hw
    rcases List.mem_cons.mp hw with h | h
    · rw [h]
      exact hw0
    · rw [List.eq_of_mem_replicate h]
      exact Nat.two_pow_pos 26
  have hfull : 2 * ((List.replicate 128 0).length + 1)
      = actual_rx_length (word_decoded (bch_encode 0x01ff) % 256) := by
    rw [List.length_replicate, hd]
    decide
  have hn : word_decoded (bch_encode 0x01ff) % 256 ≠ 0 := by
    rw [hd]
    decide
  constructor
  · exact (collecting_before_full _ _ _ hcol hws hn hfull 3353
      (by rw [List.length_replicate]; decide)).1
  · have h := (completed_words _ _ _ hcol hws hn hfull).2.1
    rw [h, hd]
    decide

/-- C21: a malformed or noisy frame never stalls the decoder. In every state
reached from a lock, and in every state reached from an initialised decoder,
for any input bits, `rx_buf_pos` is at most `actual_rx_length 255 = 258` and
`rxbitcount` at most `26 * 129 = 3354`; so among the first 3354 bits that follow
a lock, that is within 129 codewords, there is one after which the decoder is
back in the searching state. -/
theorem C21_frame_never_stalls (s0 : cirfsk) (b : Nat) (bits : List Nat)
    (hs0 : s0.rxbitcount = 0) (hlock : (cir_rxbit s0 b).1.rxbitcount = 1) :
    actual_rx_length 255 = 258 ∧ 26 * 129 = 3354 ∧
    (cir_rxbits (cir_rxbit s0 b).1 bits).1.rx_buf_pos ≤ 258 ∧
    (cir_rxbits (cir_rxbit s0 b).1 bits).1.rxbitcount ≤ 3354 ∧
    (3354 ≤ bits.length → ∃ m, 1 ≤ m ∧ m ≤ 3354 ∧
      (cir_rxbits (cir_rxbit s0 b).1 (bits.take m)).1.rxbitcount = 0) ∧
    (∀ s1 : cirfsk, (cir_rxbits (cir_init s1) bits).1.rx_buf_pos ≤ 258 ∧
      (cir_rxbits (cir_init s1) bits).1.rxbitcount ≤ 3354) := by
  have hpos : (cir_rxbit s0 b).1.rx_buf_pos = 0 := (collected_after_lock s0 b hs0 hlock).2.2.1
  have hinv : frame_bounded (cir_rxbit s0 b).1 :=
    Or.inr (Or.inl ⟨by rw [hlock], by rw [hlock]; decide, hpos⟩)
  have hle := frame_bounded_le _ (cir_rxbits_frame_bounded bits _ hinv)
  refine ⟨by decide, by decide, hle.1, hle.2, ?_, ?_⟩
  · intro hlen
    obtain ⟨m, hm1, _, hm3, hm4⟩ := cir_rxbits_returns bits _ hinv (by rw [hlock]; decide)
      (by rw [hlock]; omega)
    rw [hlock] at hm3
    exact ⟨m, hm1, by omega, hm4⟩
  · intro s1
    have hinit : frame_bounded (cir_init s1) := Or.inl ⟨rfl, Nat.zero_le 258⟩
    exact frame_bounded_le _ (cir_rxbits_frame_bounded bits _ hinit)

/-- C21 on the lock from the window `0x2aaaaaad 06ea12cf` followed by 3354
zero bits. -/
theorem C21_frame_never_stalls_witness :
    (sync_state 0x6ea12cf 0x2aaaaaad).rxbitcount = 0 ∧
    (cir_rxbit (sync_state 0x6ea12cf 0x2aaaaaad) 1).1.rxbitcount = 1 ∧
    (cir_rxbits (cir_rxbit (sync_state 0x6ea12cf 0x2aaaaaad) 1).1
      (List.replicate 3354 0)).1.rx_buf_pos ≤ 258 ∧
    (cir_rxbits (cir_rxbit (sync_state 0x6ea12cf 0x2aaaaaad) 1).1
      (List.replicate 3354 0)).1.rxbitcount ≤ 3354 ∧
    ∃ m, 1 ≤ m ∧ m ≤ 3354 ∧
      (cir_rxbits (cir_rxbit (sync_state 0x6ea12cf 0x2aaaaaad) 1).1
        ((List.replicate 3354 0).take m)).1.rxbitcount = 0 := by
  have hlock : (cir_rxbit (sync_state 0x6ea12cf 0x2aaaaaad) 1).1.rxbitcount = 1 := by
    decide!
  obtain ⟨_, _, h1, h2, h3, _⟩ := C21_frame_never_stalls (sync_state 0x6ea12cf 0x2aaaaaad) 1
    (List.replicate 3354 0) rfl hlock
  exact ⟨rfl, hlock, h1, h2, h3 (by rw [List.length_replicate])⟩

/-! ### A frame in progress, bit by bit -/

theorem take_succ_getD (l : List Nat) : ∀ m, m < l.length →
    l.take (m + 1) = l.take m ++ [l.getD m 0] := by
  induction l with
  | nil =>
    intro m h
    simp at h
  | cons a l ih =>
    intro m h
    cases m with
    | zero => rfl
    | succ m =>
      show a :: l.take (m + 1) = a :: (l.take m ++ [l.getD m 0])
      rw [ih m (by simpa using h)]

theorem cir_rxbits_take_succ (s : cirfsk) (bits : List Nat) (m : Nat) (h : m < bits.length) :
    (cir_rxbits s (bits.take (m + 1))).1
      = (cir_rxbit (cir_rxbits s (bits.take m)).1 (bits.getD m 0)).1 ∧
    (cir_rxbits s (bits.take (m + 1))).2
      = (cir_rxbits s (bits.take m)).2
        ++ (cir_rxbit (cir_rxbits s (bits.take m)).1 (bits.getD m 0)).2 := by
  rw [take_succ_getD bits m h, cir_rxbits_append_state, cir_rxbits_append_events]
  simp [cir_rxbits]

/-- What one call does while collecting: the sync window is not touched, no
sync line is printed, and the counter goes up by one or back to 0. -/
theorem cir_rxbit_collecting (s : cirfsk) (bit : Nat) (hs : s.rxbitcount ≠ 0) :
    (cir_rxbit s bit).1.sync_buffer0 = s.sync_buffer0 ∧
    (cir_rxbit s bit).1.sync_buffer1 = s.sync_buffer1 ∧
    (∀ e ∈ (cir_rxbit s bit).2,
      (∀ pe fe, e ≠ Event.sync_ok pe fe) ∧ (∀ pe fe a c, e ≠ Event.sync_error pe fe a c)) ∧
    (s.rxbitcount % 26 ≠ 0 →
      (cir_rxbit s bit).1.rxbitcount = s.rxbitcount + 1 ∧
      (cir_rxbit s bit).1.rxbitstream = rx_word s bit ∧
      (cir_rxbit s bit).1.rxlength = s.rxlength ∧ (cir_rxbit s bit).2 = [] ∧
      (cir_rxbit s bit).1.rx_buf_pos = s.rx_buf_pos) ∧
    (s.rxbitcount % 26 = 0 →
      ((cir_rxbit s bit).1.rxbitcount = 0 ∨ (cir_rxbit s bit).1.rxbitcount = s.rxbitcount + 1) ∧
      (cir_rxbit s bit).1.rxbitstream = 0 ∧
      (s.rxbitcount = 26 → (cir_rxbit s bit).1.rxlength = rx_decoded s bit % 256) ∧
      (s.rxbitcount ≠ 26 → (cir_rxbit s bit).1.rxlength = s.rxlength) ∧
      (cir_rxbit s bit).1.rx_buf_pos = s.rx_buf_pos + 2 ∧
      ∃ tail, (cir_rxbit s bit).2 = rx_trace s bit :: tail) := by
  by_cases hword : s.rxbitcount % 26 = 0
  · rcases cir_rxbit_at_word_cases s bit hs hword with
      ⟨h26, _, he⟩ | ⟨h26, _, he⟩ | ⟨h26, _, _, he⟩ | ⟨h26, _, _, he⟩ | ⟨h26, _, he⟩
    · rw [he]
      refine ⟨rfl, rfl, by simp [rx_trace], fun h => absurd hword h,
        fun _ => ⟨Or.inl rfl, rfl, fun _ => rfl, fun h => absurd h26 h, rfl, _, rfl⟩⟩
    · rw [he]
      refine ⟨rfl, rfl, by simp [rx_trace], fun h => absurd hword h,
        fun _ => ⟨Or.inr rfl, rfl, fun _ => rfl, fun h => absurd h26 h, rfl, _, rfl⟩⟩
    · rw [he]
      refine ⟨rfl, rfl, by simp [rx_trace], fun h => absurd hword h,
        fun _ => ⟨Or.inl rfl, rfl, fun h => absurd h h26, fun _ => rfl, rfl, _, rfl⟩⟩
    · rw [he]
      refine ⟨rfl, rfl, by simp [rx_trace], fun h => absurd hword h,
        fun _ => ⟨Or.inl rfl, rfl, fun h => absurd h h26, fun _ => rfl, rfl, _, rfl⟩⟩
    · rw [he]
      refine ⟨rfl, rfl, by simp [rx_trace], fun h => absurd hword h,
        fun _ => ⟨Or.inr rfl, rfl, fun h => absurd h h26, fun _ => rfl, rfl, _, rfl⟩⟩
  · rw [cir_rxbit_in_word s bit hword]
    exact ⟨rfl, rfl, by simp, fun _ => ⟨rfl, rfl, rfl, rfl, rfl⟩, fun h => absurd h hword⟩

theorem shift_in_snoc (a : Nat) (l : List Nat) (b : Nat) :
    shift_in a (l ++ [b]) = 2 * shift_in a l + b := by
  unfold shift_in
  rw [List.foldl_append]
  rfl

theorem shift_in_lt (l : List Nat) (h : ∀ b ∈ l, b < 2) : shift_in 0 l < 2 ^ l.length := by
  induction l using List.reverseRecOn with
  | nil =>
    show 0 < 2 ^ 0
    decide
  | append_singleton l b ih =>
    have hb : b < 2 := h b (List.mem_append_right _ (List.mem_singleton.mpr rfl))
    have hl := ih (fun x hx => h x (List.mem_append_left _ hx))
    rw [shift_in_snoc, List.length_append, List.length_singleton, Nat.pow_succ]
    omega

/-- The first bit of a list is the most significant bit of the number it is
shifted into. -/
theorem shift_in_testBit (l : List Nat) (h : ∀ b ∈ l, b < 2) : ∀ i, i < l.length →
    (shift_in 0 l).testBit (l.length - 1 - i) = decide (l.getD i 0 = 1) := by
  induction l using List.reverseRecOn with
  | nil =>
    intro i hi
    simp at hi
  | append_singleton l b ih =>
    intro i hi
    have hb : b < 2 := h b (List.mem_append_right _ (List.mem_singleton.mpr rfl))
    have hlen : (l ++ [b]).length = l.length + 1 := by simp
    rw [hlen] at hi
    rw [shift_in_snoc, hlen]
    by_cases hlast : i = l.length
    · have hpos : l.length + 1 - 1 - i = 0 := by omega
      have hget : (l ++ [b]).getD i 0 = b := by
        rw [hlast]
        simp
      rw [hpos, hget, Nat.testBit_zero]
      have hmod : (2 * shift_in 0 l + b) % 2 = b := by omega
      rw [hmod]
    · have hil : i < l.length := by omega
      have hpos : l.length + 1 - 1 - i = (l.length - 1 - i) + 1 := by omega
      have hget : (l ++ [b]).getD i 0 = l.getD i 0 := by
        rw [List.getD_eq_getElem _ _ (by rw [hlen]; omega), List.getD_eq_getElem _ _ hil,
          List.getElem_append_left hil]
      have hdiv : (2 * shift_in 0 l + b) / 2 = shift_in 0 l := by omega
      rw [hpos, hget, Nat.testBit_succ, hdiv]
      exact ih (fun x hx => h x (List.mem_append_left _ hx)) i hil

theorem segment_getD (bits : List Nat) (k i : Nat) (hk : 1 ≤ k) (hlen : 26 * k ≤ bits.length)
    (hi : i < 26) :
    ((bits.take (26 * k)).drop (26 * (k - 1))).getD i 0 = bits.getD (26 * (k - 1) + i) 0 ∧
    ((bits.take (26 * k)).drop (26 * (k - 1))).length = 26 := by
  have hl : ((bits.take (26 * k)).drop (26 * (k - 1))).length = 26 := by
    rw [List.length_drop, List.length_take]
    omega
  refine ⟨?_, hl⟩
  rw [List.getD_eq_getElem _ _ (by rw [hl]; exact hi), List.getD_eq_getElem _ _ (by omega)]
  simp [List.getElem_drop, List.getElem_take]

theorem rx_decoded_eq_word_decoded (s : cirfsk) (bit : Nat) :
    rx_decoded s bit = word_decoded (rx_word s bit) := rfl

theorem rx_errors_eq_word_errors (s : cirfsk) (bit : Nat) :
    rx_errors s bit = word_errors (rx_word s bit) := rfl

/-- The accumulator takes one more bit of the current 26-bit segment. -/
theorem rx_word_segment (bits : List Nat) (hbits : ∀ b ∈ bits, b < 2) (t : cirfsk) (m : Nat)
    (hm : m < bits.length)
    (hacc : t.rxbitstream = shift_in 0 ((bits.take m).drop (26 * (m / 26)))) :
    rx_word t (bits.getD m 0)
      = shift_in 0 ((bits.take (m + 1)).drop (26 * (m / 26))) ∧
    rx_word t (bits.getD m 0) < 2 ^ 26 := by
  have hseglen : ((bits.take m).drop (26 * (m / 26))).length = m % 26 := by
    rw [List.length_drop, List.length_take]
    omega
  have hsegbits : ∀ b ∈ (bits.take m).drop (26 * (m / 26)), b < 2 :=
    fun b hb => hbits b (List.mem_of_mem_take (List.mem_of_mem_drop hb))
  have hlt := shift_in_lt _ hsegbits
  rw [hseglen] at hlt
  have hle : 2 ^ (m % 26) ≤ 2 ^ 25 := Nat.pow_le_pow_right (by decide) (by omega)
  have hb : bits.getD m 0 < 2 := by
    rw [List.getD_eq_getElem _ _ hm]
    exact hbits _ (List.getElem_mem _)
  obtain ⟨hw, hw2⟩ := rx_word_eq t (bits.getD m 0) 25 hb (by rw [hacc]; omega) (by decide)
  refine ⟨?_, hw2⟩
  rw [hw, hacc, take_succ_getD bits m hm,
    List.drop_append_of_le_length (by rw [List.length_take]; omega), shift_in_snoc]

/-- The decoder after the first `m` bits that follow a lock, as long as it
was collecting before each of them: the counter is `m + 1` (or 0, if the bit
just taken closed the frame), the accumulator holds the bits of the open
26-bit segment, the window is as the lock left it, no sync line was printed,
`rxlength` changed once, on bit 26, and two bytes are stored per whole
segment. -/
theorem collecting_bits (bits : List Nat) (hbits : ∀ b ∈ bits, b < 2) (s : cirfsk)
    (hc : s.rxbitcount = 1) (hz : s.rxbitstream = 0) (hp : s.rx_buf_pos = 0) :
    ∀ m, m ≤ bits.length →
    (∀ j, j < m → (cir_rxbits s (bits.take j)).1.rxbitcount ≠ 0) →
    ((cir_rxbits s (bits.take m)).1.rxbitcount = m + 1 ∨
      ((cir_rxbits s (bits.take m)).1.rxbitcount = 0 ∧ 0 < m ∧ m % 26 = 0)) ∧
    ((cir_rxbits s (bits.take m)).1.rxbitcount ≠ 0 →
      (cir_rxbits s (bits.take m)).1.rxbitstream
        = shift_in 0 ((bits.take m).drop (26 * (m / 26)))) ∧
    (cir_rxbits s (bits.take m)).1.sync_buffer0 = s.sync_buffer0 ∧
    (cir_rxbits s (bits.take m)).1.sync_buffer1 = s.sync_buffer1 ∧
    (∀ e ∈ (cir_rxbits s (bits.take m)).2,
      (∀ pe fe, e ≠ Event.sync_ok pe fe) ∧ (∀ pe fe a c, e ≠ Event.sync_error pe fe a c)) ∧
    (m < 26 → (cir_rxbits s (bits.take m)).1.rxlength = s.rxlength) ∧
    (26 ≤ m → (cir_rxbits s (bits.take m)).1.rxlength
      = word_decoded (shift_in 0 (bits.take 26)) % 256) ∧
    (cir_rxbits s (bits.take m)).1.rx_buf_pos = 2 * (m / 26) := by
  intro m
  induction m with
  | zero =>
    intro _ _
    refine ⟨Or.inl hc, fun _ => hz, rfl, rfl, ?_, fun _ => rfl, fun h => absurd h (by decide),
      hp⟩
    intro e he
    exact absurd he (List.not_mem_nil e)
  | succ m ih =>
    intro hm hcoll
    obtain ⟨hcnt, hacc, hw0, hw1, hev, hlo, hhi, hpos⟩ :=
      ih (by omega) (fun j hj => hcoll j (by omega))
    have ht0 : (cir_rxbits s (bits.take m)).1.rxbitcount ≠ 0 := hcoll m (Nat.lt_succ_self m)
    have hcnt1 : (cir_rxbits s (bits.take m)).1.rxbitcount = m + 1 := by
      rcases hcnt with h | ⟨h, _⟩
      · exact h
      · exact absurd h ht0
    have hacc1 := hacc ht0
    obtain ⟨hst, hevs⟩ := cir_rxbits_take_succ s bits m hm
    obtain ⟨hword, hwlt⟩ := rx_word_segment bits hbits _ m hm hacc1
    obtain ⟨c0, c1, cev, cin, cat⟩ :=
      cir_rxbit_collecting (cir_rxbits s (bits.take m)).1 (bits.getD m 0) ht0
    rw [hst, hevs, c0, c1]
    have hevents : ∀ e ∈ (cir_rxbits s (bits.take m)).2
        ++ (cir_rxbit (cir_rxbits s (bits.take m)).1 (bits.getD m 0)).2,
        (∀ pe fe, e ≠ Event.sync_ok pe fe) ∧ (∀ pe fe a c, e ≠ Event.sync_error pe fe a c) := by
      intro e he
      rcases List.mem_append.mp he with h | h
      · exact hev e h
      · exact cev e h
    by_cases hmod : (m + 1) % 26 = 0
    · obtain ⟨d1, d2, d3, d4, d5, _⟩ := cat (by rw [hcnt1]; exact hmod)
      refine ⟨?_, ?_, hw0, hw1, hevents, fun h => by omega, ?_, by rw [d5, hpos]; omega⟩
      · rcases d1 with h | h
        · exact Or.inr ⟨h, Nat.succ_pos m, hmod⟩
        · exact Or.inl (by rw [h, hcnt1])
      · intro _
        have hd : 26 * ((m + 1) / 26) = m + 1 := by omega
        rw [d2, hd, List.drop_eq_nil_of_le (by rw [List.length_take]; omega)]
        rfl
      · intro _
        by_cases h26 : m + 1 = 26
        · have hm25 : m = 25 := by omega
          rw [d3 (by rw [hcnt1, h26]), rx_decoded_eq_word_decoded, hword, hm25]
          rfl
        · rw [d4 (by rw [hcnt1]; exact h26)]
          exact hhi (by omega)
    · obtain ⟨d1, d2, d3, _, d5⟩ := cin (by rw [hcnt1]; exact hmod)
      have hdiv : (m + 1) / 26 = m / 26 := by omega
      refine ⟨Or.inl (by rw [d1, hcnt1]), fun _ => by rw [d2, hword, hdiv], hw0, hw1, hevents,
        fun h => by rw [d3]; exact hlo (by omega), fun h => by rw [d3]; exact hhi (by omega),
        by rw [d5, hpos, hdiv]⟩

/-- What the call that declares lock leaves behind. -/
theorem cir_rxbit_lock (s : cirfsk) (b : Nat) (hs : s.rxbitcount = 0)
    (hlock : (cir_rxbit s b).1.rxbitcount = 1) :
    (cir_rxbit s b).1.rxbitstream = 0 ∧ (cir_rxbit s b).1.rx_buf_pos = 0 ∧
    (cir_rxbit s b).1.sync_buffer0 = 0 ∧ (cir_rxbit s b).1.sync_buffer1 = 0 ∧
    (cir_rxbit s b).1.rxlength = s.rxlength ∧
    ∃ pe fe, (cir_rxbit s b).2 = [Event.sync_ok pe fe] := by
  rw [cir_rxbit_searching s b hs] at hlock ⊢
  split_ifs at hlock ⊢
  · exact ⟨rfl, rfl, rfl, rfl, rfl, _, _, rfl⟩
  · simp [hs] at hlock
  · simp [hs] at hlock

/-- C25: after a lock the bit stream is cut into 26-bit codewords. As long as
the frame is in progress (the decoder was collecting before each of the first
`26 * k` bits that follow the lock-triggering bit, `k ≥ 1`): before bit `j + 1`
the bit counter is `j + 1` and `j / 26` words have been decoded, and a bit whose
number is not a multiple of 26 prints and decodes nothing; the `k`-th call of
`decode_BCH_26_16` is made on bit `26 * k`, and its argument is made of exactly
the bits numbered `26 * (k - 1) + 1 .. 26 * k`, the earliest in bit 25 and the
latest in bit 0, with no bit above bit 25 set; after that bit the accumulator
is 0 again. -/
theorem C25_codeword_partition (s0 : cirfsk) (b0 : Nat) (bits : List Nat) (k : Nat)
    (hs0 : s0.rxbitcount = 0) (hlock : (cir_rxbit s0 b0).1.rxbitcount = 1)
    (hbits : ∀ b ∈ bits, b < 2) (hk : 1 ≤ k) (hlen : 26 * k ≤ bits.length)
    (hframe : ∀ j, j < 26 * k →
      (cir_rxbits (cir_rxbit s0 b0).1 (bits.take j)).1.rxbitcount ≠ 0) :
    (∀ j, j < 26 * k →
      (cir_rxbits (cir_rxbit s0 b0).1 (bits.take j)).1.rxbitcount = j + 1 ∧
      words_since_lock (cir_rxbits (cir_rxbit s0 b0).1 (bits.take j)).2 0 = j / 26 ∧
      ((j + 1) % 26 ≠ 0 →
        (cir_rxbit (cir_rxbits (cir_rxbit s0 b0).1 (bits.take j)).1 (bits.getD j 0)).2 = [])) ∧
    (∃ tail,
      (cir_rxbit (cir_rxbits (cir_rxbit s0 b0).1 (bits.take (26 * k - 1))).1
          (bits.getD (26 * k - 1) 0)).2
        = Event.word (2 * (k - 1))
            (shift_in 0 ((bits.take (26 * k)).drop (26 * (k - 1))) >>> 10)
            (if word_errors (shift_in 0 ((bits.take (26 * k)).drop (26 * (k - 1)))) ≥ 3
              then none
              else some (decode_BCH_26_16
                (shift_in 0 ((bits.take (26 * k)).drop (26 * (k - 1)))) 0).2)
            (decode_BCH_26_16 (shift_in 0 ((bits.take (26 * k)).drop (26 * (k - 1)))) 0).1
          :: tail) ∧
    rx_word (cir_rxbits (cir_rxbit s0 b0).1 (bits.take (26 * k - 1))).1
        (bits.getD (26 * k - 1) 0)
      = shift_in 0 ((bits.take (26 * k)).drop (26 * (k - 1))) ∧
    shift_in 0 ((bits.take (26 * k)).drop (26 * (k - 1))) < 2 ^ 26 ∧
    (∀ i, i < 26 →
      (shift_in 0 ((bits.take (26 * k)).drop (26 * (k - 1)))).testBit (25 - i)
        = decide (bits.getD (26 * (k - 1) + i) 0 = 1)) ∧
    words_since_lock (cir_rxbits (cir_rxbit s0 b0).1 (bits.take (26 * k))).2 0 = k ∧
    (cir_rxbits (cir_rxbit s0 b0).1 (bits.take (26 * k))).1.rxbitstream = 0 := by
  obtain ⟨hz, hp, _⟩ := cir_rxbit_lock s0 b0 hs0 hlock
  have hinv := collecting_bits bits hbits (cir_rxbit s0 b0).1 hlock hz hp
  have hcount : ∀ m, (cir_rxbits (cir_rxbit s0 b0).1 (bits.take m)).1.rx_buf_pos
      = 2 * words_since_lock (cir_rxbits (cir_rxbit s0 b0).1 (bits.take m)).2 0 :=
    fun m => cir_rxbits_pos_count (bits.take m) _ 0 hp
  have e1 : 26 * k - 1 + 1 = 26 * k := by omega
  have e2 : (26 * k - 1) / 26 = k - 1 := by omega
  have hfr1 : ∀ j, j < 26 * k - 1 →
      (cir_rxbits (cir_rxbit s0 b0).1 (bits.take j)).1.rxbitcount ≠ 0 :=
    fun j hj => hframe j (by omega)
  obtain ⟨hcnt, hacc, _, _, _, _, _, hpos⟩ := hinv (26 * k - 1) (by omega) hfr1
  have ht0 := hframe (26 * k - 1) (by omega)
  have hcnt1 : (cir_rxbits (cir_rxbit s0 b0).1 (bits.take (26 * k - 1))).1.rxbitcount
      = 26 * k := by
    rcases hcnt with h | ⟨h, _⟩
    · omega
    · exact absurd h ht0
  obtain ⟨hword, hwlt⟩ := rx_word_segment bits hbits _ (26 * k - 1) (by omega) (hacc ht0)
  rw [e1, e2] at hword
  obtain ⟨_, _, _, _, cat⟩ := cir_rxbit_collecting
    (cir_rxbits (cir_rxbit s0 b0).1 (bits.take (26 * k - 1))).1 (bits.getD (26 * k - 1) 0) ht0
  obtain ⟨_, d2, _, _, _, tail, htail⟩ := cat (by rw [hcnt1]; omega)
  obtain ⟨hst, _⟩ := cir_rxbits_take_succ (cir_rxbit s0 b0).1 bits (26 * k - 1) (by omega)
  rw [e1] at hst
  refine ⟨?_, ⟨tail, ?_⟩, hword, by rw [← hword]; exact hwlt, ?_, ?_, by rw [hst]; exact d2⟩
  · intro j hj
    obtain ⟨c1, _, _, _, _, _, _, c8⟩ := hinv j (by omega) (fun i hi => hframe i (by omega))
    have hj0 := hframe j hj
    have hc : (cir_rxbits (cir_rxbit s0 b0).1 (bits.take j)).1.rxbitcount = j + 1 := by
      rcases c1 with h | ⟨h, _⟩
      · exact h
      · exact absurd h hj0
    refine ⟨hc, ?_, ?_⟩
    · have h := hcount j
      omega
    · intro hmod
      exact ((cir_rxbit_collecting _ (bits.getD j 0) hj0).2.2.2.1 (by rw [hc]; exact hmod)).2.2.2.1
  · rw [htail]
    unfold rx_trace
    rw [rx_errors_eq_word_errors, hword, hpos, e2]
    rfl
  · intro i hi
    obtain ⟨hget, hl⟩ := segment_getD bits k i hk hlen hi
    have h := shift_in_testBit ((bits.take (26 * k)).drop (26 * (k - 1)))
      (fun b hb => hbits b (List.mem_of_mem_take (List.mem_of_mem_drop hb))) i
      (by rw [hl]; exact hi)
    rw [hl, hget] at h
    exact h
  · obtain ⟨_, _, _, _, _, _, _, c8⟩ := hinv (26 * k) hlen hframe
    have h := hcount (26 * k)
    omega

set_option maxRecDepth 16384 in
/-- C25 on the 78 bits of `good_words` after the lock from the window
`0x2aaaaaad 06ea12cf`: the third call of `decode_BCH_26_16` is made on bit 78
with the codeword of `0xb9b2` as its argument. -/
theorem C25_codeword_partition_witness :
    (sync_state 0x6ea12cf 0x2aaaaaad).rxbitcount = 0 ∧
    (cir_rxbit (sync_state 0x6ea12cf 0x2aaaaaad) 1).1.rxbitcount = 1 ∧
    (∀ b ∈ word_bits good_words, b < 2) ∧ 1 ≤ 3 ∧ 26 * 3 ≤ (word_bits good_words).length ∧
    (∀ j, j < 26 * 3 → (cir_rxbits (cir_rxbit (sync_state 0x6ea12cf 0x2aaaaaad) 1).1
      ((word_bits good_words).take j)).1.rxbitcount ≠ 0) ∧
    rx_word (cir_rxbits (cir_rxbit (sync_state 0x6ea12cf 0x2aaaaaad) 1).1
        ((word_bits good_words).take (26 * 3 - 1))).1 ((word_bits good_words).getD (26 * 3 - 1) 0)
      = shift_in 0 (((word_bits good_words).take (26 * 3)).drop (26 * (3 - 1))) ∧
    shift_in 0 (((word_bits good_words).take (26 * 3)).drop (26 * (3 - 1)))
      = bch_encode 0xb9b2 ∧
    words_since_lock (cir_rxbits (cir_rxbit (sync_state 0x6ea12cf 0x2aaaaaad) 1).1
      ((word_bits good_words).take (26 * 3))).2 0 = 3 := by
  have hlock : (cir_rxbit (sync_state 0x6ea12cf 0x2aaaaaad) 1).1.rxbitcount = 1 := by
    decide!
  have hbits : ∀ b ∈ word_bits good_words, b < 2 := by
    decide!
  have hlen : 26 * 3 ≤ (word_bits good_words).length := by
    decide!
  have hframe : ∀ j, j < 26 * 3 →
      (cir_rxbits (cir_rxbit (sync_state 0x6ea12cf 0x2aaaaaad) 1).1
        ((word_bits good_words).take j)).1.rxbitcount ≠ 0 := by
    decide!
  have harg : shift_in 0 (((word_bits good_words).take (26 * 3)).drop (26 * (3 - 1)))
      = bch_encode 0xb9b2 := by
    decide!
  obtain ⟨_, _, h3, _, _, h6, _⟩ := C25_codeword_partition (sync_state 0x6ea12cf 0x2aaaaaad) 1
    (word_bits good_words) 3 rfl hlock hbits (by decide) hlen hframe
  exact ⟨rfl, hlock, hbits, by decide, hlen, hframe, h3, harg, h6⟩

set_option maxRecDepth 65536 in
/-- C26 fails: a zeroed decoder is fed a good frame of expected length 4 and
then preamble and frame sync again. The last bit declares the second lock
(`rxbitcount = 1`), and `rxlength` is still 4 from the first frame, not 0; ten
bits into the second frame it is still 4. -/
theorem C26_expected_length_counterexample :
    good_frames (cir_rxbits zero_state relock_bits).2 = [[0x01, 0x04, 0x12, 0x34, 0xb9, 0xb2]] ∧
    (cir_rxbits zero_state (relock_bits.take 243)).1.rxbitcount = 0 ∧
    (cir_rxbits zero_state relock_bits).1.rxbitcount = 1 ∧
    (cir_rxbits zero_state relock_bits).1.rxlength = 4 ∧
    (cir_rxbits zero_state relock_bits).1.rxlength ≠ 0 ∧
    (cir_rxbits zero_state (relock_bits ++ List.replicate 10 1)).1.rxbitcount = 11 ∧
    (cir_rxbits zero_state (relock_bits ++ List.replicate 10 1)).1.rxlength = 4 := by
  decide!

/-- C30: while collecting (`rxbitcount ≥ 1`) a call of `cir_rxbit` leaves the
sync window as it is, does not declare lock and prints no sync line, whatever
the window and the bit are. Hence in a frame in progress (the decoder was
collecting before each of the `m` bits taken since the lock) the window is
still all zeros as the lock left it, also when the `m`-th bit returns the
decoder to searching; no lock was declared among these bits, whatever they
are; and the frame was not cut short: the bit counter is `m + 1`, or 0 if bit
`m` closed a codeword. -/
theorem C30_collecting_ignores_sync (s : cirfsk) (bit : Nat) (s0 : cirfsk) (b0 : Nat)
    (bits : List Nat) (m : Nat) (hs : s.rxbitcount ≠ 0)
    (hs0 : s0.rxbitcount = 0) (hlock : (cir_rxbit s0 b0).1.rxbitcount = 1)
    (hbits : ∀ b ∈ bits, b < 2) (hm : m ≤ bits.length)
    (hframe : ∀ j, j < m → (cir_rxbits (cir_rxbit s0 b0).1 (bits.take j)).1.rxbitcount ≠ 0) :
    (cir_rxbit s bit).1.sync_buffer0 = s.sync_buffer0 ∧
    (cir_rxbit s bit).1.sync_buffer1 = s.sync_buffer1 ∧
    (cir_rxbit s bit).1.rxbitcount ≠ 1 ∧
    (∀ e ∈ (cir_rxbit s bit).2,
      (∀ pe fe, e ≠ Event.sync_ok pe fe) ∧ (∀ pe fe a c, e ≠ Event.sync_error pe fe a c)) ∧
    (cir_rxbits (cir_rxbit s0 b0).1 (bits.take m)).1.sync_buffer0 = 0 ∧
    (cir_rxbits (cir_rxbit s0 b0).1 (bits.take m)).1.sync_buffer1 = 0 ∧
    window (cir_rxbits (cir_rxbit s0 b0).1 (bits.take m)).1 = 0 ∧
    (∀ e ∈ (cir_rxbits (cir_rxbit s0 b0).1 (bits.take m)).2,
      (∀ pe fe, e ≠ Event.sync_ok pe fe) ∧ (∀ pe fe a c, e ≠ Event.sync_error pe fe a c)) ∧
    ((cir_rxbits (cir_rxbit s0 b0).1 (bits.take m)).1.rxbitcount = m + 1 ∨
      ((cir_rxbits (cir_rxbit s0 b0).1 (bits.take m)).1.rxbitcount = 0 ∧ 0 < m ∧
        m % 26 = 0)) := by
  obtain ⟨c0, c1, cev, _, _⟩ := cir_rxbit_collecting s bit hs
  obtain ⟨hz, hp, hw0, hw1, _⟩ := cir_rxbit_lock s0 b0 hs0 hlock
  obtain ⟨hcnt, _, h0, h1, hev, _⟩ :=
    collecting_bits bits hbits (cir_rxbit s0 b0).1 hlock hz hp m hm hframe
  have hne1 : (cir_rxbit s bit).1.rxbitcount ≠ 1 := by
    rcases cir_rxbit_collecting_count s bit hs with h | h <;> omega
  refine ⟨c0, c1, hne1, cev, by rw [h0, hw0], by rw [h1, hw1], ?_, hev, hcnt⟩
  unfold window
  rw [h0, h1, hw0, hw1]
  omega

set_option maxRecDepth 65536 in
/-- C30 at `collecting_sync_state`, and on the 234 bits of
`embedded_sync_bits` after the lock from the window `0x2aaaaaad 06ea12cf`: the
preamble and frame sync inside the frame declare no lock, the frame runs to
its last codeword and is reported once, and the window is 0 at the end. -/
theorem C30_collecting_ignores_sync_witness :
    collecting_sync_state.rxbitcount ≠ 0 ∧
    (cir_rxbit (with_accumulator collecting_sync_state 0 0) 1).1.rxbitcount = 1 ∧
    (cir_rxbit collecting_sync_state 1).1.sync_buffer0 = 0x6ea12cf ∧
    (cir_rxbit collecting_sync_state 1).1.rxbitcount ≠ 1 ∧
    (sync_state 0x6ea12cf 0x2aaaaaad).rxbitcount = 0 ∧
    (cir_rxbit (sync_state 0x6ea12cf 0x2aaaaaad) 1).1.rxbitcount = 1 ∧
    (∀ b ∈ embedded_sync_bits, b < 2) ∧ 234 ≤ embedded_sync_bits.length ∧
    (∀ j, j < 234 → (cir_rxbits (cir_rxbit (sync_state 0x6ea12cf 0x2aaaaaad) 1).1
      (embedded_sync_bits.take j)).1.rxbitcount ≠ 0) ∧
    window (cir_rxbits (cir_rxbit (sync_state 0x6ea12cf 0x2aaaaaad) 1).1
      (embedded_sync_bits.take 234)).1 = 0 ∧
    (cir_rxbits (cir_rxbit (sync_state 0x6ea12cf 0x2aaaaaad) 1).1
      (embedded_sync_bits.take 234)).1.rxbitcount = 0 ∧
    (bad_frames (cir_rxbits (cir_rxbit (sync_state 0x6ea12cf 0x2aaaaaad) 1).1
      (embedded_sync_bits.take 234)).2).length = 1 := by
  have hwould : (cir_rxbit (with_accumulator collecting_sync_state 0 0) 1).1.rxbitcount = 1 := by
    decide!
  have hlock : (cir_rxbit (sync_state 0x6ea12cf 0x2aaaaaad) 1).1.rxbitcount = 1 := by
    decide!
  have hbits : ∀ b ∈ embedded_sync_bits, b < 2 := by
    decide!
  have hlen : 234 ≤ embedded_sync_bits.length := by
    decide!
  have hframe : ∀ j, j < 234 → (cir_rxbits (cir_rxbit (sync_state 0x6ea12cf 0x2aaaaaad) 1).1
      (embedded_sync_bits.take j)).1.rxbitcount ≠ 0 := by
    decide!
  have hend : (cir_rxbits (cir_rxbit (sync_state 0x6ea12cf 0x2aaaaaad) 1).1
      (embedded_sync_bits.take 234)).1.rxbitcount = 0 := by
    decide!
  have hbad : (bad_frames (cir_rxbits (cir_rxbit (sync_state 0x6ea12cf 0x2aaaaaad) 1).1
      (embedded_sync_bits.take 234)).2).length = 1 := by
    decide!
  obtain ⟨h1, _, h3, _, _, _, h7, _⟩ := C30_collecting_ignores_sync collecting_sync_state 1
    (sync_state 0x6ea12cf 0x2aaaaaad) 1 embedded_sync_bits 234 (by decide) rfl hlock hbits hlen
    hframe
  exact ⟨by decide, hwould, h1, h3, rfl, hlock, hbits, hlen, hframe, h7, hend, hbad⟩

/-! ### State after a frame, the window over a whole run, and the expected length -/

/-- C16, amended: immediately after a frame completes (good or bad) or a
zero-length header is discarded, the decoder is in the searching state with
`rxbitcount = 0` and the codeword accumulator `rxbitstream = 0`, while
`rx_buf_pos` and `fec_errors` keep the values the frame reached (`rx_buf_pos`
is two more than before the last word, not 0), and the buffer and the error
tally keep their contents: `rxbuf` and `rx_err` are as before the call but for
the word and the severity just stored. The next call resets `rx_buf_pos` and
`fec_errors` to 0 if it declares lock and leaves both unchanged otherwise; in
either case it leaves `rxbuf` and `rx_err` unchanged. -/
theorem C16_after_frame_state (s : cirfsk) (bit : Nat)
    (hdone : good_frames (cir_rxbit s bit).2 ≠ [] ∨ bad_frames (cir_rxbit s bit).2 ≠ []
      ∨ Event.zero_length ∈ (cir_rxbit s bit).2) :
    (cir_rxbit s bit).1.rxbitcount = 0 ∧
    (cir_rxbit s bit).1.rxbitstream = 0 ∧
    (cir_rxbit s bit).1.rx_buf_pos = s.rx_buf_pos + 2 ∧
    (cir_rxbit s bit).1.fec_errors
      = (if (decode_BCH_26_16 (rx_word s bit) 0).1 ≥ 3 then s.fec_errors + 1
          else s.fec_errors) ∧
    (cir_rxbit s bit).1.rxbuf s.rx_buf_pos = rx_decoded s bit / 256 ∧
    (cir_rxbit s bit).1.rxbuf (s.rx_buf_pos + 1) = rx_decoded s bit % 256 ∧
    (∀ k, k ≠ s.rx_buf_pos → k ≠ s.rx_buf_pos + 1 →
      (cir_rxbit s bit).1.rxbuf k = s.rxbuf k) ∧
    (cir_rxbit s bit).1.rx_err (s.rx_buf_pos / 2) = rx_errors s bit ∧
    (∀ k, k ≠ s.rx_buf_pos / 2 → (cir_rxbit s bit).1.rx_err k = s.rx_err k) ∧
    ∀ b,
      ((cir_rxbit (cir_rxbit s bit).1 b).1.rxbitcount = 1 →
        (cir_rxbit (cir_rxbit s bit).1 b).1.rx_buf_pos = 0 ∧
        (cir_rxbit (cir_rxbit s bit).1 b).1.fec_errors = 0) ∧
      ((cir_rxbit (cir_rxbit s bit).1 b).1.rxbitcount ≠ 1 →
        (cir_rxbit (cir_rxbit s bit).1 b).1.rx_buf_pos = (cir_rxbit s bit).1.rx_buf_pos ∧
        (cir_rxbit (cir_rxbit s bit).1 b).1.fec_errors = (cir_rxbit s bit).1.fec_errors) ∧
      (cir_rxbit (cir_rxbit s bit).1 b).1.rxbuf = (cir_rxbit s bit).1.rxbuf ∧
      (cir_rxbit (cir_rxbit s bit).1 b).1.rx_err = (cir_rxbit s bit).1.rx_err := by
  have hcount : (cir_rxbit s bit).1.rxbitcount = 0 ∧
      s.rxbitcount ≠ 0 ∧ s.rxbitcount % 26 = 0 := by
    by_cases hq : s.rxbitcount % 26 ≠ 0 ∨ s.rxbitcount = 0
    · obtain ⟨h1, h2, h3, _⟩ := cir_rxbit_quiet s bit hq
      rcases hdone with h | h | h
      · exact absurd h1 h
      · exact absurd h2 h
      · exact absurd h h3
    · have hs : s.rxbitcount ≠ 0 := fun h => hq (Or.inr h)
      have hword : s.rxbitcount % 26 = 0 := by
        by_contra h
        exact hq (Or.inl h)
      refine ⟨?_, hs, hword⟩
      rcases cir_rxbit_at_word_cases s bit hs hword with
        ⟨_, _, h⟩ | ⟨_, _, h⟩ | ⟨_, _, _, h⟩ | ⟨_, _, _, h⟩ | ⟨_, _, h⟩
      · rw [h]
      · rw [h] at hdone
        simp [good_frames, bad_frames, rx_trace] at hdone
      · rw [h]
      · rw [h]
      · rw [h] at hdone
        simp [good_frames, bad_frames, rx_trace] at hdone
  obtain ⟨h0, hs, hword⟩ := hcount
  obtain ⟨hbuf, herr, hpos, hfec, hacc, _⟩ := cir_rxbit_at_word_fields s bit hs hword
  obtain ⟨b0, b1, e0, _, brest, erest⟩ := rx_stored_buffers s bit
  refine ⟨h0, hacc, hpos, hfec, by rw [hbuf, b0], by rw [hbuf, b1],
    fun k hk0 hk1 => by rw [hbuf, brest k hk0 hk1], by rw [herr, e0],
    fun k hk => by rw [herr, erest k hk], ?_⟩
  intro b
  rw [cir_rxbit_searching (cir_rxbit s bit).1 b h0]
  split_ifs
  · exact ⟨fun _ => ⟨rfl, rfl⟩, fun h => absurd rfl h, rfl, rfl⟩
  · exact ⟨fun h => by simp [h0] at h, fun _ => ⟨rfl, rfl⟩, rfl, rfl⟩
  · exact ⟨fun h => by simp [h0] at h, fun _ => ⟨rfl, rfl⟩, rfl, rfl⟩

set_option maxRecDepth 8192 in
/-- C16, amended, at `completing_state`: after the good frame the buffer
still holds the six bytes `01 04 12 34 b9 b2`. -/
theorem C16_after_frame_state_witness :
    good_frames (cir_rxbit completing_state 0).2 ≠ [] ∧
    (cir_rxbit completing_state 0).1.rxbitcount = 0 ∧
    (cir_rxbit completing_state 0).1.rxbitstream = 0 ∧
    (cir_rxbit completing_state 0).1.rx_buf_pos = completing_state.rx_buf_pos + 2 ∧
    (∀ k, k ≠ completing_state.rx_buf_pos → k ≠ completing_state.rx_buf_pos + 1 →
      (cir_rxbit completing_state 0).1.rxbuf k = completing_state.rxbuf k) ∧
    buffer_bytes (cir_rxbit completing_state 0).1.rxbuf 6
      = [0x01, 0x04, 0x12, 0x34, 0xb9, 0xb2] ∧
    buffer_bytes (cir_rxbit (cir_rxbit completing_state 0).1 1).1.rxbuf 6
      = [0x01, 0x04, 0x12, 0x34, 0xb9, 0xb2] := by
  have hg : good_frames (cir_rxbit completing_state 0).2 ≠ [] := by
    decide!
  have hb : buffer_bytes (cir_rxbit completing_state 0).1.rxbuf 6
      = [0x01, 0x04, 0x12, 0x34, 0xb9, 0xb2] := by
    decide!
  obtain ⟨h1, h2, h3, _, _, _, h7, _, _, h10⟩ :=
    C16_after_frame_state completing_state 0 (Or.inl hg)
  exact ⟨hg, h1, h2, h3, h7, hb, by rw [(h10 1).2.2.1]; exact hb⟩

/-- C18, amended: for every sequence of bits in {0,1} fed to `cir_rxbit` from a
zeroed state in which no lock is declared, after each call the 64-bit window
(`sync_buffer[1]` as high half, `sync_buffer[0]` as low half) holds exactly the
last 64 received bits (zero-filled while fewer than 64 have arrived), with the
most recent bit in bit 0; a call that declares lock clears the window to 0;
and the window is not shifted while a frame is being collected: a call made
with `rxbitcount ≥ 1` leaves both halves as they are, so that from the lock to
the bit that ends the frame the window is 0. Once the decoder is searching
again, and from any searching state, bits that declare no lock are shifted into
the window as before. -/
theorem C18_window_until_lock (bits : List Nat) (hbits : ∀ b ∈ bits, b < 2)
    (hno : ∀ pe fe, Event.sync_ok pe fe ∉ (cir_rxbits zero_state bits).2) :
    (∀ n, window (cir_rxbits zero_state (bits.take n)).1
      = shift_in 0 (bits.take n) % 2 ^ 64) ∧
    (∀ (s : cirfsk) (b : Nat), s.rxbitcount = 0 → (cir_rxbit s b).1.rxbitcount = 1 →
      window (cir_rxbit s b).1 = 0) ∧
    (∀ (s : cirfsk) (b : Nat), s.rxbitcount ≠ 0 →
      (cir_rxbit s b).1.sync_buffer0 = s.sync_buffer0 ∧
      (cir_rxbit s b).1.sync_buffer1 = s.sync_buffer1 ∧
      window (cir_rxbit s b).1 = window s) ∧
    (∀ (s0 : cirfsk) (b0 : Nat) (frame : List Nat) (m : Nat), s0.rxbitcount = 0 →
      (cir_rxbit s0 b0).1.rxbitcount = 1 → (∀ b ∈ frame, b < 2) → m ≤ frame.length →
      (∀ j, j < m → (cir_rxbits (cir_rxbit s0 b0).1 (frame.take j)).1.rxbitcount ≠ 0) →
      window (cir_rxbits (cir_rxbit s0 b0).1 (frame.take m)).1 = 0) ∧
    (∀ (s : cirfsk) (more : List Nat), s.rxbitcount = 0 → s.sync_buffer0 < 2 ^ 32 →
      s.sync_buffer1 < 2 ^ 32 → (∀ b ∈ more, b < 2) →
      (∀ pe fe, Event.sync_ok pe fe ∉ (cir_rxbits s more).2) →
      window (cir_rxbits s more).1 = shift_in (window s) more % 2 ^ 64) := by
  refine ⟨?_, ?_, ?_, ?_, ?_⟩
  · intro n
    exact cir_rxbits_window (bits.take n) zero_state rfl (by decide) (by decide)
      (fun b hb => hbits b (List.mem_of_mem_take hb))
      (fun pe fe hmem => hno pe fe (cir_rxbits_take_events zero_state bits n _ hmem))
  · intro s b hs hlock
    rw [cir_rxbit_searching s b hs] at hlock ⊢
    split_ifs at hlock ⊢
    · show 0 * 2 ^ 32 + 0 = 0
      omega
    · simp [hs] at hlock
    · simp [hs] at hlock
  · intro s b hs
    obtain ⟨c0, c1, _⟩ := cir_rxbit_collecting s b hs
    refine ⟨c0, c1, ?_⟩
    unfold window
    rw [c0, c1]
  · intro s0 b0 frame m hs0 hlock hframe hm hcoll
    obtain ⟨hz, hp, hw0, hw1, _⟩ := cir_rxbit_lock s0 b0 hs0 hlock
    obtain ⟨_, _, h0, h1, _⟩ :=
      collecting_bits frame hframe (cir_rxbit s0 b0).1 hlock hz hp m hm hcoll
    unfold window
    rw [h0, h1, hw0, hw1]
    omega
  · intro s more hs h0 h1 hmore hnolock
    exact cir_rxbits_window more s hs h0 h1 hmore hnolock

/-- C18, amended, on the preamble and all but the last bit of the frame-sync
word, 82 bits that declare no lock. -/
theorem C18_window_until_lock_witness :
    (∀ b ∈ (preamble ++ frame_sync).take 82, b < 2) ∧
    (∀ pe fe, Event.sync_ok pe fe
      ∉ (cir_rxbits zero_state ((preamble ++ frame_sync).take 82)).2) ∧
    window (cir_rxbits zero_state (((preamble ++ frame_sync).take 82).take 82)).1
      = shift_in 0 (((preamble ++ frame_sync).take 82).take 82) % 2 ^ 64 ∧
    window (cir_rxbit collecting_sync_state 1).1 = window collecting_sync_state ∧
    window collecting_sync_state = 0x2aaaaaad06ea12cf := by
  have hev : (cir_rxbits zero_state ((preamble ++ frame_sync).take 82)).2 = [] := by
    decide!
  have hno : ∀ pe fe, Event.sync_ok pe fe
      ∉ (cir_rxbits zero_state ((preamble ++ frame_sync).take 82)).2 := by
    intro pe fe
    rw [hev]
    exact List.not_mem_nil _
  have hbits : ∀ b ∈ (preamble ++ frame_sync).take 82, b < 2 := by
    decide!
  exact ⟨hbits, hno, (C18_window_until_lock _ hbits hno).1 82,
    ((C18_window_until_lock _ hbits hno).2.2.1 collecting_sync_state 1 (by decide)).2.2,
    by decide⟩

/-- C26, amended: within each frame, `rxlength` keeps the value it had before
the lock (the lock does not reset it) until the first codeword is decoded, and
that value is never read: replacing it changes nothing of what is printed or
reported afterwards. On bit 26 after the lock `rxlength` is assigned the low
byte of the first decoded word, also when that byte is 0 and the frame is
discarded, and it is assigned once: as long as the frame is in progress no
later codeword changes it, the one that completes the frame included. -/
theorem C26_expected_length_set_once (s0 : cirfsk) (b0 : Nat) (bits : List Nat) (m n1 : Nat)
    (hs0 : s0.rxbitcount = 0) (hlock : (cir_rxbit s0 b0).1.rxbitcount = 1)
    (hbits : ∀ b ∈ bits, b < 2) (hm : m ≤ bits.length)
    (hframe : ∀ j, j < m → (cir_rxbits (cir_rxbit s0 b0).1 (bits.take j)).1.rxbitcount ≠ 0) :
    (cir_rxbit s0 b0).1.rxlength = s0.rxlength ∧
    (m < 26 → (cir_rxbits (cir_rxbit s0 b0).1 (bits.take m)).1.rxlength = s0.rxlength) ∧
    (26 ≤ m → (cir_rxbits (cir_rxbit s0 b0).1 (bits.take m)).1.rxlength
      = word_decoded (shift_in 0 (bits.take 26)) % 256) ∧
    (cir_rxbits (with_rxlength (cir_rxbit s0 b0).1 n1) bits).2
      = (cir_rxbits (cir_rxbit s0 b0).1 bits).2 ∧
    (m = 26 → word_decoded (shift_in 0 (bits.take 26)) % 256 = 0 →
      (cir_rxbits (cir_rxbit s0 b0).1 (bits.take m)).1.rxlength = 0 ∧
      (cir_rxbits (cir_rxbit s0 b0).1 (bits.take m)).1.rxbitcount = 0) := by
  obtain ⟨hz, hp, _, _, hl, _⟩ := cir_rxbit_lock s0 b0 hs0 hlock
  obtain ⟨_, _, _, _, _, hlo, hhi, _⟩ :=
    collecting_bits bits hbits (cir_rxbit s0 b0).1 hlock hz hp m hm hframe
  refine ⟨hl, fun h => by rw [hlo h, hl], hhi, ?_, ?_⟩
  · have hsame : same_from_lock (cir_rxbit s0 b0).1 (with_rxlength (cir_rxbit s0 b0).1 n1) :=
      ⟨rfl, rfl, rfl, fun _ => ⟨rfl, rfl, fun _ _ => rfl, fun _ _ => rfl,
        fun h => absurd h (by rw [hlock]; decide)⟩⟩
    exact cir_rxbits_same bits _ _ hsame
  · intro h26 hzero
    subst h26
    refine ⟨by rw [hhi (Nat.le_refl 26), hzero], ?_⟩
    obtain ⟨hcnt, hacc, _⟩ := collecting_bits bits hbits (cir_rxbit s0 b0).1 hlock hz hp 25
      (by omega) (fun j hj => hframe j (by omega))
    have h25 := hframe 25 (by decide)
    have hc25 : (cir_rxbits (cir_rxbit s0 b0).1 (bits.take 25)).1.rxbitcount = 26 := by
      rcases hcnt with h | ⟨h, _⟩
      · exact h
      · exact absurd h h25
    obtain ⟨hword, _⟩ := rx_word_segment bits hbits _ 25 (by omega) (hacc h25)
    obtain ⟨hst, _⟩ := cir_rxbits_take_succ (cir_rxbit s0 b0).1 bits 25 (by omega)
    rw [hst]
    rcases cir_rxbit_at_word_cases (cir_rxbits (cir_rxbit s0 b0).1 (bits.take 25)).1
        (bits.getD 25 0) h25 (by rw [hc25]) with
      ⟨_, _, h⟩ | ⟨_, hnz, _⟩ | ⟨hne, _⟩ | ⟨hne, _⟩ | ⟨hne, _⟩
    · rw [h]
    · rw [rx_decoded_eq_word_decoded, hword] at hnz
      exact absurd hzero hnz
    · exact absurd hc25 hne
    · exact absurd hc25 hne
    · exact absurd hc25 hne

set_option maxRecDepth 16384 in
/-- C26, amended, on a lock declared with `rxlength = 9` left over. Followed by
the bits of `good_words`: the lock leaves the 9, and from bit 26 to the end of
the frame `rxlength` is the 4 of the new header. Followed by the codeword of the
header `01 00`: bit 26 assigns 0 and returns the decoder to searching. -/
theorem C26_expected_length_set_once_witness :
    (with_rxlength (sync_state 0x6ea12cf 0x2aaaaaad) 9).rxbitcount = 0 ∧
    (cir_rxbit (with_rxlength (sync_state 0x6ea12cf 0x2aaaaaad) 9) 1).1.rxbitcount = 1 ∧
    (∀ b ∈ word_bits good_words, b < 2) ∧ 78 ≤ (word_bits good_words).length ∧
    (∀ j, j < 78 → (cir_rxbits (cir_rxbit (with_rxlength (sync_state 0x6ea12cf 0x2aaaaaad) 9) 1).1
      ((word_bits good_words).take j)).1.rxbitcount ≠ 0) ∧
    (cir_rxbit (with_rxlength (sync_state 0x6ea12cf 0x2aaaaaad) 9) 1).1.rxlength = 9 ∧
    (cir_rxbits (cir_rxbit (with_rxlength (sync_state 0x6ea12cf 0x2aaaaaad) 9) 1).1
      ((word_bits good_words).take 78)).1.rxlength
        = word_decoded (shift_in 0 ((word_bits good_words).take 26)) % 256 ∧
    word_decoded (shift_in 0 ((word_bits good_words).take 26)) % 256 = 4 ∧
    (∀ b ∈ bits_msb 26 (bch_encode 0x0100), b < 2) ∧
    26 ≤ (bits_msb 26 (bch_encode 0x0100)).length ∧
    (∀ j, j < 26 → (cir_rxbits (cir_rxbit (with_rxlength (sync_state 0x6ea12cf 0x2aaaaaad) 9) 1).1
      ((bits_msb 26 (bch_encode 0x0100)).take j)).1.rxbitcount ≠ 0) ∧
    word_decoded (shift_in 0 ((bits_msb 26 (bch_encode 0x0100)).take 26)) % 256 = 0 ∧
    (cir_rxbits (cir_rxbit (with_rxlength (sync_state 0x6ea12cf 0x2aaaaaad) 9) 1).1
      ((bits_msb 26 (bch_encode 0x0100)).take 26)).1.rxlength = 0 ∧
    (cir_rxbits (cir_rxbit (with_rxlength (sync_state 0x6ea12cf 0x2aaaaaad) 9) 1).1
      ((bits_msb 26 (bch_encode 0x0100)).take 26)).1.rxbitcount = 0 := by
  have hlock : (cir_rxbit (with_rxlength (sync_state 0x6ea12cf 0x2aaaaaad) 9) 1).1.rxbitcount
      = 1 := by
    decide!
  have hbits : ∀ b ∈ word_bits good_words, b < 2 := by
    decide!
  have hlen : 78 ≤ (word_bits good_words).length := by
    decide!
  have hframe : ∀ j, j < 78 →
      (cir_rxbits (cir_rxbit (with_rxlength (sync_state 0x6ea12cf 0x2aaaaaad) 9) 1).1
        ((word_bits good_words).take j)).1.rxbitcount ≠ 0 := by
    decide!
  have hnew : word_decoded (shift_in 0 ((word_bits good_words).take 26)) % 256 = 4 := by
    decide!
  have hbits0 : ∀ b ∈ bits_msb 26 (bch_encode 0x0100), b < 2 := by
    decide!
  have hlen0 : 26 ≤ (bits_msb 26 (bch_encode 0x0100)).length := by
    decide!
  have hframe0 : ∀ j, j < 26 →
      (cir_rxbits (cir_rxbit (with_rxlength (sync_state 0x6ea12cf 0x2aaaaaad) 9) 1).1
        ((bits_msb 26 (bch_encode 0x0100)).take j)).1.rxbitcount ≠ 0 := by
    decide!
  have hzero : word_decoded (shift_in 0 ((bits_msb 26 (bch_encode 0x0100)).take 26)) % 256
      = 0 := by
    decide!
  obtain ⟨h1, _, h3, _⟩ := C26_expected_length_set_once
    (with_rxlength (sync_state 0x6ea12cf 0x2aaaaaad) 9) 1 (word_bits good_words) 78 0
    rfl hlock hbits hlen hframe
  obtain ⟨_, _, _, _, z5⟩ := C26_expected_length_set_once
    (with_rxlength (sync_state 0x6ea12cf 0x2aaaaaad) 9) 1 (bits_msb 26 (bch_encode 0x0100)) 26 0
    rfl hlock hbits0 hlen0 hframe0
  exact ⟨rfl, hlock, hbits, hlen, hframe, h1, h3 (by decide), hnew, hbits0, hlen0, hframe0,
    hzero, (z5 rfl hzero).1, (z5 rfl hzero).2⟩

end CIR
